import Mathlib

/-!
# The classic Bloom-filter index: builder, combiner and row fetch

A shallow embedding of `src/lib/bloom_filter.cpp` (namespace `genome`) and of
`ClassicIndexMMapSearchFile::read_from_disk`
(`src/cobs/query/classic_index/mmap_search_file.cpp`, namespace `cobs`).

Conventions of the embedding.

* A byte is a natural number; a stored byte is reduced `% 256` where the C++
  code assigns to a `byte` lvalue.
* `size_t` and `uint64_t` values are natural numbers, and an access outside an
  object is a failure.  Three computations keep the 64-bit arithmetic, because
  the code goes on with the wrapped value: the size
  `bloom_filter_size * block_size` of `m_data` in the constructor, the size
  `8 * m_block_size` of the name list in `process`, and the sum `begin + size`
  that `read_from_disk` checks; they are taken `% 2 ^ 64`.
* The loop counters of `create_hashes` and `contains` are `unsigned int`
  (32 bits) while their bound is a `size_t`; the increment is therefore
  `(i + 1) % 2 ^ 32` and those loops take fuel: one unit per evaluation of the
  loop condition.
* A run returns `Except failure α`: `failure.diverges` when the fuel is used up
  while the loop is still running, the other constructors for undefined
  behaviour the code can reach (access outside a buffer, `% 0`), a failed
  `assert`, a failed `die_unless` or `die`, and a thrown `std::invalid_argument`.
* The macro `assert` expands to nothing when `NDEBUG` is defined; the callback
  of `combine_bloom_filters`, whose only checks are two `assert`s, takes that
  setting as a parameter.
* An object that `cast_advance` declares and does not initialise holds bytes
  that are a parameter (`uninit`); a read that meets the end of the stream
  leaves them in place.
* Products of `uint32_t` header fields (`8 * h.num_words_per_kmer`,
  `5 * h.num_colors`) are taken `% 2 ^ 32`, as the C++ arithmetic does.
* `XXH32` is the hash of the xxHash library; it is a parameter of every
  definition that calls it.
* The helper `bulk_process_files` is not among the sources; the batches it hands
  to its callback are a parameter of `create_from_samples` and of
  `combine_bloom_filters`.
-/

/-- Ways in which a run of the embedded code does not produce a value. -/
inductive failure where
  | diverges
  | out_of_range
  | division_by_zero
  | assertion
  | die
  | invalid_argument (what : String)
deriving DecidableEq, Repr

deriving instance DecidableEq for Except

set_option linter.dupNamespace false

namespace genome

/-- Modelled from the spec: the class template `kmer<31>` of `kmer.hpp` is not
among the sources.  A 31-mer is stored as 8 bytes; `data` is that storage, and it
is the whole object, so `&kmer` and `&kmer.data()` address the same bytes. -/
structure kmer where
  data : List Nat
deriving DecidableEq, Repr

/-- Modelled from the spec: `kmer<31>::size`, the number of bytes of a stored
31-mer, is 8. -/
def kmer.size : Nat := 8

/-- Modelled from the spec: a sample path, as `bloom_filter::process` uses it.
`stem` is what `p.stem().string()` returns and `kmers` is the k-mer vector that
`file::deserialize(p, s)` leaves in `s.data()`; `boost::filesystem` and
`file/util.hpp` are not among the sources. -/
structure path where
  stem : String
  kmers : List kmer
deriving DecidableEq, Repr

/-- The header `file::bloom_filter_header(bloom_filter_size, block_size,
num_hashes, file_names)`; its fields are those the constructor call in
`combine` passes. -/
structure bloom_filter_header where
  bloom_filter_size : Nat
  block_size : Nat
  num_hashes : Nat
  file_names : List String
deriving DecidableEq, Repr

/-- A bloom filter file: the header followed by the body bytes. -/
structure bloom_filter_file where
  header : bloom_filter_header
  body : List Nat
deriving DecidableEq, Repr

/-- The members of `class bloom_filter`; `m_data` is the `std::vector<byte>`. -/
structure bloom_filter where
  m_bloom_filter_size : Nat
  m_block_size : Nat
  m_num_hashes : Nat
  m_data : List Nat
deriving DecidableEq, Repr

/-- The standard stream `std::ifstream`, as far as `combine` uses it: `rest` are
the bytes of the file that have not been read, `good` is false once a read has
met the end of the file. -/
structure ifstream where
  rest : List Nat
  good : Bool
deriving DecidableEq, Repr

/-- The call `ifs.read(buffer, n)`: the bytes it stores and the stream after it.
A stream that is not good reads nothing; a read that meets the end of the file
stores what is left and clears `good`. -/
def ifstream.read (ifs : ifstream) (n : Nat) : List Nat × ifstream :=
  if ifs.good then
    if n ≤ ifs.rest.length then (ifs.rest.take n, { rest := ifs.rest.drop n, good := true })
    else (ifs.rest, { rest := [], good := false })
  else ([], ifs)

namespace bloom_filter

/-- The loop of `create_hashes`: `for (unsigned int i = 0; i < num_hashes; i++)`,
started at counter `i` with state `st`; the callback acts on the state. -/
def create_hashes.loop {σ : Type} (XXH32 : List Nat → Nat → Nat → Nat)
    (input : List Nat) (len bloom_filter_size num_hashes : Nat)
    (callback : Nat → σ → Except failure σ) : Nat → Nat → σ → Except failure σ
  | 0, _, _ => .error .diverges
  | fuel + 1, i, st =>
    if i < num_hashes then
      if bloom_filter_size = 0 then .error .division_by_zero
      else
        match callback (XXH32 input len i % bloom_filter_size) st with
        | .error e => .error e
        | .ok st1 =>
          create_hashes.loop XXH32 input len bloom_filter_size num_hashes callback
            fuel ((i + 1) % 2 ^ 32) st1
    else .ok st

/-- Static member `bloom_filter::create_hashes(input, len, bloom_filter_size, num_hashes, callback)`. -/
def create_hashes {σ : Type} (XXH32 : List Nat → Nat → Nat → Nat)
    (input : List Nat) (len bloom_filter_size num_hashes : Nat)
    (callback : Nat → σ → Except failure σ) (fuel : Nat) (st : σ) : Except failure σ :=
  create_hashes.loop XXH32 input len bloom_filter_size num_hashes callback fuel 0 st

/-- The constructor `bloom_filter(bloom_filter_size, block_size, num_hashes)`:
`m_data` is value-initialised, `bloom_filter_size * block_size` zero bytes, the
product being one of `uint64_t` values. -/
def bloom_filter (bloom_filter_size block_size num_hashes : Nat) : genome.bloom_filter :=
  { m_bloom_filter_size := bloom_filter_size
    m_block_size := block_size
    m_num_hashes := num_hashes
    m_data := List.replicate ((bloom_filter_size * block_size) % 2 ^ 64) 0 }

/-- Member `set_bit(pos, bit_in_block)`:
`m_data[m_block_size * pos + bit_in_block / 8] |= 1 << (bit_in_block % 8)`. -/
def set_bit (bf : genome.bloom_filter) (pos bit_in_block : Nat) :
    Except failure genome.bloom_filter :=
  match bf.m_data[bf.m_block_size * pos + bit_in_block / 8]? with
  | none => .error .out_of_range
  | some b =>
    .ok { bf with
          m_data := bf.m_data.set (bf.m_block_size * pos + bit_in_block / 8)
            ((b ||| (1 <<< (bit_in_block % 8))) % 256) }

/-- Member `is_set(pos, bit_in_block)`:
`(m_data[m_block_size * pos + bit_in_block / 8] & (1 << (bit_in_block % 8))) != 0`. -/
def is_set (bf : genome.bloom_filter) (pos bit_in_block : Nat) : Except failure Bool :=
  match bf.m_data[bf.m_block_size * pos + bit_in_block / 8]? with
  | none => .error .out_of_range
  | some b => .ok (b &&& (1 <<< (bit_in_block % 8)) != 0)

/-- The loop of `contains`: `for (unsigned int k = 0; k < m_num_hashes; k++)`. -/
def contains.loop (XXH32 : List Nat → Nat → Nat → Nat) (bf : genome.bloom_filter)
    (kmer : genome.kmer) (bit_in_block : Nat) : Nat → Nat → Except failure Bool
  | 0, _ => .error .diverges
  | fuel + 1, k =>
    if k < bf.m_num_hashes then
      if bf.m_bloom_filter_size = 0 then .error .division_by_zero
      else
        match is_set bf (XXH32 kmer.data 8 k % bf.m_bloom_filter_size) bit_in_block with
        | .error e => .error e
        | .ok false => .ok false
        | .ok true => contains.loop XXH32 bf kmer bit_in_block fuel ((k + 1) % 2 ^ 32)
    else .ok true

/-- Member `contains(kmer, bit_in_block)`; the `assert` on the column comes
first.  A build with `NDEBUG` does not evaluate it, which changes nothing for a
column below `8 * m_block_size`. -/
def contains (XXH32 : List Nat → Nat → Nat → Nat) (bf : genome.bloom_filter)
    (kmer : genome.kmer) (bit_in_block : Nat) (fuel : Nat) : Except failure Bool :=
  if bit_in_block < 8 * bf.m_block_size then
    contains.loop XXH32 bf kmer bit_in_block fuel 0
  else .error .assertion

/-- The range-for of `process` over `s.data()`, for the sample at index `i`:
every k-mer goes through `create_hashes` with the callback `set_bit(hash, i)`. -/
def process.kmers (XXH32 : List Nat → Nat → Nat → Nat) (i fuel : Nat) :
    List genome.kmer → genome.bloom_filter → Except failure genome.bloom_filter
  | [], bf => .ok bf
  | kmer :: rest, bf =>
    match create_hashes XXH32 kmer.data genome.kmer.size bf.m_bloom_filter_size
        bf.m_num_hashes (fun hash b => set_bit b hash i) fuel bf with
    | .error e => .error e
    | .ok bf1 => process.kmers XXH32 i fuel rest bf1

/-- The loop `for (size_t i = 0; i < paths.size(); i++)` of `process`, entered
at index `i` with the paths from `i` on. -/
def process.paths (XXH32 : List Nat → Nat → Nat → Nat) (fuel : Nat) :
    Nat → List genome.path → genome.bloom_filter → Except failure genome.bloom_filter
  | _, [], bf => .ok bf
  | i, p :: rest, bf =>
    match process.kmers XXH32 i fuel p.kmers bf with
    | .error e => .error e
    | .ok bf1 => process.paths XXH32 fuel (i + 1) rest bf1

/-- The call `std::transform(paths.begin(), paths.end(), file_names.begin(), ...)`
of `process`, entered at output index `i` with the paths still to go: entry `i`
of `file_names` becomes the stem of the next path.  A write past the end of the
vector is out of range. -/
def process.transform : List genome.path → Nat → List String → Except failure (List String)
  | [], _, file_names => .ok file_names
  | p :: rest, i, file_names =>
    if i < file_names.length then process.transform rest (i + 1) (file_names.set i p.stem)
    else .error .out_of_range

/-- Lines 34 to 37 of `process`: `file_names` is constructed with
`8 * m_block_size` empty strings, the product being one of 64-bit unsigned
values, then `std::transform` writes the stems. -/
def process.file_names (block_size : Nat) (paths : List genome.path) :
    Except failure (List String) :=
  process.transform paths 0 (List.replicate ((8 * block_size) % 2 ^ 64) "")

/-- Member `process(paths, out_file, t)`: the builder after the call and the file that
`file::serialize(out_file, *this, file_names)` writes (header fields of the
builder, the names, then `m_data`). -/
def process (XXH32 : List Nat → Nat → Nat → Nat) (bf : genome.bloom_filter)
    (paths : List genome.path) (fuel : Nat) :
    Except failure (genome.bloom_filter × bloom_filter_file) :=
  match process.paths XXH32 fuel 0 paths bf with
  | .error e => .error e
  | .ok bf1 =>
    match process.file_names bf1.m_block_size paths with
    | .error e => .error e
    | .ok file_names =>
      .ok (bf1, { header := { bloom_filter_size := bf1.m_bloom_filter_size
                              block_size := bf1.m_block_size
                              num_hashes := bf1.m_num_hashes
                              file_names := file_names }
                  body := bf1.m_data })

/-- The inner loop of `combine`, `for (auto& ifs: ifstreams)`: each stream reads
`ifs.second` bytes to `block.begin() + pos`, then `pos += ifs.second`.  A read
that would store past the end of `block` is out of range. -/
def combine.read_row : List (ifstream × Nat) → Nat → List Nat →
    Except failure (List (ifstream × Nat) × List Nat)
  | [], _, block => .ok ([], block)
  | ifs :: rest, pos, block =>
    if pos + ifs.2 ≤ block.length then
      match combine.read_row rest (pos + ifs.2)
          (block.take pos ++ (ifs.1.read ifs.2).1
            ++ block.drop (pos + (ifs.1.read ifs.2).1.length)) with
      | .error e => .error e
      | .ok (rest1, block1) => .ok (((ifs.1.read ifs.2).2, ifs.2) :: rest1, block1)
    else .error .out_of_range

/-- The outer loop of `combine`, `for (size_t i = 0; i < bloom_filter_size; i++)`,
with `n` rows still to go: the bytes that the calls `ofs.write(block, block_size)`
append to the output. -/
def combine.rows : Nat → List (ifstream × Nat) → List Nat → Except failure (List Nat)
  | 0, _, _ => .ok []
  | n + 1, ifstreams, block =>
    match combine.read_row ifstreams 0 block with
    | .error e => .error e
    | .ok (ifstreams1, block1) =>
      match combine.rows n ifstreams1 block1 with
      | .error e => .error e
      | .ok body => .ok (block1 ++ body)

/-- Static member `combine(ifstreams, out_file, bloom_filter_size, block_size,
num_hash, t, file_names)`: the file it writes, the header first and the rows
after it; `block` starts as `block_size` zero bytes. -/
def combine (ifstreams : List (ifstream × Nat)) (bloom_filter_size block_size num_hash : Nat)
    (file_names : List String) : Except failure bloom_filter_file :=
  match combine.rows bloom_filter_size ifstreams (List.replicate block_size 0) with
  | .error e => .error e
  | .ok body =>
    .ok { header := { bloom_filter_size := bloom_filter_size
                      block_size := block_size
                      num_hashes := num_hash
                      file_names := file_names }
          body := body }

/-- The loop `for (const auto& p: paths)` in the callback of
`combine_bloom_filters`.  An input file is given by its content: the call
`file::deserialize_header` returns its header and leaves the stream at the
start of its body.  The state is `ifstreams`, `file_names` and
`new_block_size`.  The two `assert`s are evaluated unless `NDEBUG` is defined. -/
def combine_bloom_filters.open (NDEBUG : Bool) (bloom_filter_size num_hashes : Nat) :
    List bloom_filter_file → List (ifstream × Nat) × List String × Nat →
    Except failure (List (ifstream × Nat) × List String × Nat)
  | [], st => .ok st
  | p :: rest, (ifstreams, file_names, new_block_size) =>
    if NDEBUG = false ∧ p.header.bloom_filter_size ≠ bloom_filter_size then .error .assertion
    else if NDEBUG = false ∧ p.header.num_hashes ≠ num_hashes then .error .assertion
    else
      combine_bloom_filters.open NDEBUG bloom_filter_size num_hashes rest
        (ifstreams ++ [({ rest := p.body, good := true }, p.header.block_size)],
         file_names ++ p.header.file_names,
         new_block_size + p.header.block_size)

/-- The callback that `combine_bloom_filters` hands to `bulk_process_files`, run
on one batch `paths`: `ifstreams` and `file_names` are the two vectors declared
outside the callback, which the callback clears before it returns. -/
def combine_bloom_filters.batch (NDEBUG : Bool) (bloom_filter_size num_hashes : Nat)
    (st : List (ifstream × Nat) × List String) (paths : List bloom_filter_file) :
    Except failure ((List (ifstream × Nat) × List String) × bloom_filter_file) :=
  match combine_bloom_filters.open NDEBUG bloom_filter_size num_hashes paths
      (st.1, st.2, 0) with
  | .error e => .error e
  | .ok (ifstreams, file_names, new_block_size) =>
    match combine ifstreams bloom_filter_size new_block_size num_hashes file_names with
    | .error e => .error e
    | .ok out => .ok (([], []), out)

/-- The batches of `combine_bloom_filters`, one callback run after the other on
the shared vectors; the result lists the files written. -/
def combine_bloom_filters.batches (NDEBUG : Bool) (bloom_filter_size num_hashes : Nat) :
    List (List bloom_filter_file) → List (ifstream × Nat) × List String →
    Except failure (List bloom_filter_file)
  | [], _ => .ok []
  | paths :: rest, st =>
    match combine_bloom_filters.batch NDEBUG bloom_filter_size num_hashes st paths with
    | .error e => .error e
    | .ok (st1, out) =>
      match combine_bloom_filters.batches NDEBUG bloom_filter_size num_hashes rest st1 with
      | .error e => .error e
      | .ok outs => .ok (out :: outs)

/-- Static member `combine_bloom_filters(in_dir, out_dir, bloom_filter_size,
num_hashes, batch_size)`.  The helper `bulk_process_files` is not among the
sources: `batches` are the path lists it passes to the callback, in call order;
`NDEBUG` says whether the build defines that macro. -/
def combine_bloom_filters (NDEBUG : Bool) (batches : List (List bloom_filter_file))
    (bloom_filter_size num_hashes : Nat) : Except failure (List bloom_filter_file) :=
  combine_bloom_filters.batches NDEBUG bloom_filter_size num_hashes batches ([], [])

/-- The batches of `create_from_samples`: every callback run is
`bf.process(paths, out_file, t)` on the one builder `bf`. -/
def create_from_samples.batches (XXH32 : List Nat → Nat → Nat → Nat) (fuel : Nat) :
    List (List genome.path) → genome.bloom_filter → Except failure (List bloom_filter_file)
  | [], _ => .ok []
  | paths :: rest, bf =>
    match process XXH32 bf paths fuel with
    | .error e => .error e
    | .ok (bf1, out) =>
      match create_from_samples.batches XXH32 fuel rest bf1 with
      | .error e => .error e
      | .ok outs => .ok (out :: outs)

/-- Static member `create_from_samples(in_dir, out_dir, bloom_filter_size,
block_size, num_hashes)`: the builder `bf` is constructed once, before
`bulk_process_files` runs the callback.  That helper is not among the sources:
`batches` are the path lists it passes to the callback, in call order. -/
def create_from_samples (XXH32 : List Nat → Nat → Nat → Nat)
    (batches : List (List genome.path)) (bloom_filter_size block_size num_hashes : Nat)
    (fuel : Nat) : Except failure (List bloom_filter_file) :=
  create_from_samples.batches XXH32 fuel batches
    (bloom_filter.bloom_filter bloom_filter_size block_size num_hashes)

end bloom_filter

end genome

namespace cobs

/-- The two header fields that `read_from_disk` reads through `header_`. -/
structure ClassicIndexHeader where
  signature_size : Nat
  row_size : Nat
deriving DecidableEq, Repr

/-- The members of `ClassicIndexMMapSearchFile` that `read_from_disk` uses:
`data_` is the mapped body of the index file. -/
structure ClassicIndexMMapSearchFile where
  header_ : ClassicIndexHeader
  data_ : List Nat
deriving DecidableEq, Repr

namespace ClassicIndexMMapSearchFile

/-- The loop of `read_from_disk`, entered at index `i` with the hashes from `i`
on: `std::copy(data_8, data_8 + size, rows_8)` with
`data_8 = data_ + begin + (hashes[i] % signature_size) * row_size` and
`rows_8 = rows + i * buffer_size`.  A copy that leaves `data_` or `rows` is out
of range. -/
def read_from_disk.loop (f : ClassicIndexMMapSearchFile) ( begin size buffer_size : Nat) :
    Nat → List Nat → List Nat → Except failure (List Nat)
  | _, [], rows => .ok rows
  | i, h :: hashes, rows =>
    if f.header_.signature_size = 0 then .error .division_by_zero
    else if begin + (h % f.header_.signature_size) * f.header_.row_size + size ≤ f.data_.length then
      if i * buffer_size + size ≤ rows.length then
        read_from_disk.loop f begin size buffer_size (i + 1) hashes
          (rows.take (i * buffer_size)
            ++ (f.data_.drop ( begin + (h % f.header_.signature_size) * f.header_.row_size)).take size
            ++ rows.drop (i * buffer_size + size))
      else .error .out_of_range
    else .error .out_of_range

/-- Member `read_from_disk(hashes, rows, begin, size, buffer_size)`: the content
of the buffer `rows` after the call.  The sum `begin + size` that `die_unless`
tests is one of `size_t` values. -/
def read_from_disk (f : ClassicIndexMMapSearchFile) (hashes : List Nat) (rows : List Nat)
    ( begin size buffer_size : Nat) : Except failure (List Nat) :=
  if (begin + size) % 2 ^ 64 ≤ f.header_.row_size then
    read_from_disk.loop f begin size buffer_size 0 hashes rows
  else .error .die

end ClassicIndexMMapSearchFile

end cobs


/-! ## Vocabulary of the statements, and data for evaluating the definitions -/

namespace genome

/-- The bit of column `c` in row `r` of a matrix body of row width `W`: bit
`c % 8` of the byte at offset `W * r + c / 8`, bit 0 being the least
significant; a byte outside the body counts as zero. -/
def matrix_bit (body : List Nat) (W r c : Nat) : Bool :=
  (body.getD (W * r + c / 8) 0).testBit (c % 8)

/-- A hash function for evaluating the definitions on concrete data: the sum of
the first `len` input bytes plus seven times the seed. -/
def sum_hash (input : List Nat) (len seed : Nat) : Nat :=
  (input.take len).sum + 7 * seed

/-- A builder with the parameters `S`, `W`, `H` whose matrix `m_data` holds
`S * W` bytes, as the constructor makes it when `S * W < 2 ^ 64` and `set_bit`
keeps it. -/
def has_shape (bf : bloom_filter) (S W H : Nat) : Prop :=
  bf.m_bloom_filter_size = S ∧ bf.m_block_size = W ∧ bf.m_num_hashes = H
    ∧ bf.m_data.length = S * W

instance (bf : bloom_filter) (S W H : Nat) : Decidable (has_shape bf S W H) := by
  unfold has_shape
  infer_instance

/-- Two sample paths for evaluating the builder on concrete data: `a` holds the
k-mer with bytes `1 0 0 0 0 0 0 0`, `b` the k-mer with bytes `3 0 0 0 0 0 0 0`. -/
def two_paths : List path :=
  [{ stem := "a", kmers := [{ data := [1, 0, 0, 0, 0, 0, 0, 0] }] },
   { stem := "b", kmers := [{ data := [3, 0, 0, 0, 0, 0, 0, 0] }] }]

/-- A builder of two rows of one byte, for evaluating `set_bit` on concrete data. -/
def small_builder : bloom_filter :=
  { m_bloom_filter_size := 2, m_block_size := 1, m_num_hashes := 1, m_data := [0, 5] }

/-- Two batches for evaluating `create_from_samples` on concrete data: a full
batch of eight paths, the first two being `two_paths` and the other six holding
no k-mer, then a batch of one path that holds no k-mer. -/
def two_batches : List (List path) :=
  [two_paths ++
     [{ stem := "c", kmers := [] }, { stem := "d", kmers := [] }, { stem := "e", kmers := [] },
      { stem := "f", kmers := [] }, { stem := "g", kmers := [] }, { stem := "h", kmers := [] }],
   [{ stem := "i", kmers := [] }]]

/-- Two input streams for evaluating `combine` on concrete data: three rows of
two bytes, and three rows of one byte. -/
def two_streams : List (ifstream × Nat) :=
  [({ rest := [1, 2, 3, 4, 5, 6], good := true }, 2), ({ rest := [7, 8, 9], good := true }, 1)]

/-- Two batch files of eight samples and row width 1, for evaluating
`combine_bloom_filters` on concrete data: the names `a0 .. a7` and `b0 .. b7`,
two rows each. -/
def two_files : List bloom_filter_file :=
  [{ header := { bloom_filter_size := 2, block_size := 1, num_hashes := 1,
                 file_names := ["a0", "a1", "a2", "a3", "a4", "a5", "a6", "a7"] },
     body := [8, 0] },
   { header := { bloom_filter_size := 2, block_size := 1, num_hashes := 1,
                 file_names := ["b0", "b1", "b2", "b3", "b4", "b5", "b6", "b7"] },
     body := [0, 32] }]

end genome

namespace cobs

/-- A mapped index of three rows of two bytes, for evaluating `read_from_disk`
on concrete data. -/
def small_index : ClassicIndexMMapSearchFile :=
  { header_ := { signature_size := 3, row_size := 2 }, data_ := [1, 2, 3, 4, 5, 6] }

end cobs

/-! ## Cortex ingestion (`src/cobs/cortex.hpp`) -/

namespace cobs.cortex

/-- The struct `header` of `cortex.hpp`; `name` is the `std::string`, as bytes. -/
structure header where
  version : Nat
  kmer_size : Nat
  num_words_per_kmer : Nat
  num_colors : Nat
  name : List Nat
deriving DecidableEq, Repr

/-- The standard stream `std::istream`, as far as `cortex.hpp` uses it: `rest` are
the bytes not extracted yet, `pos` is what `tellg` returns while the stream is
good, and `good` is false once an extraction has met the end of the stream. -/
structure istream where
  rest : List Nat
  pos : Nat
  good : Bool
deriving DecidableEq, Repr

/-- The call `is.get()`: the character extracted, `none` for `EOF`, and the
stream after the call. -/
def istream.get (is : istream) : Option Nat × istream :=
  if is.good then
    match is.rest with
    | [] => (none, { is with good := false })
    | b :: rest => (some b, { rest := rest, pos := is.pos + 1, good := true })
  else (none, is)

/-- The call `is.read(buffer, n)`: the bytes it stores and the stream after it. -/
def istream.read (is : istream) (n : Nat) : List Nat × istream :=
  if is.good then
    if n ≤ is.rest.length then
      (is.rest.take n, { rest := is.rest.drop n, pos := is.pos + n, good := true })
    else (is.rest, { rest := [], pos := is.pos + is.rest.length, good := false })
  else ([], is)

/-- The call `is.ignore(n)`: the stream after it. -/
def istream.ignore (is : istream) (n : Nat) : istream :=
  if is.good then
    if n ≤ is.rest.length then
      { rest := is.rest.drop n, pos := is.pos + n, good := true }
    else { rest := [], pos := is.pos + is.rest.length, good := false }
  else is

/-- The unsigned integer whose object representation is the given bytes, least
significant byte first. -/
def little_endian : List Nat → Nat
  | [] => 0
  | b :: bytes => b % 256 + 256 * little_endian bytes

/-- The template `cast_advance<Type>(is)` for an unsigned integer type of `size`
bytes: `Type t; is.read(&t, sizeof(t)); return t;`.  The object `t` is not
initialised: `t` are the bytes it holds before the read, and the read stores the
bytes it extracts over the first of them.  The result is the value returned and
the stream after the call. -/
def cast_advance (size : Nat) (t : List Nat) (is : istream) : Nat × istream :=
  (little_endian (((is.read size).1 ++ t.drop (is.read size).1.length).take size),
   (is.read size).2)

/-- The bytes of `std::string magic_word = "CORTEX"`. -/
def magic_word : List Nat := [67, 79, 82, 84, 69, 88]

/-- The loop of `check_magic_number` over the characters of `magic_word` still to
be compared. -/
def check_magic_number.loop : List Nat → istream → Except failure istream
  | [], is => .ok is
  | m :: word, is =>
    if is.get.1 = some m then check_magic_number.loop word is.get.2
    else .error (.invalid_argument "magic number does not match")

/-- The function `check_magic_number(is)`. -/
def check_magic_number (is : istream) : Except failure istream :=
  check_magic_number.loop magic_word is

/-- The first loop of `skip_header` over the colours, `n` colours to go:
`mean_read_length` and `total_length` are read and dropped. -/
def skip_header.lengths (uninit : Nat → Nat → List Nat) : Nat → istream → istream
  | 0, is => is
  | n + 1, is =>
    skip_header.lengths uninit n
      (cast_advance 8 (uninit 5 n) (cast_advance 4 (uninit 4 n) is).2).2

/-- The second loop of `skip_header` over the colours, `n` colours to go:
`h.name.resize(sample_name_length)` keeps the first characters of the name and
pads with zero characters, then `is.read(h.name.data(), sample_name_length)`
stores what it extracts over the first characters. -/
def skip_header.names (uninit : Nat → Nat → List Nat) :
    Nat → List Nat → istream → List Nat × istream
  | 0, name, is => (name, is)
  | n + 1, name, is =>
    let sample_name_length := cast_advance 4 (uninit 6 n) is
    skip_header.names uninit n
      ((sample_name_length.2.read sample_name_length.1).1
        ++ (name.take sample_name_length.1
              ++ List.replicate (sample_name_length.1 - name.length) 0).drop
            (sample_name_length.2.read sample_name_length.1).1.length)
      (sample_name_length.2.read sample_name_length.1).2

/-- The third loop of `skip_header` over the colours, `n` colours to go:
`is.ignore(12)`, then the length of the graph name is read and that many bytes
are ignored. -/
def skip_header.graph_names (uninit : Nat → Nat → List Nat) : Nat → istream → istream
  | 0, is => is
  | n + 1, is =>
    let length_graph_name := cast_advance 4 (uninit 7 n) (is.ignore 12)
    skip_header.graph_names uninit n (length_graph_name.2.ignore length_graph_name.1)

/-- The function `skip_header(is)`: the header it returns and the stream after
it.  The macros `die` and `die_unequal` of tlx end the call with `failure.die`.
`uninit k j` are the bytes that the uninitialised object of the `k`-th call of
`cast_advance` in the text of the function holds, in the pass of its loop with
`j` colours to go (0 outside a loop). -/
def skip_header (uninit : Nat → Nat → List Nat) (is : istream) :
    Except failure (header × istream) :=
  match check_magic_number is with
  | .error e => .error e
  | .ok is1 =>
    let version := cast_advance 4 (uninit 0 0) is1
    if version.1 ≠ 6 then .error .die
    else
      let kmer_size := cast_advance 4 (uninit 1 0) version.2
      if kmer_size.1 ≠ 31 then .error .die
      else
        let num_words_per_kmer := cast_advance 4 (uninit 2 0) kmer_size.2
        let num_colors := cast_advance 4 (uninit 3 0) num_words_per_kmer.2
        if num_colors.1 ≠ 1 then .error .die
        else
          let name := skip_header.names uninit num_colors.1 []
            (skip_header.lengths uninit num_colors.1 num_colors.2)
          match check_magic_number
              (skip_header.graph_names uninit num_colors.1
                (name.2.ignore ((16 * num_colors.1) % 2 ^ 32))) with
          | .error e => .error e
          | .ok is9 =>
            .ok ({ version := version.1
                   kmer_size := kmer_size.1
                   num_words_per_kmer := num_words_per_kmer.1
                   num_colors := num_colors.1
                   name := name.1 }, is9)

/-- The state of `read_sample` when it ends: the bytes of `sample.data()`, the
number of records whose copy was completed, and how the call ended. -/
structure read_result where
  sample_data : List Nat
  records : Nat
  ending : Except failure Unit
deriving DecidableEq, Repr

/-- The loop `while (iter != end)` of `read_sample`: `body` are the bytes from
`iter` to `end`, `offset` is how far `sample_data` has advanced in the sample
bytes `data`, `records` counts the copies made.  `num_uint8_ts_per_kmer` is
`8 * h.num_words_per_kmer`, a product of 32-bit unsigned values, and so is
`5 * h.num_colors`.  One unit of fuel per loop test; a copy that leaves the
sample bytes is out of range. -/
def read_sample.loop (h : header) : Nat → List Nat → List Nat → Nat → Nat → read_result
  | 0, _, data, _, records =>
    { sample_data := data, records := records, ending := .error .diverges }
  | fuel + 1, body, data, offset, records =>
    if body = [] then { sample_data := data, records := records, ending := .ok () }
    else if body.length < (8 * h.num_words_per_kmer) % 2 ^ 32 + (5 * h.num_colors) % 2 ^ 32 then
      { sample_data := data, records := records,
        ending := .error (.invalid_argument "corrupted .ctx file") }
    else if offset + (8 * h.num_words_per_kmer) % 2 ^ 32 ≤ data.length then
      read_sample.loop h fuel
        (body.drop ((8 * h.num_words_per_kmer) % 2 ^ 32 + (5 * h.num_colors) % 2 ^ 32))
        (data.take offset ++ body.take ((8 * h.num_words_per_kmer) % 2 ^ 32)
          ++ data.drop (offset + (8 * h.num_words_per_kmer) % 2 ^ 32))
        (offset + (8 * h.num_words_per_kmer) % 2 ^ 32) (records + 1)
    else { sample_data := data, records := records, ending := .error .out_of_range }

/-- The function template `read_sample(iter, end, h, sample)`: `body` are the
bytes from `iter` to `end`, `data` the bytes of `sample.data()` on entry. -/
def read_sample (body : List Nat) (h : header) (data : List Nat) (fuel : Nat) : read_result :=
  read_sample.loop h fuel body data 0 0

/-- A sample file as `file::serialize<31>(out_path, s, h.name)` writes it: the
name and the k-mer bytes. -/
structure sample_file where
  name : List Nat
  data : List Nat
deriving DecidableEq, Repr

/-- Modelled from the spec: `s.data().resize(n)` on the bytes of a vector of
k-mers of 8 bytes each.  The bytes of the k-mers that `resize` appends depend on
the default constructor of `kmer<31>`, which is not among the sources; they are
taken as zero. -/
def resize (data : List Nat) (n : Nat) : List Nat :=
  data.take (8 * n) ++ List.replicate (8 * n - data.length) 0

/-- What `process_file` leaves behind: the bytes of the sample `s`, the file it
wrote if it wrote one, and how the call ended. -/
structure process_result where
  sample_data : List Nat
  written : Option sample_file
  ending : Except failure Unit
deriving DecidableEq, Repr

/-- The function template `process_file(in_path, out_path, s)`: `v` are the bytes
that `read_file(in_path, v)` delivers and `data` the bytes of `s.data()` on
entry.  The divisor `8 * h.num_words_per_kmer + 5 * h.num_colors` is a 32-bit
unsigned value.  `uninit` is passed to `skip_header`. -/
def process_file (uninit : Nat → Nat → List Nat) (v : List Nat) (data : List Nat)
    (fuel : Nat) : process_result :=
  if v = [] then { sample_data := data, written := none, ending := .ok () }
  else
    match skip_header uninit { rest := v, pos := 0, good := true } with
    | .error e => { sample_data := data, written := none, ending := .error e }
    | .ok (h, vss) =>
      if (8 * h.num_words_per_kmer + 5 * h.num_colors) % 2 ^ 32 = 0 then
        { sample_data := data, written := none, ending := .error .division_by_zero }
      else
        match (read_sample (v.drop vss.pos) h
            (resize data ((v.drop vss.pos).length
              / ((8 * h.num_words_per_kmer + 5 * h.num_colors) % 2 ^ 32))) fuel) with
        | { sample_data := data1, records := _, ending := .error e } =>
          { sample_data := data1, written := none, ending := .error e }
        | { sample_data := data1, records := _, ending := .ok () } =>
          { sample_data := data1
            written := some { name := h.name, data := data1 }
            ending := .ok () }

/-- A directory entry as `process_all_in_directory` sees it, through
`std::filesystem`: the stem and the extension of the path, whether it is a
regular file, whether the path string contains `uncleaned`, and the bytes of
the file. -/
structure directory_entry where
  stem : String
  extension : String
  is_regular_file : Bool
  uncleaned : Bool
  bytes : List Nat
deriving DecidableEq, Repr

/-- The state that `process_all_in_directory` carries from one entry to the
next: the bytes of the one `sample` object, the stems of the output paths that
exist, and the lines printed, one per file tried, with `true` for `OK` and
`false` for `ER`. -/
structure directory_state where
  sample_data : List Nat
  existing : List String
  report : List (String × Bool)
deriving DecidableEq, Repr

/-- The loop of `process_all_in_directory` over the directory entries.  A file is
tried when it is a regular file with extension `.ctx`, its path does not contain
`uncleaned` and its output path does not exist.  An exception derived from
`std::exception` is caught and the loop goes on.  The macro `die` of tlx, which
is not among the sources, either throws such an exception or ends the process:
`die_throws` says which.  Undefined behaviour and a loop that does not end are
not exceptions.  `uninit` is passed to `process_file`. -/
def process_all_in_directory.loop (die_throws : Bool) (uninit : Nat → Nat → List Nat)
    (fuel : Nat) : List directory_entry → directory_state → Except failure directory_state
  | [], st => .ok st
  | e :: entries, st =>
    if e.is_regular_file = true ∧ e.extension = ".ctx" ∧ e.uncleaned = false
        ∧ e.stem ∉ st.existing then
      match process_file uninit e.bytes st.sample_data fuel with
      | { sample_data := data1, written := written, ending := .ok () } =>
        process_all_in_directory.loop die_throws uninit fuel entries
          { sample_data := data1
            existing := if written.isSome then st.existing ++ [e.stem] else st.existing
            report := st.report ++ [(e.stem, true)] }
      | { sample_data := data1, written := _, ending := .error (.invalid_argument _) } =>
        process_all_in_directory.loop die_throws uninit fuel entries
          { sample_data := data1, existing := st.existing,
            report := st.report ++ [(e.stem, false)] }
      | { sample_data := data1, written := _, ending := .error .die } =>
        if die_throws then
          process_all_in_directory.loop die_throws uninit fuel entries
            { sample_data := data1, existing := st.existing,
              report := st.report ++ [(e.stem, false)] }
        else .error .die
      | { sample_data := _, written := _, ending := .error err } => .error err
    else process_all_in_directory.loop die_throws uninit fuel entries st

/-- The function template `process_all_in_directory(in_dir, out_dir)`: `entries`
are the entries that the recursive directory iterator visits, in order, and
`existing` the stems of the output paths that exist beforehand.  The `sample`
object starts empty. -/
def process_all_in_directory (die_throws : Bool) (uninit : Nat → Nat → List Nat)
    (entries : List directory_entry) (existing : List String) (fuel : Nat) :
    Except failure directory_state :=
  process_all_in_directory.loop die_throws uninit fuel entries
    { sample_data := [], existing := existing, report := [] }

end cobs.cortex

/-! ## The older row fetch (`src/isi/query/classic_index/mmap.cpp`) -/

namespace isi.query.classic_index

/-- The fields of `isi::file::classic_index_header`. -/
structure classic_index_header where
  signature_size : Nat
  block_size : Nat
  num_hashes : Nat
  file_names : List String
deriving DecidableEq, Repr

/-- The members of the class `mmap` that `read_from_disk` uses: `m_data` is the
mapped body of the index file. -/
structure mmap where
  m_header : classic_index_header
  m_data : List Nat
deriving DecidableEq, Repr

namespace mmap

/-- The loop of `read_from_disk`, entered at index `i` with the hashes from `i`
on: `std::memcpy(rows_8, data_8, block_size)` with
`data_8 = m_data + hashes[i] % signature_size * block_size` and
`rows_8 = rows + i * block_size`.  The iterations of the `omp parallel for` are
taken in index order. -/
def read_from_disk.loop (m : mmap) : Nat → List Nat → List Nat → Except failure (List Nat)
  | _, [], rows => .ok rows
  | i, h :: hashes, rows =>
    if m.m_header.signature_size = 0 then .error .division_by_zero
    else if h % m.m_header.signature_size * m.m_header.block_size + m.m_header.block_size
        ≤ m.m_data.length then
      if i * m.m_header.block_size + m.m_header.block_size ≤ rows.length then
        read_from_disk.loop m (i + 1) hashes
          (rows.take (i * m.m_header.block_size)
            ++ (m.m_data.drop (h % m.m_header.signature_size * m.m_header.block_size)).take
                m.m_header.block_size
            ++ rows.drop (i * m.m_header.block_size + m.m_header.block_size))
      else .error .out_of_range
    else .error .out_of_range

/-- Member `read_from_disk(hashes, rows)`: the content of `rows` after the call. -/
def read_from_disk (m : mmap) (hashes : List Nat) (rows : List Nat) :
    Except failure (List Nat) :=
  read_from_disk.loop m 0 hashes rows

/-- The first statements of `calculate_counts(hashes, counts)`: the vector `rows`
of `block_size * hashes.size()` zero bytes, and `read_from_disk(hashes,
rows.data())`; the result is the content of `rows` that `aggregate_rows` and
`compute_counts` receive. -/
def calculate_counts.rows (m : mmap) (hashes : List Nat) : Except failure (List Nat) :=
  read_from_disk m hashes (List.replicate (m.m_header.block_size * hashes.length) 0)

end mmap

end isi.query.classic_index

/-! ## Vocabulary for the cortex and row-fetch statements -/

namespace cobs.cortex

/-- The concatenation, in record order, of the first `K` bytes of each of the
first `n` records of `R` bytes of `body`. -/
def record_prefixes (K R : Nat) : Nat → List Nat → List Nat
  | 0, _ => []
  | n + 1, body => body.take K ++ record_prefixes K R n (body.drop R)

/-- The four bytes of a 32-bit unsigned value, least significant first. -/
def uint32_bytes (n : Nat) : List Nat :=
  [n % 256, n / 256 % 256, n / 65536 % 256, n / 16777216 % 256]

/-- The bytes of a `.ctx` file of one colour as `skip_header` walks them: the
magic word, the four header fields, twelve bytes of read lengths, the sample
name with its length, sixteen and twelve ignored bytes, the graph name with its
length, the magic word again, and the body. -/
def ctx_bytes (version kmer_size num_words_per_kmer num_colors : Nat)
    (name graph_name body : List Nat) : List Nat :=
  magic_word ++ uint32_bytes version ++ uint32_bytes kmer_size
    ++ uint32_bytes num_words_per_kmer ++ uint32_bytes num_colors
    ++ List.replicate 12 0 ++ uint32_bytes name.length ++ name
    ++ List.replicate 16 0 ++ List.replicate 12 0
    ++ uint32_bytes graph_name.length ++ graph_name ++ magic_word ++ body

/-- Two records of 13 bytes: eight k-mer bytes and five trailing bytes each. -/
def two_records : List Nat :=
  [1, 2, 3, 4, 5, 6, 7, 8, 0, 0, 0, 0, 0, 11, 12, 13, 14, 15, 16, 17, 18, 9, 9, 9, 9, 9]

/-- A well-formed file: version 6, k 31, one word per k-mer, one colour, the name
`s`, and two records. -/
def good_ctx : List Nat := ctx_bytes 6 31 1 1 [115] [] two_records

/-- A file whose header says two words per k-mer, with one record of 21 bytes. -/
def wide_ctx : List Nat := ctx_bytes 6 31 2 1 [115] [] (two_records.take 21)

/-- A file of version 5. -/
def bad_version_ctx : List Nat := ctx_bytes 5 31 1 1 [115] [] two_records

/-- A well-formed header followed by a body of 20 bytes: one record and a part of
a second one. -/
def truncated_ctx : List Nat := ctx_bytes 6 31 1 1 [115] [] (two_records.take 20)

/-- A regular file `stem.ctx` with the given bytes. -/
def ctx_entry (stem : String) (bytes : List Nat) : directory_entry :=
  { stem := stem, extension := ".ctx", is_regular_file := true, uncleaned := false,
    bytes := bytes }

end cobs.cortex

namespace isi.query.classic_index

end isi.query.classic_index

open genome genome.bloom_filter

/-! ## Bytes and bit masks -/

theorem mask_test (b k : Nat) : (b &&& (1 <<< k) != 0) = b.testBit k := by
  rw [Nat.one_shiftLeft, Nat.and_two_pow]
  cases h : b.testBit k <;> simp

theorem byte_or_test (b k j : Nat) (hj : j < 8) :
    (((b ||| (1 <<< k)) % 256).testBit j) = (b.testBit j || decide (k = j)) := by
  have : (256 : Nat) = 2 ^ 8 := by norm_num
  rw [this, Nat.testBit_mod_two_pow, Nat.testBit_lor, Nat.one_shiftLeft, Nat.testBit_two_pow]
  simp [hj]

theorem byte_or_lt (b k : Nat) (hb : b < 256) (hk : k < 8) : (b ||| (1 <<< k)) < 256 := by
  have h1 : (1 <<< k) < 2 ^ 8 := by
    rw [Nat.one_shiftLeft]; exact Nat.pow_lt_pow_right (by norm_num) hk
  have h2 : b < 2 ^ 8 := by norm_num; exact hb
  have := Nat.or_lt_two_pow h2 h1
  norm_num at this; exact this

/-! ## Byte offsets of the matrix -/

theorem index_inj (W r c r' c' : Nat) (h : c / 8 < W) (h' : c' / 8 < W)
    (e : W * r + c / 8 = W * r' + c' / 8) : r = r' ∧ c / 8 = c' / 8 := by
  have hr : r = r' := by
    by_contra hne
    rcases Nat.lt_or_gt_of_ne hne with hlt | hgt
    · have : W * (r + 1) ≤ W * r' := Nat.mul_le_mul_left _ hlt
      rw [Nat.mul_add] at this; omega
    · have : W * (r' + 1) ≤ W * r := Nat.mul_le_mul_left _ hgt
      rw [Nat.mul_add] at this; omega
  subst hr
  exact ⟨rfl, by omega⟩

theorem index_lt (S W r c : Nat) (hr : r < S) (hc : c < 8 * W) : W * r + c / 8 < S * W := by
  have h1 : c / 8 < W := by omega
  have h2 : W * (r + 1) ≤ W * S := Nat.mul_le_mul_left _ hr
  rw [Nat.mul_add, Nat.mul_comm W S] at h2
  omega

/-! ## The members set_bit and is_set -/

theorem is_set_eq (bf : genome.bloom_filter) (r c : Nat)
    (h : bf.m_block_size * r + c / 8 < bf.m_data.length) :
    is_set bf r c = .ok (matrix_bit bf.m_data bf.m_block_size r c) := by
  unfold is_set matrix_bit
  rw [List.getElem?_eq_getElem h]
  simp only [mask_test]
  rw [List.getD_eq_getElem _ _ h]

theorem set_bit_eq (bf : genome.bloom_filter) (r c : Nat)
    (h : bf.m_block_size * r + c / 8 < bf.m_data.length) :
    set_bit bf r c = .ok { bf with
      m_data := bf.m_data.set (bf.m_block_size * r + c / 8)
        ((bf.m_data[bf.m_block_size * r + c / 8] ||| (1 <<< (c % 8))) % 256) } := by
  unfold set_bit
  rw [List.getElem?_eq_getElem h]

theorem matrix_bit_set (body : List Nat) (W r c r' c' : Nat)
    (h : W * r + c / 8 < body.length) (hc : c / 8 < W) (hc' : c' / 8 < W) :
    matrix_bit (body.set (W * r + c / 8) ((body[W * r + c / 8] ||| (1 <<< (c % 8))) % 256))
        W r' c'
      = (matrix_bit body W r' c' || decide (r' = r ∧ c' = c)) := by
  unfold matrix_bit
  by_cases e : W * r + c / 8 = W * r' + c' / 8
  · obtain ⟨hr, hq⟩ := index_inj W r c r' c' hc hc' e
    subst hr
    rw [← e, List.getD_eq_getElem _ _ (by simpa using h), List.getD_eq_getElem _ _ h]
    rw [List.getElem_set_self, byte_or_test _ _ _ (Nat.mod_lt _ (by norm_num))]
    congr 1
    have : (c % 8 = c' % 8) ↔ (c' = c) := by omega
    simp [this]
  · have hne : ¬ (r' = r ∧ c' = c) := by
      rintro ⟨rfl, rfl⟩; exact e rfl
    simp only [hne, decide_False, Bool.or_false]
    congr 1
    simp only [List.getD_eq_getElem?_getD]
    rw [List.getElem?_set_ne e]

theorem set_bit_ok (bf : genome.bloom_filter) (r c : Nat)
    (hlen : bf.m_data.length = bf.m_bloom_filter_size * bf.m_block_size)
    (hr : r < bf.m_bloom_filter_size) (hc : c < 8 * bf.m_block_size) :
    ∃ bf1, set_bit bf r c = .ok bf1
      ∧ bf1.m_bloom_filter_size = bf.m_bloom_filter_size
      ∧ bf1.m_block_size = bf.m_block_size
      ∧ bf1.m_num_hashes = bf.m_num_hashes
      ∧ bf1.m_data.length = bf.m_data.length
      ∧ ∀ r' c', c' < 8 * bf.m_block_size →
          matrix_bit bf1.m_data bf.m_block_size r' c'
            = (matrix_bit bf.m_data bf.m_block_size r' c' || decide (r' = r ∧ c' = c)) := by
  have h := index_lt _ _ r c hr hc
  rw [← hlen] at h
  refine ⟨_, set_bit_eq bf r c h, rfl, rfl, rfl, by simp, ?_⟩
  intro r' c' hc'
  exact matrix_bit_set _ _ _ _ _ _ h (by omega) (by omega)

/-! ## The loop of create_hashes -/

theorem create_hashes_loop_eq {σ : Type} (XXH32 : List Nat → Nat → Nat → Nat)
    (input : List Nat) (len S H : Nat) (callback : Nat → σ → Except failure σ)
    (hS : 0 < S) (hH : H < 2 ^ 32) :
    ∀ (fuel i : Nat) (st : σ), i ≤ H → H - i < fuel →
      create_hashes.loop XXH32 input len S H callback fuel i st
        = (List.range' i (H - i)).foldlM (fun s j => callback (XXH32 input len j % S) s) st := by
  intro fuel
  induction fuel with
  | zero => intro i st _ h; omega
  | succ fuel ih =>
    intro i st hi hf
    unfold create_hashes.loop
    by_cases hlt : i < H
    · have hmod : (i + 1) % 2 ^ 32 = i + 1 := Nat.mod_eq_of_lt (by omega)
      have hrange : List.range' i (H - i) = i :: List.range' (i + 1) (H - (i + 1)) := by
        have : H - i = (H - (i + 1)) + 1 := by omega
        rw [this, List.range'_succ]
      rw [if_pos hlt, if_neg (by omega), hmod, hrange, List.foldlM_cons]
      cases hcb : callback (XXH32 input len i % S) st with
      | error e => rfl
      | ok st1 =>
        simp only []
        rw [ih (i + 1) st1 (by omega) (by omega)]
        rfl
    · have : H - i = 0 := by omega
      rw [if_neg hlt, this]
      rfl

theorem create_hashes_loop_never_ok {σ : Type} (XXH32 : List Nat → Nat → Nat → Nat)
    (input : List Nat) (len S H : Nat) (callback : Nat → σ → Except failure σ)
    (hH : 2 ^ 32 ≤ H) :
    ∀ (fuel i : Nat) (st st1 : σ), i < 2 ^ 32 →
      create_hashes.loop XXH32 input len S H callback fuel i st ≠ .ok st1 := by
  intro fuel
  induction fuel with
  | zero => intro i st st1 _ h; simp [create_hashes.loop] at h
  | succ fuel ih =>
    intro i st st1 hi h
    unfold create_hashes.loop at h
    rw [if_pos (by omega)] at h
    by_cases hS : S = 0
    · rw [if_pos hS] at h; cases h
    · rw [if_neg hS] at h
      cases hcb : callback (XXH32 input len i % S) st with
      | error e => rw [hcb] at h; cases h
      | ok st2 =>
        rw [hcb] at h
        exact ih _ st2 st1 (Nat.mod_lt _ (by norm_num)) h

theorem create_hashes_loop_ok_inv {σ : Type} (XXH32 : List Nat → Nat → Nat → Nat)
    (input : List Nat) (len S H : Nat) (callback : Nat → σ → Except failure σ) :
    ∀ (fuel i : Nat) (st st1 : σ), i ≤ H → i < 2 ^ 32 →
      create_hashes.loop XXH32 input len S H callback fuel i st = .ok st1 →
      H - i < fuel ∧ H < 2 ^ 32 := by
  intro fuel
  induction fuel with
  | zero => intro i st st1 _ _ h; simp [create_hashes.loop] at h
  | succ fuel ih =>
    intro i st st1 hi hi32 h
    by_cases hH : 2 ^ 32 ≤ H
    · exact absurd h (create_hashes_loop_never_ok XXH32 input len S H callback hH _ i st st1 hi32)
    · unfold create_hashes.loop at h
      by_cases hlt : i < H
      · rw [if_pos hlt] at h
        by_cases hS : S = 0
        · rw [if_pos hS] at h; cases h
        · rw [if_neg hS] at h
          cases hcb : callback (XXH32 input len i % S) st with
          | error e => rw [hcb] at h; cases h
          | ok st2 =>
            rw [hcb] at h
            have hmod : (i + 1) % 2 ^ 32 = i + 1 := Nat.mod_eq_of_lt (by omega)
            simp only [hmod] at h
            have := ih (i + 1) st2 st1 (by omega) (by omega) h
            omega
      · omega

/-- The counter of `create_hashes` wraps at `2 ^ 32`: with `2 ^ 32` hashes or more
no amount of fuel lets the call return. -/
theorem create_hashes_never_ok {σ : Type} (XXH32 : List Nat → Nat → Nat → Nat)
    (input : List Nat) (len S H : Nat) (callback : Nat → σ → Except failure σ)
    (hH : 2 ^ 32 ≤ H) (fuel : Nat) (st st1 : σ) :
    create_hashes XXH32 input len S H callback fuel st ≠ .ok st1 :=
  create_hashes_loop_never_ok XXH32 input len S H callback hH fuel 0 st st1 (by norm_num)

theorem create_hashes_eq {σ : Type} (XXH32 : List Nat → Nat → Nat → Nat)
    (input : List Nat) (len S H : Nat) (callback : Nat → σ → Except failure σ)
    (hS : 0 < S) (hH : H < 2 ^ 32) (fuel : Nat) (hf : H < fuel) (st : σ) :
    create_hashes XXH32 input len S H callback fuel st
      = (List.range H).foldlM (fun s j => callback (XXH32 input len j % S) s) st := by
  unfold create_hashes
  rw [create_hashes_loop_eq XXH32 input len S H callback hS hH fuel 0 st (by omega) (by omega),
    List.range_eq_range']
  rfl

/-- With a callback that never fails and `2 ^ 32` hashes, every run ends with the
fuel used up. -/
theorem create_hashes_loop_diverges {σ : Type} (XXH32 : List Nat → Nat → Nat → Nat)
    (input : List Nat) (len S H : Nat) (callback : Nat → σ → σ)
    (hS : 0 < S) (hH : 2 ^ 32 ≤ H) :
    ∀ (fuel i : Nat) (st : σ), i < 2 ^ 32 →
      create_hashes.loop XXH32 input len S H (fun r s => .ok (callback r s)) fuel i st
        = .error .diverges := by
  intro fuel
  induction fuel with
  | zero => intro i st _; rfl
  | succ fuel ih =>
    intro i st hi
    unfold create_hashes.loop
    rw [if_pos (by omega), if_neg (by omega)]
    exact ih _ _ (Nat.mod_lt _ (by norm_num))

/-! ## The builder: set_bit under create_hashes, k-mers, paths -/

theorem has_shape_new (S W H : Nat) (hSW : S * W < 2 ^ 64) :
    has_shape (bloom_filter.bloom_filter S W H) S W H := by
  refine ⟨rfl, rfl, rfl, ?_⟩
  show (List.replicate ((S * W) % 2 ^ 64) 0).length = S * W
  rw [List.length_replicate, Nat.mod_eq_of_lt hSW]

theorem matrix_bit_new (S W H r c : Nat) :
    matrix_bit (bloom_filter.bloom_filter S W H).m_data W r c = false := by
  unfold matrix_bit bloom_filter.bloom_filter
  simp only [List.getD_eq_getElem?_getD, List.getElem?_replicate]
  split <;> simp

theorem set_bit_shape (S W H : Nat) (bf : genome.bloom_filter) (r c : Nat)
    (hbf : has_shape bf S W H) (hr : r < S) (hc : c < 8 * W) :
    ∃ bf1, set_bit bf r c = .ok bf1 ∧ has_shape bf1 S W H
      ∧ ∀ r' c', c' < 8 * W →
          (matrix_bit bf1.m_data W r' c' = true
            ↔ matrix_bit bf.m_data W r' c' = true ∨ (c' = c ∧ r' = r)) := by
  obtain ⟨h1, h2, h3, h4⟩ := hbf
  subst h1 h2 h3
  obtain ⟨bf1, e, g1, g2, g3, g4, g5⟩ := set_bit_ok bf r c h4 hr hc
  refine ⟨bf1, e, ⟨g1, g2, g3, by rw [g4, h4]⟩, ?_⟩
  intro r' c' hc'
  rw [g5 r' c' hc']
  simp [and_comm]

theorem set_bit_foldlM (S W H : Nat) (row : Nat → Nat) (c : Nat) (hrow : ∀ j, row j < S)
    (hc : c < 8 * W) :
    ∀ (js : List Nat) (bf : genome.bloom_filter), has_shape bf S W H →
      ∃ bf1, js.foldlM (fun s j => set_bit s (row j) c) bf = .ok bf1 ∧ has_shape bf1 S W H
        ∧ ∀ r' c', c' < 8 * W →
            (matrix_bit bf1.m_data W r' c' = true
              ↔ matrix_bit bf.m_data W r' c' = true ∨ (c' = c ∧ ∃ j ∈ js, row j = r')) := by
  intro js
  induction js with
  | nil =>
    intro bf hbf
    exact ⟨bf, rfl, hbf, by simp⟩
  | cons j js ih =>
    intro bf hbf
    obtain ⟨bf1, e1, s1, b1⟩ := set_bit_shape S W H bf (row j) c hbf (hrow j) hc
    obtain ⟨bf2, e2, s2, b2⟩ := ih bf1 s1
    refine ⟨bf2, ?_, s2, ?_⟩
    · rw [List.foldlM_cons, e1]; exact e2
    · intro r' c' hc'
      rw [b2 r' c' hc', b1 r' c' hc']
      constructor
      · rintro ((h | ⟨h1, h2⟩) | ⟨h1, j', hj', h2⟩)
        · exact Or.inl h
        · exact Or.inr ⟨h1, j, List.mem_cons_self _ _, h2.symm⟩
        · exact Or.inr ⟨h1, j', List.mem_cons_of_mem _ hj', h2⟩
      · rintro (h | ⟨h1, j', hj', h2⟩)
        · exact Or.inl (Or.inl h)
        · rcases List.mem_cons.mp hj' with rfl | hj'
          · exact Or.inl (Or.inr ⟨h1, h2.symm⟩)
          · exact Or.inr ⟨h1, j', hj', h2⟩

theorem create_hashes_set_bit (XXH32 : List Nat → Nat → Nat → Nat) (S W H c fuel : Nat)
    (hS : 0 < S) (hH : H < 2 ^ 32) (hf : H < fuel) (hc : c < 8 * W)
    (k : genome.kmer) (bf : genome.bloom_filter) (hbf : has_shape bf S W H) :
    ∃ bf1, create_hashes XXH32 k.data genome.kmer.size bf.m_bloom_filter_size bf.m_num_hashes
          (fun hash b => set_bit b hash c) fuel bf = .ok bf1
      ∧ has_shape bf1 S W H
      ∧ ∀ r' c', c' < 8 * W →
          (matrix_bit bf1.m_data W r' c' = true
            ↔ matrix_bit bf.m_data W r' c' = true
              ∨ (c' = c ∧ ∃ j, j < H ∧ XXH32 k.data 8 j % S = r')) := by
  obtain ⟨bf1, e, s1, b1⟩ := set_bit_foldlM S W H (fun j => XXH32 k.data 8 j % S) c
    (fun j => Nat.mod_lt _ hS) hc (List.range H) bf hbf
  refine ⟨bf1, ?_, s1, ?_⟩
  · rw [hbf.1, hbf.2.2.1, create_hashes_eq XXH32 _ _ S H _ hS hH fuel hf]
    exact e
  · intro r' c' hc'
    rw [b1 r' c' hc']
    simp [List.mem_range]

theorem process_kmers_ok (XXH32 : List Nat → Nat → Nat → Nat) (S W H c fuel : Nat)
    (hS : 0 < S) (hH : H < 2 ^ 32) (hf : H < fuel) (hc : c < 8 * W) :
    ∀ (kmers : List genome.kmer) (bf : genome.bloom_filter), has_shape bf S W H →
      ∃ bf1, process.kmers XXH32 c fuel kmers bf = .ok bf1 ∧ has_shape bf1 S W H
        ∧ ∀ r' c', c' < 8 * W →
            (matrix_bit bf1.m_data W r' c' = true
              ↔ matrix_bit bf.m_data W r' c' = true
                ∨ (c' = c ∧ ∃ k ∈ kmers, ∃ j, j < H ∧ XXH32 k.data 8 j % S = r')) := by
  intro kmers
  induction kmers with
  | nil =>
    intro bf hbf
    exact ⟨bf, rfl, hbf, by simp⟩
  | cons k kmers ih =>
    intro bf hbf
    obtain ⟨bf1, e1, s1, b1⟩ := create_hashes_set_bit XXH32 S W H c fuel hS hH hf hc k bf hbf
    obtain ⟨bf2, e2, s2, b2⟩ := ih bf1 s1
    refine ⟨bf2, ?_, s2, ?_⟩
    · unfold process.kmers; rw [e1]; exact e2
    · intro r' c' hc'
      rw [b2 r' c' hc', b1 r' c' hc']
      constructor
      · rintro ((h | ⟨h1, h2⟩) | ⟨h1, k', hk', h2⟩)
        · exact Or.inl h
        · exact Or.inr ⟨h1, k, List.mem_cons_self _ _, h2⟩
        · exact Or.inr ⟨h1, k', List.mem_cons_of_mem _ hk', h2⟩
      · rintro (h | ⟨h1, k', hk', h2⟩)
        · exact Or.inl (Or.inl h)
        · rcases List.mem_cons.mp hk' with rfl | hk'
          · exact Or.inl (Or.inr ⟨h1, h2⟩)
          · exact Or.inr ⟨h1, k', hk', h2⟩

theorem process_paths_ok (XXH32 : List Nat → Nat → Nat → Nat) (S W H fuel : Nat)
    (hS : 0 < S) (hH : H < 2 ^ 32) (hf : H < fuel) :
    ∀ (paths : List genome.path) (i : Nat) (bf : genome.bloom_filter),
      i + paths.length ≤ 8 * W → has_shape bf S W H →
      ∃ bf1, process.paths XXH32 fuel i paths bf = .ok bf1 ∧ has_shape bf1 S W H
        ∧ ∀ r' c', c' < 8 * W →
            (matrix_bit bf1.m_data W r' c' = true
              ↔ matrix_bit bf.m_data W r' c' = true
                ∨ (∃ p, paths[c' - i]? = some p ∧ i ≤ c'
                    ∧ ∃ k ∈ p.kmers, ∃ j, j < H ∧ XXH32 k.data 8 j % S = r')) := by
  intro paths
  induction paths with
  | nil =>
    intro i bf _ hbf
    exact ⟨bf, rfl, hbf, by simp⟩
  | cons p paths ih =>
    intro i bf hi hbf
    simp only [List.length_cons] at hi
    obtain ⟨bf1, e1, s1, b1⟩ :=
      process_kmers_ok XXH32 S W H i fuel hS hH hf (by omega) p.kmers bf hbf
    obtain ⟨bf2, e2, s2, b2⟩ := ih (i + 1) bf1 (by omega) s1
    refine ⟨bf2, ?_, s2, ?_⟩
    · unfold process.paths; rw [e1]; exact e2
    · intro r' c' hc'
      rw [b2 r' c' hc', b1 r' c' hc']
      constructor
      · rintro ((h | ⟨h1, h2⟩) | ⟨q, hq, hle, h2⟩)
        · exact Or.inl h
        · refine Or.inr ⟨p, ?_, by omega, h2⟩
          subst h1; simp
        · refine Or.inr ⟨q, ?_, by omega, h2⟩
          have : c' - i = (c' - (i + 1)) + 1 := by omega
          rw [this, List.getElem?_cons_succ]; exact hq
      · rintro (h | ⟨q, hq, hle, h2⟩)
        · exact Or.inl (Or.inl h)
        · by_cases hci : c' = i
          · subst hci
            simp at hq; subst hq
            exact Or.inl (Or.inr ⟨rfl, h2⟩)
          · have : c' - i = (c' - (i + 1)) + 1 := by omega
            rw [this, List.getElem?_cons_succ] at hq
            exact Or.inr ⟨q, hq, by omega, h2⟩

/-! ## Runs of process that return -/

theorem process_kmers_inv (XXH32 : List Nat → Nat → Nat → Nat) (c fuel : Nat)
    (kmers : List genome.kmer) (bf bf1 : genome.bloom_filter)
    (h : process.kmers XXH32 c fuel kmers bf = .ok bf1) :
    (kmers = [] ∧ bf1 = bf) ∨ (bf.m_num_hashes < 2 ^ 32 ∧ bf.m_num_hashes < fuel) := by
  cases kmers with
  | nil =>
    left
    simp only [process.kmers, Except.ok.injEq] at h
    exact ⟨rfl, h.symm⟩
  | cons k kmers =>
    right
    unfold process.kmers at h
    cases hc : create_hashes XXH32 k.data genome.kmer.size bf.m_bloom_filter_size
        bf.m_num_hashes (fun hash b => set_bit b hash c) fuel bf with
    | error e => rw [hc] at h; cases h
    | ok bf2 =>
      have := create_hashes_loop_ok_inv XXH32 k.data genome.kmer.size bf.m_bloom_filter_size
        bf.m_num_hashes (fun hash b => set_bit b hash c) fuel 0 bf bf2 (Nat.zero_le _)
        (by norm_num) hc
      omega

theorem process_paths_inv (XXH32 : List Nat → Nat → Nat → Nat) (fuel : Nat) :
    ∀ (paths : List genome.path) (i : Nat) (bf bf1 : genome.bloom_filter),
      process.paths XXH32 fuel i paths bf = .ok bf1 →
      ((∀ p ∈ paths, p.kmers = []) ∧ bf1 = bf)
        ∨ (bf.m_num_hashes < 2 ^ 32 ∧ bf.m_num_hashes < fuel) := by
  intro paths
  induction paths with
  | nil =>
    intro i bf bf1 h
    left
    simp only [process.paths, Except.ok.injEq] at h
    exact ⟨by simp, h.symm⟩
  | cons p paths ih =>
    intro i bf bf1 h
    unfold process.paths at h
    cases hk : process.kmers XXH32 i fuel p.kmers bf with
    | error e => rw [hk] at h; cases h
    | ok bf2 =>
      rw [hk] at h
      rcases process_kmers_inv XXH32 i fuel p.kmers bf bf2 hk with ⟨h1, h2⟩ | h1
      · subst h2
        rcases ih (i + 1) bf2 bf1 h with ⟨h3, h4⟩ | h3
        · left
          refine ⟨?_, h4⟩
          intro q hq
          rcases List.mem_cons.mp hq with rfl | hq
          · exact h1
          · exact h3 q hq
        · exact Or.inr h3
      · exact Or.inr h1

theorem process_paths_spec (XXH32 : List Nat → Nat → Nat → Nat) (S W H fuel : Nat)
    (hS : 0 < S) (paths : List genome.path) (bf bf1 : genome.bloom_filter)
    (hP : paths.length ≤ 8 * W) (hbf : has_shape bf S W H)
    (hrun : process.paths XXH32 fuel 0 paths bf = .ok bf1) :
    has_shape bf1 S W H
      ∧ (∀ r' c', c' < 8 * W →
          (matrix_bit bf1.m_data W r' c' = true
            ↔ matrix_bit bf.m_data W r' c' = true
              ∨ (∃ p, paths[c']? = some p
                  ∧ ∃ k ∈ p.kmers, ∃ j, j < H ∧ XXH32 k.data 8 j % S = r')))
      ∧ ((∃ p ∈ paths, p.kmers ≠ []) → H < 2 ^ 32 ∧ H < fuel) := by
  rcases process_paths_inv XXH32 fuel paths 0 bf bf1 hrun with ⟨h1, h2⟩ | h1
  · subst h2
    refine ⟨hbf, ?_, ?_⟩
    · intro r' c' _
      constructor
      · exact Or.inl
      · rintro (h | ⟨p, hp, k, hk, _⟩)
        · exact h
        · have := h1 p (List.mem_iff_getElem?.mpr ⟨_, hp⟩)
          rw [this] at hk; cases hk
    · rintro ⟨p, hp, hne⟩
      exact absurd (h1 p hp) hne
  · rw [hbf.2.2.1] at h1
    obtain ⟨bf2, e, s2, b2⟩ :=
      process_paths_ok XXH32 S W H fuel hS h1.1 h1.2 paths 0 bf (by omega) hbf
    rw [e] at hrun
    cases hrun
    refine ⟨s2, ?_, fun _ => h1⟩
    intro r' c' hc'
    rw [b2 r' c' hc']
    simp

theorem process_transform_spec :
    ∀ (paths : List genome.path) (i : Nat) (names : List String),
      i + paths.length ≤ names.length →
      ∃ names1, process.transform paths i names = .ok names1
        ∧ names1.length = names.length
        ∧ (∀ (c : Nat) (hc : c < paths.length), names1[i + c]? = some paths[c].stem)
        ∧ (∀ j, (j < i ∨ i + paths.length ≤ j) → names1[j]? = names[j]?) := by
  intro paths
  induction paths with
  | nil =>
    intro i names _
    exact ⟨names, rfl, rfl, fun c hc => absurd hc (Nat.not_lt_zero _), fun _ _ => rfl⟩
  | cons p paths ih =>
    intro i names h
    simp only [List.length_cons] at h
    obtain ⟨names1, e, hl, ha, hb⟩ := ih (i + 1) (names.set i p.stem)
      (by rw [List.length_set]; omega)
    refine ⟨names1, ?_, by rw [hl, List.length_set], ?_, ?_⟩
    · unfold process.transform
      rw [if_pos (by omega)]
      exact e
    · intro c hc
      cases c with
      | zero =>
        rw [Nat.add_zero, hb i (Or.inl (Nat.lt_succ_self i)), List.getElem?_set_self (by omega)]
        rfl
      | succ c =>
        have := ha c (by simpa using hc)
        rw [show i + 1 + c = i + (c + 1) by omega] at this
        exact this
    · intro j hj
      simp only [List.length_cons] at hj
      rw [hb j (by omega), List.getElem?_set_ne (by omega)]

theorem process_inv (XXH32 : List Nat → Nat → Nat → Nat) (bf : genome.bloom_filter)
    (paths : List genome.path) (fuel : Nat) (bf1 : genome.bloom_filter)
    (out : bloom_filter_file) (h : process XXH32 bf paths fuel = .ok (bf1, out)) :
    process.paths XXH32 fuel 0 paths bf = .ok bf1
      ∧ process.file_names bf1.m_block_size paths = .ok out.header.file_names
      ∧ out.header.bloom_filter_size = bf1.m_bloom_filter_size
      ∧ out.header.block_size = bf1.m_block_size
      ∧ out.header.num_hashes = bf1.m_num_hashes
      ∧ out.body = bf1.m_data := by
  unfold process at h
  cases h1 : process.paths XXH32 fuel 0 paths bf with
  | error e => rw [h1] at h; cases h
  | ok bf2 =>
    rw [h1] at h
    cases h2 : process.file_names bf2.m_block_size paths with
    | error e => simp only [h2] at h; cases h
    | ok names =>
      simp only [h2] at h
      cases h
      exact ⟨rfl, h2, rfl, rfl, rfl, rfl⟩

theorem process_returns (XXH32 : List Nat → Nat → Nat → Nat) (S W H fuel : Nat)
    (hS : 0 < S) (hH : H < 2 ^ 32) (hf : H < fuel) (paths : List genome.path)
    (bf : genome.bloom_filter) (hP : paths.length ≤ 8 * W) (hW : 8 * W < 2 ^ 64)
    (hbf : has_shape bf S W H) :
    ∃ bf1 out, process XXH32 bf paths fuel = .ok (bf1, out) := by
  obtain ⟨bf1, e, s1, _⟩ :=
    process_paths_ok XXH32 S W H fuel hS hH hf paths 0 bf (by omega) hbf
  obtain ⟨names, en, _⟩ := process_transform_spec paths 0 (List.replicate (8 * W) "")
    (by simpa using hP)
  unfold process
  rw [e]
  simp only [process.file_names, s1.2.1, Nat.mod_eq_of_lt hW, en]
  exact ⟨_, _, rfl⟩

/-! ## The member contains -/

theorem contains_loop_eq (XXH32 : List Nat → Nat → Nat → Nat) (S W H c : Nat)
    (hS : 0 < S) (hH : H < 2 ^ 32) (hc : c < 8 * W)
    (k : genome.kmer) (bf : genome.bloom_filter) (hbf : has_shape bf S W H) :
    ∀ (fuel i : Nat), i ≤ H → H - i < fuel →
      ∃ b, contains.loop XXH32 bf k c fuel i = .ok b
        ∧ (b = true ↔ ∀ j, i ≤ j → j < H →
            matrix_bit bf.m_data W (XXH32 k.data 8 j % S) c = true) := by
  obtain ⟨h1, h2, h3, h4⟩ := hbf
  intro fuel
  induction fuel with
  | zero => intro i _ h; omega
  | succ fuel ih =>
    intro i hi hf
    unfold contains.loop
    by_cases hlt : i < H
    · have hidx : bf.m_block_size * (XXH32 k.data 8 i % S) + c / 8 < bf.m_data.length := by
        rw [h4, h2]; exact index_lt S W _ c (Nat.mod_lt _ hS) hc
      rw [h3, h1, if_pos hlt, if_neg (by omega), is_set_eq bf _ c hidx, h2]
      cases hb : matrix_bit bf.m_data W (XXH32 k.data 8 i % S) c with
      | false =>
        refine ⟨false, rfl, ?_⟩
        constructor
        · intro h; cases h
        · intro h
          have := h i (Nat.le_refl _) hlt
          rw [hb] at this; cases this
      | true =>
        have hmod : (i + 1) % 2 ^ 32 = i + 1 := Nat.mod_eq_of_lt (by omega)
        simp only [hmod]
        obtain ⟨b, e, hbiff⟩ := ih (i + 1) (by omega) (by omega)
        refine ⟨b, e, ?_⟩
        rw [hbiff]
        constructor
        · intro h j hj hjH
          by_cases hji : j = i
          · subst hji; exact hb
          · exact h j (by omega) hjH
        · intro h j hj hjH
          exact h j (by omega) hjH
    · rw [h3, if_neg hlt]
      refine ⟨true, rfl, ?_⟩
      simp only [true_iff]
      intro j hj hjH
      omega

theorem contains_eq (XXH32 : List Nat → Nat → Nat → Nat) (S W H c fuel : Nat)
    (hS : 0 < S) (hH : H < 2 ^ 32) (hf : H < fuel) (hc : c < 8 * W)
    (k : genome.kmer) (bf : genome.bloom_filter) (hbf : has_shape bf S W H) :
    ∃ b, contains XXH32 bf k c fuel = .ok b
      ∧ (b = true ↔ ∀ j, j < H → matrix_bit bf.m_data W (XXH32 k.data 8 j % S) c = true) := by
  obtain ⟨b, e, hb⟩ := contains_loop_eq XXH32 S W H c hS hH hc k bf hbf fuel 0
    (Nat.zero_le _) (by omega)
  refine ⟨b, ?_, ?_⟩
  · unfold contains
    rw [hbf.2.1, if_pos hc]
    exact e
  · rw [hb]
    constructor
    · intro h j hj; exact h j (Nat.zero_le _) hj
    · intro h j _ hj; exact h j hj

/-! ## The builder: claims -/

/-- C2, as stated, fails where the product `bloom_filter_size * block_size` of the
constructor wraps: with `S = 2^63` and `W = 2` the matrix of the fresh builder has
`2^64 mod 2^64 = 0` bytes, so `is_set(0, 0)` reads outside it, and the run of
`process` on `two_paths` ends at its first write. -/
theorem is_set_matrix_wraps :
    (2 ^ 63 * 2) % 2 ^ 64 = 0
    ∧ (bloom_filter.bloom_filter (2 ^ 63) 2 1).m_data.length = 0
    ∧ is_set (bloom_filter.bloom_filter (2 ^ 63) 2 1) 0 0 = .error .out_of_range
    ∧ process sum_hash (bloom_filter.bloom_filter (2 ^ 63) 2 1) two_paths 3
        = .error .out_of_range := by
  decide

/-- C2 (exact matrix content), amended.  For every `S > 0`, `W`, `H` with
`S * W < 2 ^ 64` and every list `P` of at most `8 * W` samples: a run of `process`
on the freshly constructed builder returns whenever `H < 2 ^ 32`,
`8 * W < 2 ^ 64` and the fuel exceeds `H`; and after every run that returns, for
every row `r < S` and column `c < |P|`, `is_set(r, c)` is true if and only if
some k-mer `k` of sample `c` and some seed `i < H` have
`XXH32(k, 8, i) mod S = r`. -/
theorem process_is_set_iff (XXH32 : List Nat → Nat → Nat → Nat) (S W H : Nat)
    (P : List genome.path) (fuel : Nat) (hS : 0 < S) (hSW : S * W < 2 ^ 64)
    (hP : P.length ≤ 8 * W) :
    (H < 2 ^ 32 → 8 * W < 2 ^ 64 → H < fuel →
        ∃ bf out, process XXH32 (bloom_filter.bloom_filter S W H) P fuel = .ok (bf, out))
    ∧ ∀ bf out, process XXH32 (bloom_filter.bloom_filter S W H) P fuel = .ok (bf, out) →
        ∀ (r c : Nat) (_ : r < S) (hc : c < P.length),
          ∃ b, is_set bf r c = .ok b
            ∧ (b = true ↔ ∃ k ∈ P[c].kmers, ∃ i, i < H ∧ XXH32 k.data 8 i % S = r) := by
  refine ⟨fun hH hW hf =>
    process_returns XXH32 S W H fuel hS hH hf P _ hP hW (has_shape_new S W H hSW), ?_⟩
  intro bf out hrun r c hr hc
  obtain ⟨hpaths, _⟩ := process_inv XXH32 _ P fuel bf out hrun
  obtain ⟨s1, b1, _⟩ := process_paths_spec XXH32 S W H fuel hS P _ bf hP
    (has_shape_new S W H hSW) hpaths
  have hidx : bf.m_block_size * r + c / 8 < bf.m_data.length := by
    rw [s1.2.2.2, s1.2.1]; exact index_lt S W r c hr (by omega)
  refine ⟨_, is_set_eq bf r c hidx, ?_⟩
  rw [s1.2.1, b1 r c (by omega), matrix_bit_new]
  simp [List.getElem?_eq_getElem hc]

/-- The builder on `two_paths` with `S = 5`, `W = 1`, `H = 2`: the run returns, and the
bit of row 3 in column 0 is characterised by the k-mers of sample `a`. -/
theorem process_is_set_iff_witness :
    (0 < 5 ∧ 5 * 1 < 2 ^ 64 ∧ two_paths.length ≤ 8 * 1)
    ∧ ∃ b, is_set { m_bloom_filter_size := 5, m_block_size := 1, m_num_hashes := 2,
                    m_data := [2, 1, 0, 3, 0] } 3 0 = .ok b
        ∧ (b = true ↔ ∃ k ∈ (two_paths[0]).kmers, ∃ i, i < 2 ∧ sum_hash k.data 8 i % 5 = 3) :=
  ⟨⟨by decide, by decide, by decide⟩,
   (process_is_set_iff sum_hash 5 1 2 two_paths 3 (by decide) (by decide) (by decide)).2
     { m_bloom_filter_size := 5, m_block_size := 1, m_num_hashes := 2, m_data := [2, 1, 0, 3, 0] }
     { header := { bloom_filter_size := 5, block_size := 1, num_hashes := 2,
                   file_names := ["a", "b", "", "", "", "", "", ""] },
       body := [2, 1, 0, 3, 0] }
     (by decide) 3 0 (by decide) (by decide)⟩

theorem foldlM_record (f : Nat → Nat) :
    ∀ (js calls : List Nat),
      js.foldlM (fun (s : List Nat) j => (Except.ok (s ++ [f j]) : Except failure (List Nat))) calls
        = .ok (calls ++ js.map f) := by
  intro js
  induction js with
  | nil => intro calls; simp [List.foldlM]; rfl
  | cons j js ih =>
    intro calls
    rw [List.foldlM_cons]
    show js.foldlM _ (calls ++ [f j]) = _
    rw [ih]
    simp

/-- C5 as stated fails: with `H = 2 ^ 32` the 32-bit counter of `create_hashes`
wraps to zero before it reaches `H`, and no run of the call returns. -/
theorem create_hashes_counter_wraps :
    ¬ ∃ (fuel : Nat) (calls : List Nat),
        create_hashes sum_hash [1, 0, 0, 0, 0, 0, 0, 0] 8 1 (2 ^ 32)
          (fun hash calls => .ok (calls ++ [hash])) fuel [] = .ok calls := by
  rintro ⟨fuel, calls, h⟩
  exact create_hashes_never_ok sum_hash _ 8 1 (2 ^ 32) _ (Nat.le_refl _) fuel [] calls h

/-- C5 (hash parity and range), amended to `H < 2 ^ 32`.  For every input, `S > 0`
and `H < 2 ^ 32`, a run of `create_hashes` with more than `H` units of fuel is the
fold of the callback over the seeds `0, ..., H - 1` in that order, the call for
seed `i` receiving `XXH32(input, len, i) mod S`; so the calls recorded are exactly
those `H` values; every value is below `S`; and `contains`, for a k-mer and a
column, answers true exactly when `is_set` holds at each of the rows that
`create_hashes` hands to the callback for that k-mer's bytes. -/
theorem create_hashes_rows (XXH32 : List Nat → Nat → Nat → Nat) (input : List Nat)
    (len S H : Nat) (hS : 0 < S) (hH : H < 2 ^ 32) :
    (∀ (σ : Type) (callback : Nat → σ → Except failure σ) (st : σ) (fuel : Nat), H < fuel →
        create_hashes XXH32 input len S H callback fuel st
          = (List.range H).foldlM (fun s i => callback (XXH32 input len i % S) s) st)
    ∧ (∀ fuel, H < fuel →
        create_hashes XXH32 input len S H (fun hash calls => .ok (calls ++ [hash])) fuel []
          = .ok ((List.range H).map (fun i => XXH32 input len i % S)))
    ∧ (∀ i, XXH32 input len i % S < S)
    ∧ (∀ (k : genome.kmer) (W c fuel : Nat) (bf : genome.bloom_filter),
        has_shape bf S W H → c < 8 * W → H < fuel →
        ∃ b, contains XXH32 bf k c fuel = .ok b
          ∧ (b = true ↔
              ∀ r ∈ (List.range H).map (fun i => XXH32 k.data genome.kmer.size i % S),
                is_set bf r c = .ok true)) := by
  refine ⟨?_, ?_, fun i => Nat.mod_lt _ hS, ?_⟩
  · intro σ callback st fuel hf
    exact create_hashes_eq XXH32 input len S H callback hS hH fuel hf st
  · intro fuel hf
    rw [create_hashes_eq XXH32 input len S H _ hS hH fuel hf,
      foldlM_record (fun i => XXH32 input len i % S)]
    rfl
  · intro k W c fuel bf hbf hc hf
    obtain ⟨b, e, hb⟩ := contains_eq XXH32 S W H c fuel hS hH hf hc k bf hbf
    refine ⟨b, e, ?_⟩
    rw [hb]
    have hset : ∀ j, is_set bf (XXH32 k.data 8 j % S) c
        = .ok (matrix_bit bf.m_data W (XXH32 k.data 8 j % S) c) := by
      intro j
      have := is_set_eq bf (XXH32 k.data 8 j % S) c (by
        rw [hbf.2.2.2, hbf.2.1]; exact index_lt S W _ c (Nat.mod_lt _ hS) hc)
      rw [this, hbf.2.1]
    constructor
    · intro h r hr
      obtain ⟨j, hj, rfl⟩ := List.mem_map.mp hr
      show is_set bf (XXH32 k.data 8 j % S) c = .ok true
      rw [hset j, h j (List.mem_range.mp hj)]
    · intro h j hj
      have := h (XXH32 k.data 8 j % S) (List.mem_map.mpr ⟨j, List.mem_range.mpr hj, rfl⟩)
      rw [hset j] at this
      exact Except.ok.inj this

/-- Three hashes of the bytes `1 2` modulo 5: the callback receives 3, 0, 2 in that order. -/
theorem create_hashes_rows_witness :
    (0 < 5 ∧ 3 < 2 ^ 32)
    ∧ create_hashes sum_hash [1, 2] 2 5 3 (fun hash calls => .ok (calls ++ [hash])) 4 []
        = .ok [3, 0, 2] :=
  ⟨⟨by decide, by decide⟩,
   (create_hashes_rows sum_hash [1, 2] 2 5 3 (by decide) (by decide)).2.1 4 (by decide)⟩

/-- C6 (bit order and frame).  In a builder whose matrix has `S * W` bytes, for
every row `r < S` and column `c < 8 * W`, `set_bit(r, c)` replaces the byte `b`
at offset `r * W + c / 8` by `b | (1 << (c mod 8))`, the mask being
`2 ^ (c mod 8)`, and leaves every other byte as it was; afterwards `is_set(r, c)`
is true, and `is_set(r', c')` is unchanged for every other pair with `r' < S`
and `c' < 8 * W`. -/
theorem set_bit_frame (bf : genome.bloom_filter) (S W H r c : Nat) (hbf : has_shape bf S W H)
    (hbytes : ∀ b ∈ bf.m_data, b < 256) (hr : r < S) (hc : c < 8 * W) :
    ∃ (b : Nat) (bf1 : genome.bloom_filter),
      bf.m_data[r * W + c / 8]? = some b
      ∧ set_bit bf r c = .ok bf1
      ∧ bf1 = { bf with m_data := bf.m_data.set (r * W + c / 8) (b ||| (1 <<< (c % 8))) }
      ∧ (1 <<< (c % 8)) = 2 ^ (c % 8)
      ∧ (∀ j, j ≠ r * W + c / 8 → bf1.m_data[j]? = bf.m_data[j]?)
      ∧ is_set bf1 r c = .ok true
      ∧ ∀ r' c', r' < S → c' < 8 * W → (r', c') ≠ (r, c) →
          is_set bf1 r' c' = is_set bf r' c' := by
  obtain ⟨h1, h2, h3, h4⟩ := hbf
  have hidx : bf.m_block_size * r + c / 8 < bf.m_data.length := by
    rw [h4, h2]; exact index_lt S W r c hr hc
  have hcomm : r * W + c / 8 = bf.m_block_size * r + c / 8 := by rw [h2, Nat.mul_comm]
  have hb : bf.m_data[bf.m_block_size * r + c / 8] < 256 := hbytes _ (List.getElem_mem _)
  have hmod : (bf.m_data[bf.m_block_size * r + c / 8] ||| (1 <<< (c % 8))) % 256
      = bf.m_data[bf.m_block_size * r + c / 8] ||| (1 <<< (c % 8)) :=
    Nat.mod_eq_of_lt (byte_or_lt _ _ hb (Nat.mod_lt _ (by norm_num)))
  obtain ⟨bf1, e, s1, b1⟩ := set_bit_shape S W H bf r c ⟨h1, h2, h3, h4⟩ hr hc
  have e1 := set_bit_eq bf r c hidx
  rw [e] at e1
  have e2 : bf1 = { bf with
      m_data := bf.m_data.set (bf.m_block_size * r + c / 8)
        ((bf.m_data[bf.m_block_size * r + c / 8] ||| (1 <<< (c % 8))) % 256) } := by
    cases e1; rfl
  refine ⟨bf.m_data[bf.m_block_size * r + c / 8], bf1, ?_, e, ?_, Nat.one_shiftLeft _, ?_, ?_, ?_⟩
  · rw [hcomm]; exact List.getElem?_eq_getElem hidx
  · rw [hcomm, e2, hmod]
  · intro j hj
    rw [e2]
    exact List.getElem?_set_ne (by rw [← hcomm]; exact fun h => hj h.symm)
  · have hidx1 : bf1.m_block_size * r + c / 8 < bf1.m_data.length := by
      rw [s1.2.2.2, s1.2.1]; exact index_lt S W r c hr hc
    rw [is_set_eq bf1 r c hidx1, s1.2.1]
    have := (b1 r c hc).mpr (Or.inr ⟨rfl, rfl⟩)
    rw [this]
  · intro r' c' hr' hc' hne
    have hidx1 : bf1.m_block_size * r' + c' / 8 < bf1.m_data.length := by
      rw [s1.2.2.2, s1.2.1]; exact index_lt S W r' c' hr' hc'
    have hidx0 : bf.m_block_size * r' + c' / 8 < bf.m_data.length := by
      rw [h4, h2]; exact index_lt S W r' c' hr' hc'
    rw [is_set_eq bf1 r' c' hidx1, is_set_eq bf r' c' hidx0, s1.2.1, h2]
    congr 1
    have hiff := b1 r' c' hc'
    have hno : ¬ (c' = c ∧ r' = r) := by
      rintro ⟨rfl, rfl⟩; exact hne rfl
    apply Bool.eq_iff_iff.mpr
    rw [hiff]
    constructor
    · rintro (h | h)
      · exact h
      · exact absurd h hno
    · exact Or.inl

/-- The call `set_bit(1, 3)` on `small_builder`. -/
theorem set_bit_frame_witness :
    (has_shape small_builder 2 1 1 ∧ (∀ b ∈ small_builder.m_data, b < 256) ∧ 1 < 2 ∧ 3 < 8 * 1)
    ∧ ∃ (b : Nat) (bf1 : genome.bloom_filter),
        small_builder.m_data[1 * 1 + 3 / 8]? = some b
        ∧ set_bit small_builder 1 3 = .ok bf1
        ∧ bf1 = { small_builder with
                  m_data := small_builder.m_data.set (1 * 1 + 3 / 8) (b ||| (1 <<< (3 % 8))) }
        ∧ (1 <<< (3 % 8)) = 2 ^ (3 % 8)
        ∧ (∀ j, j ≠ 1 * 1 + 3 / 8 → bf1.m_data[j]? = small_builder.m_data[j]?)
        ∧ is_set bf1 1 3 = .ok true
        ∧ ∀ r' c', r' < 2 → c' < 8 * 1 → (r', c') ≠ (1, 3) →
            is_set bf1 r' c' = is_set small_builder r' c' :=
  ⟨⟨⟨rfl, rfl, rfl, rfl⟩, by decide, by decide, by decide⟩,
   set_bit_frame small_builder 2 1 1 1 3 ⟨rfl, rfl, rfl, rfl⟩ (by decide) (by decide) (by decide)⟩

/-! ## The name list and the shared builder -/

theorem set_bit_block_size (bf bf1 : genome.bloom_filter) (r c : Nat)
    (h : set_bit bf r c = .ok bf1) : bf1.m_block_size = bf.m_block_size := by
  unfold set_bit at h
  cases hb : bf.m_data[bf.m_block_size * r + c / 8]? with
  | none => rw [hb] at h; cases h
  | some b => rw [hb] at h; cases h; rfl

theorem create_hashes_loop_block_size (XXH32 : List Nat → Nat → Nat → Nat)
    (input : List Nat) (len S H c : Nat) :
    ∀ (fuel i : Nat) (bf bf1 : genome.bloom_filter),
      create_hashes.loop XXH32 input len S H (fun hash b => set_bit b hash c) fuel i bf = .ok bf1 →
      bf1.m_block_size = bf.m_block_size := by
  intro fuel
  induction fuel with
  | zero => intro i bf bf1 h; simp [create_hashes.loop] at h
  | succ fuel ih =>
    intro i bf bf1 h
    unfold create_hashes.loop at h
    by_cases hlt : i < H
    · rw [if_pos hlt] at h
      by_cases hS : S = 0
      · rw [if_pos hS] at h; cases h
      · rw [if_neg hS] at h
        cases hcb : set_bit bf (XXH32 input len i % S) c with
        | error e => simp only [hcb] at h; cases h
        | ok bf2 =>
          simp only [hcb] at h
          rw [ih _ bf2 bf1 h, set_bit_block_size bf bf2 _ c hcb]
    · rw [if_neg hlt] at h
      cases h; rfl

theorem process_kmers_block_size (XXH32 : List Nat → Nat → Nat → Nat) (c fuel : Nat) :
    ∀ (kmers : List genome.kmer) (bf bf1 : genome.bloom_filter),
      process.kmers XXH32 c fuel kmers bf = .ok bf1 → bf1.m_block_size = bf.m_block_size := by
  intro kmers
  induction kmers with
  | nil => intro bf bf1 h; simp only [process.kmers, Except.ok.injEq] at h; rw [h]
  | cons k kmers ih =>
    intro bf bf1 h
    unfold process.kmers at h
    cases hc : create_hashes XXH32 k.data genome.kmer.size bf.m_bloom_filter_size
        bf.m_num_hashes (fun hash b => set_bit b hash c) fuel bf with
    | error e => rw [hc] at h; cases h
    | ok bf2 =>
      rw [hc] at h
      rw [ih bf2 bf1 h]
      exact create_hashes_loop_block_size XXH32 _ _ _ _ c fuel 0 bf bf2 hc

theorem process_paths_block_size (XXH32 : List Nat → Nat → Nat → Nat) (fuel : Nat) :
    ∀ (paths : List genome.path) (i : Nat) (bf bf1 : genome.bloom_filter),
      process.paths XXH32 fuel i paths bf = .ok bf1 → bf1.m_block_size = bf.m_block_size := by
  intro paths
  induction paths with
  | nil => intro i bf bf1 h; simp only [process.paths, Except.ok.injEq] at h; rw [h]
  | cons p paths ih =>
    intro i bf bf1 h
    unfold process.paths at h
    cases hk : process.kmers XXH32 i fuel p.kmers bf with
    | error e => rw [hk] at h; cases h
    | ok bf2 =>
      rw [hk] at h
      rw [ih (i + 1) bf2 bf1 h]
      exact process_kmers_block_size XXH32 i fuel p.kmers bf bf2 hk

/-- C8, as stated, fails where the product `8 * m_block_size` wraps: with
`W = 2^61` and no sample the name list is constructed with `2^64 mod 2^64 = 0`
entries, not `8 * W`, and that empty list is what `process` writes to the header
(the builder of 8 rows of `2^61` bytes has no matrix bytes either). -/
theorem process_names_wrap :
    ([] : List genome.path).length ≤ 8 * 2 ^ 61
    ∧ process.file_names (2 ^ 61) [] = .ok []
    ∧ ([] : List String).length ≠ 8 * 2 ^ 61
    ∧ process sum_hash (bloom_filter.bloom_filter 8 (2 ^ 61) 1) [] 3
        = .ok ({ m_bloom_filter_size := 8, m_block_size := 2 ^ 61, m_num_hashes := 1,
                 m_data := [] },
               { header := { bloom_filter_size := 8, block_size := 2 ^ 61, num_hashes := 1,
                             file_names := [] },
                 body := [] }) := by
  decide

/-- C8 (builder name list), amended.  For every `W` with `8 * W < 2 ^ 64` and every
list `P` of at most `8 * W` sample paths, the name list that `process` builds has
length exactly `8 * W`, its entry `c` is the stem of `P[c]` for every `c < |P|`,
every entry `c` with `|P| <= c < 8 * W` is the empty string, and it is the name
list in the header of the file that any returning run of `process` on a builder
of block size `W` writes. -/
theorem process_file_names_spec (W : Nat) (P : List genome.path) (hW : 8 * W < 2 ^ 64)
    (hP : P.length ≤ 8 * W) :
    ∃ names, process.file_names W P = .ok names
      ∧ names.length = 8 * W
      ∧ (∀ (c : Nat) (hc : c < P.length), names[c]? = some P[c].stem)
      ∧ (∀ c, P.length ≤ c → c < 8 * W → names[c]? = some "")
      ∧ ∀ (XXH32 : List Nat → Nat → Nat → Nat) (bf bf1 : genome.bloom_filter) (fuel : Nat)
          (out : bloom_filter_file),
          bf.m_block_size = W → process XXH32 bf P fuel = .ok (bf1, out) →
          out.header.file_names = names := by
  obtain ⟨names, e, hl, ha, hb⟩ := process_transform_spec P 0 (List.replicate (8 * W) "")
    (by simpa using hP)
  have e0 : process.file_names W P = .ok names := by
    unfold process.file_names
    rw [Nat.mod_eq_of_lt hW]
    exact e
  refine ⟨names, e0, by simpa using hl, ?_, ?_, ?_⟩
  · intro c hc
    have := ha c hc
    rw [Nat.zero_add] at this
    exact this
  · intro c h1 h2
    rw [hb c (Or.inr (by omega)), List.getElem?_replicate, if_pos h2]
  · intro XXH32 bf bf1 fuel out hW hrun
    obtain ⟨hpaths, hnames, _⟩ := process_inv XXH32 bf P fuel bf1 out hrun
    rw [process_paths_block_size XXH32 fuel P 0 bf bf1 hpaths, hW] at hnames
    rw [e0] at hnames
    exact (Except.ok.inj hnames).symm

/-- The name list of `two_paths` at block size 1. -/
theorem process_file_names_spec_witness :
    (8 * 1 < 2 ^ 64 ∧ two_paths.length ≤ 8 * 1)
    ∧ ∃ names, process.file_names 1 two_paths = .ok names
      ∧ names.length = 8 * 1
      ∧ (∀ (c : Nat) (hc : c < two_paths.length), names[c]? = some two_paths[c].stem)
      ∧ (∀ c, two_paths.length ≤ c → c < 8 * 1 → names[c]? = some "")
      ∧ ∀ (XXH32 : List Nat → Nat → Nat → Nat) (bf bf1 : genome.bloom_filter) (fuel : Nat)
          (out : bloom_filter_file),
          bf.m_block_size = 1 → process XXH32 bf two_paths fuel = .ok (bf1, out) →
          out.header.file_names = names :=
  ⟨⟨by decide, by decide⟩, process_file_names_spec 1 two_paths (by decide) (by decide)⟩

/-- C9 fails on the code: `create_from_samples` runs every batch on the one
builder and nothing clears `m_data` between two batches.  With `S = 1`, `W = 1`,
`H = 1` every hash, whatever the hash function, selects row 0.  The first batch of
`two_batches` sets columns 0 and 1; the second batch, a single sample without
k-mers, is then written with the same body: column 1, which that batch does not
use, is set, and column 0 is set although its sample has no k-mer. -/
theorem create_from_samples_keeps_bits (XXH32 : List Nat → Nat → Nat → Nat) :
    create_from_samples XXH32 two_batches 1 1 1 2
      = .ok [{ header := { bloom_filter_size := 1, block_size := 1, num_hashes := 1,
                           file_names := ["a", "b", "c", "d", "e", "f", "g", "h"] },
               body := [3] },
             { header := { bloom_filter_size := 1, block_size := 1, num_hashes := 1,
                           file_names := ["i", "", "", "", "", "", "", ""] },
               body := [3] }]
    ∧ is_set { m_bloom_filter_size := 1, m_block_size := 1, m_num_hashes := 1,
               m_data := [3] } 0 1 = .ok true
    ∧ is_set { m_bloom_filter_size := 1, m_block_size := 1, m_num_hashes := 1,
               m_data := [3] } 0 0 = .ok true := by
  refine ⟨?_, by decide, by decide⟩
  simp [create_from_samples, create_from_samples.batches, process, process.paths, process.kmers,
    create_hashes, create_hashes.loop, set_bit, two_batches, two_paths, bloom_filter.bloom_filter,
    process.file_names, process.transform, Nat.mod_one]

/-! ## The combiner: one row -/

theorem ifstream_read_length_le (ifs : ifstream) (n : Nat) : (ifs.read n).1.length ≤ n := by
  unfold ifstream.read
  split
  · split
    · simp
    · simp only []; omega
  · simp

theorem ifstream_read_exact (ifs : ifstream) (n : Nat) (hg : ifs.good = true)
    (hn : n ≤ ifs.rest.length) :
    ifs.read n = (ifs.rest.take n, { rest := ifs.rest.drop n, good := true }) := by
  unfold ifstream.read
  rw [if_pos hg, if_pos hn]

theorem splice_length (block got : List Nat) (pos : Nat) (h : pos + got.length ≤ block.length) :
    (block.take pos ++ got ++ block.drop (pos + got.length)).length = block.length := by
  simp only [List.length_append, List.length_take, List.length_drop]
  omega

theorem read_row_total :
    ∀ (streams : List (ifstream × Nat)) (pos : Nat) (block : List Nat),
      pos + (streams.map Prod.snd).sum ≤ block.length →
      ∃ streams1 block1, combine.read_row streams pos block = .ok (streams1, block1)
        ∧ block1.length = block.length
        ∧ streams1.map Prod.snd = streams.map Prod.snd := by
  intro streams
  induction streams with
  | nil => intro pos block _; exact ⟨[], block, rfl, rfl, rfl⟩
  | cons s streams ih =>
    intro pos block h
    simp only [List.map_cons, List.sum_cons] at h
    have hgot := ifstream_read_length_le s.1 s.2
    have hlen := splice_length block (s.1.read s.2).1 pos (by omega)
    obtain ⟨streams1, block1, e, hl, hw⟩ := ih (pos + s.2)
      (block.take pos ++ (s.1.read s.2).1 ++ block.drop (pos + (s.1.read s.2).1.length))
      (by rw [hlen]; omega)
    refine ⟨((s.1.read s.2).2, s.2) :: streams1, block1, ?_, by rw [hl, hlen], by simp [hw]⟩
    unfold combine.read_row
    rw [if_pos (by omega), e]

theorem read_row_exact :
    ∀ (streams : List (ifstream × Nat)) (pos : Nat) (block : List Nat),
      (∀ s ∈ streams, s.1.good = true ∧ s.2 ≤ s.1.rest.length) →
      pos + (streams.map Prod.snd).sum ≤ block.length →
      combine.read_row streams pos block
        = .ok (streams.map (fun s => ({ rest := s.1.rest.drop s.2, good := true }, s.2)),
               block.take pos ++ streams.flatMap (fun s => s.1.rest.take s.2)
                 ++ block.drop (pos + (streams.map Prod.snd).sum)) := by
  intro streams
  induction streams with
  | nil =>
    intro pos block _ _
    simp [combine.read_row]
  | cons s streams ih =>
    intro pos block hs h
    simp only [List.map_cons, List.sum_cons] at h
    obtain ⟨hg, hn⟩ := hs s (List.mem_cons_self _ _)
    have hread := ifstream_read_exact s.1 s.2 hg hn
    have hgl : (s.1.rest.take s.2).length = s.2 := by
      rw [List.length_take]; omega
    unfold combine.read_row
    rw [if_pos (by omega), hread]
    simp only [hgl]
    have hlen := splice_length block (s.1.rest.take s.2) pos (by rw [hgl]; omega)
    rw [hgl] at hlen
    rw [ih (pos + s.2) _ (fun t ht => hs t (List.mem_cons_of_mem _ ht)) (by rw [hlen]; omega)]
    have hA : (block.take pos ++ s.1.rest.take s.2).length = pos + s.2 := by
      rw [List.length_append, List.length_take, hgl]; omega
    have h1 : List.take (pos + s.2)
        (block.take pos ++ s.1.rest.take s.2 ++ block.drop (pos + s.2))
        = block.take pos ++ s.1.rest.take s.2 := List.take_left' hA
    have h2 : List.drop (pos + s.2 + (streams.map Prod.snd).sum)
        (block.take pos ++ s.1.rest.take s.2 ++ block.drop (pos + s.2))
        = block.drop (pos + (s.2 + (streams.map Prod.snd).sum)) := by
      rw [← hA, List.drop_append, List.drop_drop, hA, Nat.add_assoc]
    rw [h1, h2]
    simp [List.flatMap_cons, List.append_assoc]

/-! ## The combiner: all rows -/

theorem combine_rows_total :
    ∀ (n : Nat) (streams : List (ifstream × Nat)) (block : List Nat),
      (streams.map Prod.snd).sum ≤ block.length →
      ∃ body, combine.rows n streams block = .ok body := by
  intro n
  induction n with
  | zero => intro streams block _; exact ⟨[], rfl⟩
  | succ n ih =>
    intro streams block h
    obtain ⟨streams1, block1, e, hl, hw⟩ := read_row_total streams 0 block (by omega)
    obtain ⟨body, e2⟩ := ih streams1 block1 (by rw [hw, hl]; exact h)
    refine ⟨block1 ++ body, ?_⟩
    unfold combine.rows
    simp only [e, e2]

/-- The stream list of `combine` after `r` rows have been read, when no read has
met the end of a file. -/
theorem streams_after_zero (streams : List (ifstream × Nat))
    (h : ∀ s ∈ streams, s.1.good = true) :
    streams.map (fun s => (({ rest := s.1.rest.drop (0 * s.2), good := true } : ifstream), s.2))
      = streams := by
  induction streams with
  | nil => rfl
  | cons s streams ih =>
    rw [List.map_cons, ih (fun t ht => h t (List.mem_cons_of_mem _ ht))]
    have hg := h s (List.mem_cons_self _ _)
    obtain ⟨⟨rest, good⟩, w⟩ := s
    simp only at hg
    subst hg
    simp

theorem row_slice_length (S : Nat) (s : ifstream × Nat) (r : Nat) (hr : r < S)
    (h : s.1.rest.length = S * s.2) : s.2 ≤ (s.1.rest.drop (r * s.2)).length := by
  rw [List.length_drop, h]
  have : (r + 1) * s.2 ≤ S * s.2 := Nat.mul_le_mul_right _ hr
  rw [Nat.add_mul] at this
  omega

theorem combine_rows_exact (S : Nat) (streams : List (ifstream × Nat))
    (hs : ∀ s ∈ streams, s.1.rest.length = S * s.2) :
    ∀ (n r : Nat) (block : List Nat), r + n ≤ S →
      block.length = (streams.map Prod.snd).sum →
      combine.rows n
          (streams.map (fun s => ({ rest := s.1.rest.drop (r * s.2), good := true }, s.2))) block
        = .ok ((List.range' r n).flatMap
            (fun r1 => streams.flatMap (fun s => (s.1.rest.drop (r1 * s.2)).take s.2))) := by
  intro n
  induction n with
  | zero => intro r block _ _; rfl
  | succ n ih =>
    intro r block hr hb
    unfold combine.rows
    have hsum : (List.map Prod.snd
        (streams.map (fun s => (({ rest := s.1.rest.drop (r * s.2), good := true } : ifstream), s.2)))).sum
        = (streams.map Prod.snd).sum := by
      rw [List.map_map]; rfl
    rw [read_row_exact _ 0 block (by
        intro t ht
        obtain ⟨s, hsm, rfl⟩ := List.mem_map.mp ht
        exact ⟨rfl, row_slice_length S s r (by omega) (hs s hsm)⟩)
      (by rw [hsum, hb]; omega)]
    simp only [List.map_map, Function.comp_def, List.take_zero, List.nil_append, Nat.zero_add,
      List.flatMap_map]
    have hdrop : block.drop (streams.map Prod.snd).sum = [] :=
      List.drop_eq_nil_of_le (by omega)
    have hmap : (List.map (fun s => s.2) streams) = streams.map Prod.snd := rfl
    have hnext : (streams.map (fun s =>
          (({ rest := (s.1.rest.drop (r * s.2)).drop s.2, good := true } : ifstream), s.2)))
        = streams.map (fun s =>
          (({ rest := s.1.rest.drop ((r + 1) * s.2), good := true } : ifstream), s.2)) := by
      apply List.map_congr_left
      intro s _
      rw [List.drop_drop, Nat.add_mul, Nat.one_mul]
    rw [hdrop, List.append_nil, hnext]
    have hblk : (streams.flatMap (fun s => (s.1.rest.drop (r * s.2)).take s.2)).length
        = (streams.map Prod.snd).sum := by
      rw [List.length_flatMap]
      congr 1
      apply List.map_congr_left
      intro s hsm
      have := row_slice_length S s r (by omega) (hs s hsm)
      simp only [Function.comp, List.length_take]
      omega
    rw [ih (r + 1) _ (by omega) hblk]
    simp only [List.range'_succ, List.flatMap_cons]

/-! ## Slices of a body made of rows -/

theorem rows_flatMap_slice {α : Type} (f : Nat → List α) (L : Nat) :
    ∀ (n r0 : Nat), (∀ r, r0 ≤ r → r < r0 + n → (f r).length = L) →
      ((List.range' r0 n).flatMap f).length = n * L
        ∧ ∀ r, r < n → (((List.range' r0 n).flatMap f).drop (r * L)).take L = f (r0 + r) := by
  intro n
  induction n with
  | zero => intro r0 _; exact ⟨by simp, fun r hr => absurd hr (Nat.not_lt_zero _)⟩
  | succ n ih =>
    intro r0 hlen
    have h0 : (f r0).length = L := hlen r0 (Nat.le_refl _) (by omega)
    obtain ⟨ihl, ihs⟩ := ih (r0 + 1) (fun r h1 h2 => hlen r (by omega) (by omega))
    rw [List.range'_succ, List.flatMap_cons]
    refine ⟨by rw [List.length_append, ihl, h0, Nat.add_mul]; omega, ?_⟩
    intro r hr
    cases r with
    | zero =>
      rw [Nat.zero_mul, List.drop_zero]
      exact List.take_left' h0
    | succ r =>
      have : (r + 1) * L = (f r0).length + r * L := by rw [h0, Nat.add_mul]; omega
      rw [this, List.drop_append, ihs r (by omega)]
      congr 1
      omega

theorem getElem?_flatMap_at {α β : Type} (f : α → List β) :
    ∀ (l : List α) (j : Nat) (hj : j < l.length) (x : Nat), x < (f l[j]).length →
      (l.flatMap f)[((l.take j).map (fun a => (f a).length)).sum + x]? = (f l[j])[x]? := by
  intro l
  induction l with
  | nil => intro j hj; simp at hj
  | cons a l ih =>
    intro j hj x hx
    cases j with
    | zero =>
      simp only [List.take_zero, List.map_nil, List.sum_nil, Nat.zero_add, List.flatMap_cons,
        List.getElem_cons_zero] at hx ⊢
      exact List.getElem?_append_left hx
    | succ j =>
      simp only [List.length_cons] at hj
      simp only [List.getElem_cons_succ] at hx
      simp only [List.take_succ_cons, List.map_cons, List.sum_cons, List.flatMap_cons,
        List.getElem_cons_succ]
      rw [List.getElem?_append_right (by omega)]
      have : (f a).length + ((l.take j).map (fun a => (f a).length)).sum + x - (f a).length
          = ((l.take j).map (fun a => (f a).length)).sum + x := by omega
      rw [this]
      exact ih j (by omega) x hx

/-! ## The combiner: the file written -/

theorem combine_exact (streams : List (ifstream × Nat)) (S H : Nat) (names : List String)
    (hs : ∀ s ∈ streams, s.1.good = true ∧ s.1.rest.length = S * s.2) :
    combine streams S (streams.map Prod.snd).sum H names
      = .ok { header := { bloom_filter_size := S
                          block_size := (streams.map Prod.snd).sum
                          num_hashes := H
                          file_names := names }
              body := (List.range' 0 S).flatMap
                (fun r => streams.flatMap (fun s => (s.1.rest.drop (r * s.2)).take s.2)) } := by
  unfold combine
  have h := combine_rows_exact S streams (fun s hsm => (hs s hsm).2) S 0
    (List.replicate (streams.map Prod.snd).sum 0) (by omega) (by simp)
  rw [streams_after_zero streams (fun s hsm => (hs s hsm).1)] at h
  rw [h]

theorem row_length (streams : List (ifstream × Nat)) (S r : Nat) (hr : r < S)
    (hs : ∀ s ∈ streams, s.1.good = true ∧ s.1.rest.length = S * s.2) :
    (streams.flatMap (fun s => (s.1.rest.drop (r * s.2)).take s.2)).length
      = (streams.map Prod.snd).sum := by
  rw [List.length_flatMap]
  congr 1
  apply List.map_congr_left
  intro s hsm
  have := row_slice_length S s r hr (hs s hsm).2
  simp only [Function.comp, List.length_take]
  omega

/-- C3 (row-wise horizontal concatenation).  For every `S` and every list of
input streams that stand at the start of their bodies, input `j` having row
width `W_j` and `S * W_j` body bytes left, `combine` with block size `W'`, the
sum of the `W_j`, writes the header and then exactly `S * W'` body bytes, and for
every row `r < S` the output bytes `[r * W', (r + 1) * W')` are the
concatenation, in input order, of the bytes `[r * W_j, (r + 1) * W_j)` of the
body of each input `j`. -/
theorem combine_concatenates (streams : List (ifstream × Nat)) (S H : Nat)
    (names : List String)
    (hs : ∀ s ∈ streams, s.1.good = true ∧ s.1.rest.length = S * s.2) :
    ∃ out, combine streams S (streams.map Prod.snd).sum H names = .ok out
      ∧ out.header = { bloom_filter_size := S
                       block_size := (streams.map Prod.snd).sum
                       num_hashes := H
                       file_names := names }
      ∧ out.body.length = S * (streams.map Prod.snd).sum
      ∧ ∀ r, r < S →
          (out.body.drop (r * (streams.map Prod.snd).sum)).take (streams.map Prod.snd).sum
            = streams.flatMap (fun s => (s.1.rest.drop (r * s.2)).take s.2) := by
  obtain ⟨hl, hsl⟩ := rows_flatMap_slice
    (fun r => streams.flatMap (fun s => (s.1.rest.drop (r * s.2)).take s.2))
    (streams.map Prod.snd).sum S 0
    (fun r _ hr => row_length streams S r (by omega) hs)
  refine ⟨_, combine_exact streams S H names hs, rfl, hl, ?_⟩
  intro r hr
  have := hsl r hr
  rw [Nat.zero_add] at this
  exact this

/-- The rows of `two_streams`, three rows of widths 2 and 1, combined. -/
theorem combine_concatenates_witness :
    (∀ s ∈ two_streams, s.1.good = true ∧ s.1.rest.length = 3 * s.2)
    ∧ ∃ out, combine two_streams 3 (two_streams.map Prod.snd).sum 1 ["a"] = .ok out
      ∧ out.header = { bloom_filter_size := 3
                       block_size := (two_streams.map Prod.snd).sum
                       num_hashes := 1
                       file_names := ["a"] }
      ∧ out.body.length = 3 * (two_streams.map Prod.snd).sum
      ∧ ∀ r, r < 3 →
          (out.body.drop (r * (two_streams.map Prod.snd).sum)).take
              (two_streams.map Prod.snd).sum
            = two_streams.flatMap (fun s => (s.1.rest.drop (r * s.2)).take s.2) :=
  ⟨by decide, combine_concatenates two_streams 3 1 ["a"] (by decide)⟩

/-! ## The combiner: columns -/

theorem combine_byte (streams : List (ifstream × Nat)) (S : Nat)
    (hs : ∀ s ∈ streams, s.1.good = true ∧ s.1.rest.length = S * s.2)
    (j : Nat) (hj : j < streams.length) (r x : Nat) (hr : r < S) (hx : x < streams[j].2) :
    ((List.range' 0 S).flatMap
        (fun r => streams.flatMap (fun s => (s.1.rest.drop (r * s.2)).take s.2)))[
          (streams.map Prod.snd).sum * r + (((streams.take j).map Prod.snd).sum + x)]?
      = streams[j].1.rest[streams[j].2 * r + x]? := by
  obtain ⟨_, hsl⟩ := rows_flatMap_slice
    (fun r => streams.flatMap (fun s => (s.1.rest.drop (r * s.2)).take s.2))
    (streams.map Prod.snd).sum S 0
    (fun r _ hr => row_length streams S r (by omega) hs)
  have hrow := hsl r hr
  rw [Nat.zero_add] at hrow
  have hmem : streams[j] ∈ streams := List.getElem_mem _
  have hslice := row_slice_length S streams[j] r hr (hs _ hmem).2
  have hflen : ((streams[j].1.rest.drop (r * streams[j].2)).take streams[j].2).length
      = streams[j].2 := by
    rw [List.length_take]; omega
  have hoff : ((streams.take j).map
        (fun s => ((s.1.rest.drop (r * s.2)).take s.2).length)).sum
      = ((streams.take j).map Prod.snd).sum := by
    congr 1
    apply List.map_congr_left
    intro s hsm
    have := row_slice_length S s r hr (hs s (List.mem_of_mem_take hsm)).2
    rw [List.length_take]; omega
  have hat := getElem?_flatMap_at (fun s => (s.1.rest.drop (r * s.2)).take s.2)
    streams j hj x (by rw [hflen]; exact hx)
  rw [hoff] at hat
  have hright : ((streams[j].1.rest.drop (r * streams[j].2)).take streams[j].2)[x]?
      = streams[j].1.rest[streams[j].2 * r + x]? := by
    rw [List.getElem?_take_of_lt hx, List.getElem?_drop, Nat.mul_comm]
  have hsome : (streams[j].1.rest[streams[j].2 * r + x]?).isSome = true := by
    rw [← hright]
    rw [List.getElem?_eq_getElem (by rw [hflen]; exact hx)]
    rfl
  have hleft := congrArg (fun l => l[((streams.take j).map Prod.snd).sum + x]?) hrow
  simp only [List.getElem?_take, List.getElem?_drop] at hleft
  rw [hat, hright] at hleft
  by_cases hlt : ((streams.take j).map Prod.snd).sum + x < (streams.map Prod.snd).sum
  · rw [if_pos hlt] at hleft
    rw [← hleft, Nat.mul_comm]
  · rw [if_neg hlt] at hleft
    rw [← hleft] at hsome
    cases hsome

theorem is_set_congr (bf1 bf2 : genome.bloom_filter) (r1 c1 r2 c2 : Nat) (b : Nat)
    (h1 : bf1.m_data[bf1.m_block_size * r1 + c1 / 8]? = some b)
    (h2 : bf2.m_data[bf2.m_block_size * r2 + c2 / 8]? = some b)
    (hm : c1 % 8 = c2 % 8) :
    ∃ v, is_set bf1 r1 c1 = .ok v ∧ is_set bf2 r2 c2 = .ok v := by
  refine ⟨b &&& (1 <<< (c1 % 8)) != 0, ?_, ?_⟩
  · unfold is_set; rw [h1]
  · unfold is_set; rw [h2, hm]

theorem combine_columns_general (streams : List (ifstream × Nat)) (S H : Nat)
    (names : List String)
    (hs : ∀ s ∈ streams, s.1.good = true ∧ s.1.rest.length = S * s.2) :
    ∃ out, combine streams S (streams.map Prod.snd).sum H names = .ok out
      ∧ ∀ (j : Nat) (hj : j < streams.length) (r c : Nat), r < S → c < 8 * streams[j].2 →
          ∃ v, is_set { m_bloom_filter_size := S, m_block_size := (streams.map Prod.snd).sum,
                        m_num_hashes := H, m_data := out.body } r
                  (8 * ((streams.take j).map Prod.snd).sum + c) = .ok v
            ∧ is_set { m_bloom_filter_size := S, m_block_size := streams[j].2,
                       m_num_hashes := H, m_data := streams[j].1.rest } r c = .ok v := by
  refine ⟨_, combine_exact streams S H names hs, ?_⟩
  intro j hj r c hr hc
  have hbyte := combine_byte streams S hs j hj r (c / 8) hr (by omega)
  have hlen : streams[j].2 * r + c / 8 < streams[j].1.rest.length := by
    rw [(hs _ (List.getElem_mem _)).2]
    exact index_lt S _ r c hr hc
  rw [List.getElem?_eq_getElem hlen] at hbyte
  apply is_set_congr _ _ _ _ _ _ _ ?_ (List.getElem?_eq_getElem hlen) (by omega)
  simp only []
  rw [← hbyte]
  congr 1
  omega

/-- C4 (column stability under concatenation).  For two batches with the same
`S`, row widths `W1`, `W2` and bodies of `S * W1` and `S * W2` bytes, in the body
that `combine` writes the bit of row `r < S` at column `c` equals the first
batch's bit `(r, c)` for every `c < 8 * W1`, and the bit at column `8 * W1 + c`
equals the second batch's bit `(r, c)` for every `c < 8 * W2`; in general, for
any list of inputs, column `c` of input `j` lands at column
`8 * (W_1 + ... + W_(j-1)) + c`.  The bits are read with `is_set`. -/
theorem combine_column_stable (S H : Nat) (names : List String) :
    (∀ (b1 b2 : List Nat) (W1 W2 : Nat), b1.length = S * W1 → b2.length = S * W2 →
      ∃ out, combine [({ rest := b1, good := true }, W1), ({ rest := b2, good := true }, W2)]
            S (W1 + W2) H names = .ok out
        ∧ (∀ r c, r < S → c < 8 * W1 →
            ∃ v, is_set { m_bloom_filter_size := S, m_block_size := W1 + W2,
                          m_num_hashes := H, m_data := out.body } r c = .ok v
              ∧ is_set { m_bloom_filter_size := S, m_block_size := W1,
                         m_num_hashes := H, m_data := b1 } r c = .ok v)
        ∧ (∀ r c, r < S → c < 8 * W2 →
            ∃ v, is_set { m_bloom_filter_size := S, m_block_size := W1 + W2,
                          m_num_hashes := H, m_data := out.body } r (8 * W1 + c) = .ok v
              ∧ is_set { m_bloom_filter_size := S, m_block_size := W2,
                         m_num_hashes := H, m_data := b2 } r c = .ok v))
    ∧ (∀ (streams : List (ifstream × Nat)),
        (∀ s ∈ streams, s.1.good = true ∧ s.1.rest.length = S * s.2) →
        ∃ out, combine streams S (streams.map Prod.snd).sum H names = .ok out
          ∧ ∀ (j : Nat) (hj : j < streams.length) (r c : Nat), r < S → c < 8 * streams[j].2 →
              ∃ v, is_set { m_bloom_filter_size := S, m_block_size := (streams.map Prod.snd).sum,
                            m_num_hashes := H, m_data := out.body } r
                      (8 * ((streams.take j).map Prod.snd).sum + c) = .ok v
                ∧ is_set { m_bloom_filter_size := S, m_block_size := streams[j].2,
                           m_num_hashes := H, m_data := streams[j].1.rest } r c = .ok v) := by
  refine ⟨?_, fun streams hs => combine_columns_general streams S H names hs⟩
  intro b1 b2 W1 W2 h1 h2
  have hs : ∀ s ∈ [(({ rest := b1, good := true } : ifstream), W1),
      ({ rest := b2, good := true }, W2)], s.1.good = true ∧ s.1.rest.length = S * s.2 := by
    intro s hsm
    simp only [List.mem_cons, List.mem_singleton, List.not_mem_nil, or_false] at hsm
    rcases hsm with rfl | rfl
    · exact ⟨rfl, h1⟩
    · exact ⟨rfl, h2⟩
  obtain ⟨out, e, hcol⟩ := combine_columns_general _ S H names hs
  have hsum : (List.map Prod.snd [(({ rest := b1, good := true } : ifstream), W1),
      ({ rest := b2, good := true }, W2)]).sum = W1 + W2 := by simp
  rw [hsum] at e hcol
  refine ⟨out, e, ?_, ?_⟩
  · intro r c hr hc
    have := hcol 0 (by simp) r c hr (by simpa using hc)
    simpa using this
  · intro r c hr hc
    have := hcol 1 (by simp) r c hr (by simpa using hc)
    simpa using this

/-- Two bodies of three rows, of widths 2 and 1, combined: the columns of the first
stay, those of the second move up by 16. -/
theorem combine_column_stable_witness :
    ([1, 2, 3, 4, 5, 6].length = 3 * 2 ∧ [7, 8, 9].length = 3 * 1)
    ∧ ∃ out, combine [({ rest := [1, 2, 3, 4, 5, 6], good := true }, 2),
                      ({ rest := [7, 8, 9], good := true }, 1)] 3 (2 + 1) 1 ["a"] = .ok out
        ∧ (∀ r c, r < 3 → c < 8 * 2 →
            ∃ v, is_set { m_bloom_filter_size := 3, m_block_size := 2 + 1,
                          m_num_hashes := 1, m_data := out.body } r c = .ok v
              ∧ is_set { m_bloom_filter_size := 3, m_block_size := 2,
                         m_num_hashes := 1, m_data := [1, 2, 3, 4, 5, 6] } r c = .ok v)
        ∧ (∀ r c, r < 3 → c < 8 * 1 →
            ∃ v, is_set { m_bloom_filter_size := 3, m_block_size := 2 + 1,
                          m_num_hashes := 1, m_data := out.body } r (8 * 2 + c) = .ok v
              ∧ is_set { m_bloom_filter_size := 3, m_block_size := 1,
                         m_num_hashes := 1, m_data := [7, 8, 9] } r c = .ok v) :=
  ⟨⟨by decide, by decide⟩,
   (combine_column_stable 3 1 ["a"]).1 [1, 2, 3, 4, 5, 6] [7, 8, 9] 2 1 (by decide) (by decide)⟩

/-! ## The combiner: headers and names -/

theorem combine_total (streams : List (ifstream × Nat)) (S H : Nat) (names : List String) :
    ∃ body, combine streams S (streams.map Prod.snd).sum H names
      = .ok { header := { bloom_filter_size := S
                          block_size := (streams.map Prod.snd).sum
                          num_hashes := H
                          file_names := names }
              body := body } := by
  obtain ⟨body, e⟩ := combine_rows_total S streams
    (List.replicate (streams.map Prod.snd).sum 0) (by simp)
  refine ⟨body, ?_⟩
  unfold combine
  rw [e]

theorem combine_open_eq (NDEBUG : Bool) (S H : Nat) :
    ∀ (paths : List bloom_filter_file) (ifstreams : List (ifstream × Nat))
      (file_names : List String) (new_block_size : Nat),
      (NDEBUG = true
        ∨ ∀ p ∈ paths, p.header.bloom_filter_size = S ∧ p.header.num_hashes = H) →
      combine_bloom_filters.open NDEBUG S H paths (ifstreams, file_names, new_block_size)
        = .ok (ifstreams ++ paths.map (fun p => ({ rest := p.body, good := true },
                                                  p.header.block_size)),
               file_names ++ paths.flatMap (fun p => p.header.file_names),
               new_block_size + (paths.map (fun p => p.header.block_size)).sum) := by
  intro paths
  induction paths with
  | nil => intro ifstreams file_names new_block_size _; simp [combine_bloom_filters.open]
  | cons p paths ih =>
    intro ifstreams file_names new_block_size h
    have h1 : ¬ (NDEBUG = false ∧ p.header.bloom_filter_size ≠ S) := by
      rcases h with h | h
      · rw [h]; exact fun c => Bool.noConfusion c.1
      · exact fun c => c.2 (h p (List.mem_cons_self _ _)).1
    have h2 : ¬ (NDEBUG = false ∧ p.header.num_hashes ≠ H) := by
      rcases h with h | h
      · rw [h]; exact fun c => Bool.noConfusion c.1
      · exact fun c => c.2 (h p (List.mem_cons_self _ _)).2
    unfold combine_bloom_filters.open
    rw [if_neg h1, if_neg h2, ih _ _ _
      (h.imp id (fun h q hq => h q (List.mem_cons_of_mem _ hq)))]
    simp [List.flatMap_cons, List.append_assoc, Nat.add_assoc]

theorem combine_batch_eq (NDEBUG : Bool) (S H : Nat) (paths : List bloom_filter_file)
    (h : NDEBUG = true
      ∨ ∀ p ∈ paths, p.header.bloom_filter_size = S ∧ p.header.num_hashes = H) :
    ∃ body, combine_bloom_filters.batch NDEBUG S H ([], []) paths
      = .ok (([], []),
             { header := { bloom_filter_size := S
                           block_size := (paths.map (fun p => p.header.block_size)).sum
                           num_hashes := H
                           file_names := paths.flatMap (fun p => p.header.file_names) }
               body := body }) := by
  obtain ⟨body, e⟩ := combine_total
    (paths.map (fun p => (({ rest := p.body, good := true } : ifstream), p.header.block_size)))
    S H (paths.flatMap (fun p => p.header.file_names))
  have hw : (List.map Prod.snd (paths.map (fun p =>
      (({ rest := p.body, good := true } : ifstream), p.header.block_size))))
      = paths.map (fun p => p.header.block_size) := by
    rw [List.map_map]; rfl
  rw [hw] at e
  refine ⟨body, ?_⟩
  unfold combine_bloom_filters.batch
  rw [combine_open_eq NDEBUG S H paths [] [] 0 h]
  simp only [List.nil_append, Nat.zero_add, e]

theorem splice_get_inside (rows slice : List Nat) (p t : Nat) (hp : p ≤ rows.length)
    (ht : t < slice.length) :
    (rows.take p ++ slice ++ rows.drop (p + slice.length))[p + t]? = slice[t]? := by
  have hA : (rows.take p).length = p := by rw [List.length_take]; omega
  rw [List.append_assoc, List.getElem?_append_right (by omega), hA,
    List.getElem?_append_left (by omega)]
  congr 1
  omega

theorem splice_get_outside (rows slice : List Nat) (p j : Nat)
    (hp : p + slice.length ≤ rows.length) (hj : j < p ∨ p + slice.length ≤ j) :
    (rows.take p ++ slice ++ rows.drop (p + slice.length))[j]? = rows[j]? := by
  have hA : (rows.take p).length = p := by rw [List.length_take]; omega
  rcases hj with hj | hj
  · rw [List.append_assoc, List.getElem?_append_left (by omega), List.getElem?_take_of_lt hj]
  · rw [List.getElem?_append_right (by rw [List.length_append, hA]; omega),
      List.length_append, hA, List.getElem?_drop]
    congr 1
    omega

theorem row_offset_le (S W h : Nat) ( begin size : Nat) (hS : 0 < S) (hfit : begin + size ≤ W) :
    begin + (h % S) * W + size ≤ S * W := by
  have h1 : h % S + 1 ≤ S := Nat.mod_lt _ hS
  have h2 : (h % S + 1) * W ≤ S * W := Nat.mul_le_mul_right _ h1
  rw [Nat.add_mul] at h2
  omega

theorem read_from_disk_loop_spec (f : cobs.ClassicIndexMMapSearchFile)
    ( begin size buffer_size : Nat) (hS : 0 < f.header_.signature_size)
    (hdata : f.data_.length = f.header_.signature_size * f.header_.row_size)
    (hfit : begin + size ≤ f.header_.row_size) (hsb : size ≤ buffer_size) :
    ∀ (hashes : List Nat) (i : Nat) (rows : List Nat),
      (∀ idx, idx < hashes.length → (i + idx) * buffer_size + size ≤ rows.length) →
      ∃ rows1, cobs.ClassicIndexMMapSearchFile.read_from_disk.loop f begin size buffer_size
            i hashes rows = .ok rows1
        ∧ rows1.length = rows.length
        ∧ (∀ (idx : Nat) (hidx : idx < hashes.length) (t : Nat), t < size →
            rows1[(i + idx) * buffer_size + t]?
              = f.data_[ begin + (hashes[idx] % f.header_.signature_size) * f.header_.row_size + t]?)
        ∧ (∀ j, (∀ idx, idx < hashes.length →
              j < (i + idx) * buffer_size ∨ (i + idx) * buffer_size + size ≤ j) →
            rows1[j]? = rows[j]?) := by
  intro hashes
  induction hashes with
  | nil =>
    intro i rows _
    exact ⟨rows, rfl, rfl, fun idx hidx => absurd hidx (Nat.not_lt_zero _), fun _ _ => rfl⟩
  | cons h hashes ih =>
    intro i rows hrows
    have hread := row_offset_le f.header_.signature_size f.header_.row_size h begin size hS hfit
    have hw0 := hrows 0 (by simp)
    rw [Nat.add_zero] at hw0
    have hsl : ((f.data_.drop ( begin + (h % f.header_.signature_size) * f.header_.row_size)).take
        size).length = size := by
      rw [List.length_take, List.length_drop]; omega
    have hlen1 := splice_length rows
      ((f.data_.drop ( begin + (h % f.header_.signature_size) * f.header_.row_size)).take size)
      (i * buffer_size) (by rw [hsl]; exact hw0)
    rw [hsl] at hlen1
    obtain ⟨rows1, e, hl, ha, hb⟩ := ih (i + 1)
      (rows.take (i * buffer_size)
        ++ (f.data_.drop ( begin + (h % f.header_.signature_size) * f.header_.row_size)).take size
        ++ rows.drop (i * buffer_size + size))
      (by
        intro idx hidx
        rw [hlen1]
        have := hrows (idx + 1) (by simpa using hidx)
        rw [show i + 1 + idx = i + (idx + 1) by omega]
        exact this)
    refine ⟨rows1, ?_, by rw [hl, hlen1], ?_, ?_⟩
    · unfold cobs.ClassicIndexMMapSearchFile.read_from_disk.loop
      rw [if_neg (by omega), if_pos (by rw [hdata]; exact hread), if_pos hw0]
      exact e
    · intro idx hidx t ht
      cases idx with
      | zero =>
        rw [Nat.add_zero, List.getElem_cons_zero]
        rw [hb (i * buffer_size + t) (by
          intro idx _
          left
          have : (i + 1 + idx) * buffer_size = i * buffer_size + buffer_size + idx * buffer_size := by
            rw [Nat.add_mul, Nat.add_mul, Nat.one_mul]
          omega)]
        have := splice_get_inside rows
          ((f.data_.drop ( begin + (h % f.header_.signature_size) * f.header_.row_size)).take size)
          (i * buffer_size) t (by omega) (by rw [hsl]; exact ht)
        rw [hsl] at this
        rw [this, List.getElem?_take_of_lt ht, List.getElem?_drop]
      | succ idx =>
        rw [List.getElem_cons_succ]
        have := ha idx (by simpa using hidx) t ht
        rw [show i + 1 + idx = i + (idx + 1) by omega] at this
        exact this
    · intro j hj
      rw [hb j (by
        intro idx hidx
        have := hj (idx + 1) (by simpa using hidx)
        rw [show i + 1 + idx = i + (idx + 1) by omega]
        exact this)]
      have h0 := hj 0 (by simp)
      rw [Nat.add_zero] at h0
      have := splice_get_outside rows
        ((f.data_.drop ( begin + (h % f.header_.signature_size) * f.header_.row_size)).take size)
        (i * buffer_size) j (by rw [hsl]; exact hw0) (by rw [hsl]; exact h0)
      rw [hsl] at this
      exact this

/-- C10 (row fetch).  For every list of hashes, `S > 0`, row width `W`, mapped body
of `S * W` bytes, and `begin`, `size`, `buffer_size` with `begin + size <= W` and
`size <= buffer_size`, on a buffer `rows` that holds the slices written,
`read_from_disk` returns; for every `i < |hashes|` the bytes
`[i * buffer_size, i * buffer_size + size)` of `rows` are then the bytes
`[(hashes[i] mod S) * W + begin, (hashes[i] mod S) * W + begin + size)` of the
body, and every byte of `rows` outside those slices is as it was. -/
theorem read_from_disk_rows (f : cobs.ClassicIndexMMapSearchFile) (hashes rows : List Nat)
    ( begin size buffer_size : Nat) (hS : 0 < f.header_.signature_size)
    (hdata : f.data_.length = f.header_.signature_size * f.header_.row_size)
    (hfit : begin + size ≤ f.header_.row_size) (hsb : size ≤ buffer_size)
    (hrows : ∀ i, i < hashes.length → i * buffer_size + size ≤ rows.length) :
    ∃ rows1, f.read_from_disk hashes rows begin size buffer_size = .ok rows1
      ∧ rows1.length = rows.length
      ∧ (∀ (i : Nat) (hi : i < hashes.length),
          (rows1.drop (i * buffer_size)).take size
            = (f.data_.drop ((hashes[i] % f.header_.signature_size) * f.header_.row_size
                + begin)).take size)
      ∧ (∀ j, (∀ i, i < hashes.length → j < i * buffer_size ∨ i * buffer_size + size ≤ j) →
          rows1[j]? = rows[j]?) := by
  obtain ⟨rows1, e, hl, ha, hb⟩ := read_from_disk_loop_spec f begin size buffer_size hS hdata
    hfit hsb hashes 0 rows (by
      intro idx hidx
      rw [Nat.zero_add]; exact hrows idx hidx)
  refine ⟨rows1, ?_, hl, ?_, ?_⟩
  · unfold cobs.ClassicIndexMMapSearchFile.read_from_disk
    rw [if_pos (Nat.le_trans (Nat.mod_le _ _) hfit)]
    exact e
  · intro i hi
    apply List.ext_getElem?
    intro t
    simp only [List.getElem?_take, List.getElem?_drop]
    by_cases ht : t < size
    · rw [if_pos ht, if_pos ht]
      have := ha i hi t ht
      rw [Nat.zero_add] at this
      rw [this]
      congr 1
      omega
    · rw [if_neg ht, if_neg ht]
  · intro j hj
    apply hb j
    intro idx hidx
    rw [Nat.zero_add]
    exact hj idx hidx

/-- Three row fetches of one byte from `small_index` into a buffer of seven bytes. -/
theorem read_from_disk_rows_witness :
    (0 < cobs.small_index.header_.signature_size
      ∧ cobs.small_index.data_.length
          = cobs.small_index.header_.signature_size * cobs.small_index.header_.row_size
      ∧ 1 + 1 ≤ cobs.small_index.header_.row_size ∧ 1 ≤ 2
      ∧ ∀ i, i < [4, 5, 3].length → i * 2 + 1 ≤ [0, 0, 0, 0, 0, 0, 0].length)
    ∧ ∃ rows1, cobs.small_index.read_from_disk [4, 5, 3] [0, 0, 0, 0, 0, 0, 0] 1 1 2 = .ok rows1
      ∧ rows1.length = [0, 0, 0, 0, 0, 0, 0].length
      ∧ (∀ (i : Nat) (hi : i < [4, 5, 3].length),
          (rows1.drop (i * 2)).take 1
            = (cobs.small_index.data_.drop
                (([4, 5, 3][i] % cobs.small_index.header_.signature_size)
                  * cobs.small_index.header_.row_size + 1)).take 1)
      ∧ (∀ j, (∀ i, i < [4, 5, 3].length → j < i * 2 ∨ i * 2 + 1 ≤ j) →
          rows1[j]? = [0, 0, 0, 0, 0, 0, 0][j]?) :=
  ⟨⟨by decide, by decide, by decide, by decide, by decide⟩,
   read_from_disk_rows cobs.small_index [4, 5, 3] [0, 0, 0, 0, 0, 0, 0] 1 1 2
     (by decide) (by decide) (by decide) (by decide) (by decide)⟩

/-! ## The combiner: header mismatch -/

theorem combine_open_mismatch (S H : Nat) :
    ∀ (paths : List bloom_filter_file) (st : List (ifstream × Nat) × List String × Nat),
      (∃ p ∈ paths, p.header.bloom_filter_size ≠ S ∨ p.header.num_hashes ≠ H) →
      combine_bloom_filters.open false S H paths st = .error .assertion := by
  intro paths
  induction paths with
  | nil => intro st h; obtain ⟨p, hp, _⟩ := h; cases hp
  | cons p paths ih =>
    intro st h
    obtain ⟨ifstreams, file_names, new_block_size⟩ := st
    unfold combine_bloom_filters.open
    by_cases h1 : p.header.bloom_filter_size = S
    · by_cases h2 : p.header.num_hashes = H
      · rw [if_neg (fun c => c.2 h1), if_neg (fun c => c.2 h2)]
        apply ih
        obtain ⟨q, hq, hne⟩ := h
        rcases List.mem_cons.mp hq with rfl | hq
        · rcases hne with hne | hne
          · exact absurd h1 hne
          · exact absurd h2 hne
        · exact ⟨q, hq, hne⟩
      · rw [if_neg (fun c => c.2 h1), if_pos ⟨rfl, h2⟩]
    · rw [if_pos ⟨rfl, h1⟩]

theorem combine_batches_mismatch (S H : Nat) :
    ∀ (batches : List (List bloom_filter_file)),
      (∃ paths ∈ batches, ∃ p ∈ paths,
        p.header.bloom_filter_size ≠ S ∨ p.header.num_hashes ≠ H) →
      combine_bloom_filters.batches false S H batches ([], []) = .error .assertion := by
  intro batches
  induction batches with
  | nil => intro h; obtain ⟨paths, hp, _⟩ := h; cases hp
  | cons paths batches ih =>
    intro h
    unfold combine_bloom_filters.batches
    by_cases hm : ∃ p ∈ paths, p.header.bloom_filter_size ≠ S ∨ p.header.num_hashes ≠ H
    · have : combine_bloom_filters.batch false S H ([], []) paths = .error .assertion := by
        unfold combine_bloom_filters.batch
        rw [combine_open_mismatch S H paths _ hm]
      rw [this]
    · have hall : ∀ p ∈ paths, p.header.bloom_filter_size = S ∧ p.header.num_hashes = H := by
        intro p hp
        by_contra hne
        apply hm
        refine ⟨p, hp, ?_⟩
        by_cases h1 : p.header.bloom_filter_size = S
        · right; intro h2; exact hne ⟨h1, h2⟩
        · left; exact h1
      obtain ⟨body, e⟩ := combine_batch_eq false S H paths (Or.inr hall)
      simp only [e]
      have hrest : ∃ paths ∈ batches, ∃ p ∈ paths,
          p.header.bloom_filter_size ≠ S ∨ p.header.num_hashes ≠ H := by
        obtain ⟨q, hq, hne⟩ := h
        rcases List.mem_cons.mp hq with rfl | hq
        · exact absurd hne hm
        · exact ⟨q, hq, hne⟩
      rw [ih hrest]

/-- In a build without `NDEBUG`, for a batch given to the callback of
`combine_bloom_filters` with expected parameters `S`, `H`: if the header of some
input has another `bloom_filter_size` or another `num_hashes`, opening the inputs
ends with a failed `assert`, whatever the vectors held before, so the callback
ends with that failure and does not reach `combine`, and the whole call of
`combine_bloom_filters` ends with it; if every input matches, the callback
returns a file and no failure is raised. -/
theorem combine_bloom_filters_asserts (S H : Nat) (paths : List bloom_filter_file) :
    ((∃ p ∈ paths, p.header.bloom_filter_size ≠ S ∨ p.header.num_hashes ≠ H) →
      (∀ st, combine_bloom_filters.open false S H paths st = .error .assertion)
      ∧ (∀ st, combine_bloom_filters.batch false S H st paths = .error .assertion)
      ∧ ∀ (before after : List (List bloom_filter_file)),
          combine_bloom_filters false (before ++ paths :: after) S H = .error .assertion)
    ∧ ((∀ p ∈ paths, p.header.bloom_filter_size = S ∧ p.header.num_hashes = H) →
      ∃ out, combine_bloom_filters.batch false S H ([], []) paths = .ok (([], []), out)
        ∧ combine_bloom_filters false [paths] S H = .ok [out]) := by
  constructor
  · intro hm
    refine ⟨fun st => combine_open_mismatch S H paths st hm, ?_, ?_⟩
    · intro st
      unfold combine_bloom_filters.batch
      rw [combine_open_mismatch S H paths _ hm]
    · intro before after
      unfold combine_bloom_filters
      apply combine_batches_mismatch
      exact ⟨paths, by simp, hm⟩
  · intro hall
    obtain ⟨body, e⟩ := combine_batch_eq false S H paths (Or.inr hall)
    refine ⟨_, e, ?_⟩
    unfold combine_bloom_filters combine_bloom_filters.batches
    simp only [e, combine_bloom_filters.batches]

/-- The two files of `two_files` carry `S = 2` and `H = 1`: with the expected
`H = 3` the batch fails, with `H = 1` it is combined. -/
theorem combine_bloom_filters_asserts_witness :
    ((∃ p ∈ two_files, p.header.bloom_filter_size ≠ 2 ∨ p.header.num_hashes ≠ 3)
      ∧ combine_bloom_filters false ([] ++ two_files :: []) 2 3 = .error .assertion)
    ∧ ((∀ p ∈ two_files, p.header.bloom_filter_size = 2 ∧ p.header.num_hashes = 1)
      ∧ ∃ out, combine_bloom_filters.batch false 2 1 ([], []) two_files = .ok (([], []), out)
        ∧ combine_bloom_filters false [two_files] 2 1 = .ok [out]) :=
  ⟨⟨by decide,
    ((combine_bloom_filters_asserts 2 3 two_files).1 (by decide)).2.2 [] []⟩,
   ⟨by decide, (combine_bloom_filters_asserts 2 1 two_files).2 (by decide)⟩⟩

/-- C11 (header-mismatch rejection): the batch `two_files` with the expected
`num_hashes = 3`.  Both inputs carry `num_hashes = 1`.  In a build with `NDEBUG`
the two `assert`s, the only checks of the headers, are compiled out: the batch is
combined and the file written carries `num_hashes = 3`.  In a build without
`NDEBUG` the same call ends with the failed `assert`. -/
theorem combine_bloom_filters_ndebug :
    (∀ p ∈ two_files, p.header.num_hashes ≠ 3)
    ∧ combine_bloom_filters true [two_files] 2 3
        = .ok [{ header := { bloom_filter_size := 2, block_size := 2, num_hashes := 3,
                             file_names := ["a0", "a1", "a2", "a3", "a4", "a5", "a6", "a7",
                                            "b0", "b1", "b2", "b3", "b4", "b5", "b6", "b7"] },
                 body := [8, 0, 0, 32] }]
    ∧ combine_bloom_filters false [two_files] 2 3 = .error .assertion := by
  decide

/-! ## Order and repetition of set_bit calls -/

theorem byte_or_idem (b k : Nat) :
    (((b ||| (1 <<< k)) % 256) ||| (1 <<< k)) % 256 = (b ||| (1 <<< k)) % 256 := by
  apply Nat.eq_of_testBit_eq
  intro j
  have h256 : (256 : Nat) = 2 ^ 8 := by norm_num
  simp only [h256, Nat.testBit_mod_two_pow, Nat.testBit_lor, Nat.one_shiftLeft,
    Nat.testBit_two_pow]
  by_cases h1 : j < 8 <;> by_cases h2 : k = j <;> simp [h1, h2]

theorem byte_or_comm (b k1 k2 : Nat) :
    (((b ||| (1 <<< k1)) % 256) ||| (1 <<< k2)) % 256
      = (((b ||| (1 <<< k2)) % 256) ||| (1 <<< k1)) % 256 := by
  apply Nat.eq_of_testBit_eq
  intro j
  have h256 : (256 : Nat) = 2 ^ 8 := by norm_num
  simp only [h256, Nat.testBit_mod_two_pow, Nat.testBit_lor, Nat.one_shiftLeft,
    Nat.testBit_two_pow]
  by_cases h1 : j < 8 <;> by_cases h2 : k1 = j <;> by_cases h3 : k2 = j <;> simp [h1, h2, h3]

theorem set_bit_error (bf : genome.bloom_filter) (r c : Nat)
    (h : ¬ bf.m_block_size * r + c / 8 < bf.m_data.length) :
    set_bit bf r c = .error .out_of_range := by
  unfold set_bit
  rw [List.getElem?_eq_none (by omega)]

theorem set_bit_idem (bf bf1 : genome.bloom_filter) (r c : Nat)
    (h : set_bit bf r c = .ok bf1) : set_bit bf1 r c = .ok bf1 := by
  by_cases hidx : bf.m_block_size * r + c / 8 < bf.m_data.length
  · rw [set_bit_eq bf r c hidx] at h
    cases h
    rw [set_bit_eq _ r c (by simpa using hidx)]
    simp only [List.getElem_set_self, List.set_set, byte_or_idem]
  · rw [set_bit_error bf r c hidx] at h
    cases h

theorem set_bit_comm (bf : genome.bloom_filter) (r1 c1 r2 c2 : Nat) :
    (set_bit bf r1 c1).bind (fun b => set_bit b r2 c2)
      = (set_bit bf r2 c2).bind (fun b => set_bit b r1 c1) := by
  by_cases h1 : bf.m_block_size * r1 + c1 / 8 < bf.m_data.length
  · by_cases h2 : bf.m_block_size * r2 + c2 / 8 < bf.m_data.length
    · rw [set_bit_eq bf r1 c1 h1, set_bit_eq bf r2 c2 h2]
      simp only [Except.bind]
      rw [set_bit_eq _ r2 c2 (by simpa using h2), set_bit_eq _ r1 c1 (by simpa using h1)]
      simp only [Except.ok.injEq, genome.bloom_filter.mk.injEq, true_and]
      by_cases e : bf.m_block_size * r1 + c1 / 8 = bf.m_block_size * r2 + c2 / 8
      · simp only [e, List.getElem_set_self, List.set_set, byte_or_comm]
      · rw [List.getElem_set_ne e, List.getElem_set_ne (fun h => e h.symm)]
        exact List.set_comm _ _ _ e
    · rw [set_bit_eq bf r1 c1 h1, set_bit_error bf r2 c2 h2]
      simp only [Except.bind]
      exact set_bit_error _ r2 c2 (by simpa using h2)
  · rw [set_bit_error bf r1 c1 h1]
    by_cases h2 : bf.m_block_size * r2 + c2 / 8 < bf.m_data.length
    · rw [set_bit_eq bf r2 c2 h2]
      simp only [Except.bind]
      exact (set_bit_error _ r1 c1 (by simpa using h1)).symm
    · rw [set_bit_error bf r2 c2 h2]
      rfl

theorem set_bit_fields (bf bf1 : genome.bloom_filter) (r c : Nat)
    (h : set_bit bf r c = .ok bf1) :
    bf1.m_bloom_filter_size = bf.m_bloom_filter_size ∧ bf1.m_block_size = bf.m_block_size
      ∧ bf1.m_num_hashes = bf.m_num_hashes ∧ bf1.m_data.length = bf.m_data.length := by
  by_cases hidx : bf.m_block_size * r + c / 8 < bf.m_data.length
  · rw [set_bit_eq bf r c hidx] at h
    cases h
    exact ⟨rfl, rfl, rfl, by simp⟩
  · rw [set_bit_error bf r c hidx] at h
    cases h

/-- A fold of `set_bit` over rows of one column, all inside the matrix: every
byte that some row selects is OR-ed once with the mask of the column, every
other byte stays. -/
theorem set_bit_fold_char (c : Nat) :
    ∀ (ps : List Nat) (bf : genome.bloom_filter),
      (∀ p ∈ ps, bf.m_block_size * p + c / 8 < bf.m_data.length) →
      ∃ bf1, ps.foldlM (fun s p => set_bit s p c) bf = .ok bf1
        ∧ bf1.m_bloom_filter_size = bf.m_bloom_filter_size
        ∧ bf1.m_block_size = bf.m_block_size
        ∧ bf1.m_num_hashes = bf.m_num_hashes
        ∧ bf1.m_data.length = bf.m_data.length
        ∧ ∀ j, ((∃ p ∈ ps, bf.m_block_size * p + c / 8 = j) →
                  bf1.m_data[j]? = (bf.m_data[j]?).map (fun b => (b ||| (1 <<< (c % 8))) % 256))
              ∧ ((¬ ∃ p ∈ ps, bf.m_block_size * p + c / 8 = j) →
                  bf1.m_data[j]? = bf.m_data[j]?) := by
  intro ps
  induction ps with
  | nil =>
    intro bf _
    refine ⟨bf, rfl, rfl, rfl, rfl, rfl, ?_⟩
    intro j
    refine ⟨fun h => ?_, fun _ => rfl⟩
    obtain ⟨p, hp, _⟩ := h
    cases hp
  | cons p ps ih =>
    intro bf hin
    have hp := hin p (List.mem_cons_self _ _)
    have e1 := set_bit_eq bf p c hp
    obtain ⟨bf1, e2, g1, g2, g3, g4, g5⟩ := ih
      { bf with
        m_data := bf.m_data.set (bf.m_block_size * p + c / 8)
          ((bf.m_data[bf.m_block_size * p + c / 8] ||| (1 <<< (c % 8))) % 256) }
      (by
        intro q hq
        simpa using hin q (List.mem_cons_of_mem _ hq))
    refine ⟨bf1, ?_, g1, g2, g3, by simpa using g4, ?_⟩
    · rw [List.foldlM_cons, e1]; exact e2
    · intro j
      obtain ⟨ga, gb⟩ := g5 j
      by_cases hj : bf.m_block_size * p + c / 8 = j
      · subst hj
        refine ⟨fun _ => ?_, fun h => absurd ⟨p, List.mem_cons_self _ _, rfl⟩ h⟩
        by_cases hit : ∃ q ∈ ps, bf.m_block_size * q + c / 8 = bf.m_block_size * p + c / 8
        · rw [ga hit, List.getElem?_set_self hp, List.getElem?_eq_getElem hp]
          simp only [Option.map_some', byte_or_idem]
        · rw [gb hit, List.getElem?_set_self hp, List.getElem?_eq_getElem hp]
          rfl
      · have hne : (bf.m_data.set (bf.m_block_size * p + c / 8)
            ((bf.m_data[bf.m_block_size * p + c / 8] ||| 1 <<< (c % 8)) % 256))[j]?
            = bf.m_data[j]? := List.getElem?_set_ne hj
        constructor
        · rintro ⟨q, hq, hqj⟩
          rcases List.mem_cons.mp hq with rfl | hq
          · exact absurd hqj hj
          · rw [ga ⟨q, hq, hqj⟩, hne]
        · intro hno
          rw [gb (fun ⟨q, hq, hqj⟩ => hno ⟨q, List.mem_cons_of_mem _ hq, hqj⟩), hne]

theorem set_bit_fold_error (c : Nat) :
    ∀ (ps : List Nat) (bf : genome.bloom_filter),
      (∃ p ∈ ps, ¬ bf.m_block_size * p + c / 8 < bf.m_data.length) →
      ps.foldlM (fun s p => set_bit s p c) bf = .error .out_of_range := by
  intro ps
  induction ps with
  | nil => intro bf h; obtain ⟨p, hp, _⟩ := h; cases hp
  | cons p ps ih =>
    intro bf h
    rw [List.foldlM_cons]
    by_cases hp : bf.m_block_size * p + c / 8 < bf.m_data.length
    · rw [set_bit_eq bf p c hp]
      apply ih
      obtain ⟨q, hq, hqo⟩ := h
      rcases List.mem_cons.mp hq with rfl | hq
      · exact absurd hp hqo
      · exact ⟨q, hq, by simpa using hqo⟩
    · rw [set_bit_error bf p c hp]
      rfl

/-- The result of a fold of `set_bit` over rows of one column depends only on
which rows occur, not on their order or on how often they occur. -/
theorem set_bit_fold_members (c : Nat) (ps ps' : List Nat) (bf : genome.bloom_filter)
    (h : ∀ p, p ∈ ps ↔ p ∈ ps') :
    ps.foldlM (fun s p => set_bit s p c) bf = ps'.foldlM (fun s p => set_bit s p c) bf := by
  by_cases hin : ∀ p ∈ ps, bf.m_block_size * p + c / 8 < bf.m_data.length
  · have hin' : ∀ p ∈ ps', bf.m_block_size * p + c / 8 < bf.m_data.length :=
      fun p hp => hin p ((h p).mpr hp)
    obtain ⟨b1, e1, a1, a2, a3, a4, a5⟩ := set_bit_fold_char c ps bf hin
    obtain ⟨b2, e2, c1, c2, c3, c4, c5⟩ := set_bit_fold_char c ps' bf hin'
    rw [e1, e2]
    congr 1
    obtain ⟨s1, w1, h1, d1⟩ := b1
    obtain ⟨s2, w2, h2, d2⟩ := b2
    simp only at a1 a2 a3 a4 a5 c1 c2 c3 c4 c5
    subst a1 a2 a3 c1 c2 c3
    congr 1
    apply List.ext_getElem?
    intro j
    by_cases hit : ∃ p ∈ ps, bf.m_block_size * p + c / 8 = j
    · have hit' : ∃ p ∈ ps', bf.m_block_size * p + c / 8 = j := by
        obtain ⟨p, hp, hpj⟩ := hit
        exact ⟨p, (h p).mp hp, hpj⟩
      rw [(a5 j).1 hit, (c5 j).1 hit']
    · have hit' : ¬ ∃ p ∈ ps', bf.m_block_size * p + c / 8 = j := by
        rintro ⟨p, hp, hpj⟩
        exact hit ⟨p, (h p).mpr hp, hpj⟩
      rw [(a5 j).2 hit, (c5 j).2 hit']
  · have hex : ∃ p ∈ ps, ¬ bf.m_block_size * p + c / 8 < bf.m_data.length := by
      by_contra hno
      apply hin
      intro p hp
      by_contra hlt
      exact hno ⟨p, hp, hlt⟩
    have hex' : ∃ p ∈ ps', ¬ bf.m_block_size * p + c / 8 < bf.m_data.length := by
      obtain ⟨p, hp, hpo⟩ := hex
      exact ⟨p, (h p).mp hp, hpo⟩
    rw [set_bit_fold_error c ps bf hex, set_bit_fold_error c ps' bf hex']

theorem set_bit_fold_fields (c : Nat) :
    ∀ (ps : List Nat) (bf bf1 : genome.bloom_filter),
      ps.foldlM (fun s p => set_bit s p c) bf = .ok bf1 →
      bf1.m_bloom_filter_size = bf.m_bloom_filter_size ∧ bf1.m_num_hashes = bf.m_num_hashes := by
  intro ps
  induction ps with
  | nil => intro bf bf1 h; cases h; exact ⟨rfl, rfl⟩
  | cons p ps ih =>
    intro bf bf1 h
    rw [List.foldlM_cons] at h
    cases hs : set_bit bf p c with
    | error e => rw [hs] at h; cases h
    | ok bf2 =>
      rw [hs] at h
      obtain ⟨a1, a2⟩ := ih bf2 bf1 h
      obtain ⟨b1, _, b3, _⟩ := set_bit_fields bf bf2 p c hs
      exact ⟨by rw [a1, b1], by rw [a2, b3]⟩

/-- With a positive size, fewer than `2 ^ 32` hashes and fuel above their number,
the k-mer loop of `process` is one fold of `set_bit` over the rows of all the
k-mers. -/
theorem process_kmers_fold (XXH32 : List Nat → Nat → Nat → Nat) (c fuel S H : Nat)
    (hS : 0 < S) (hH : H < 2 ^ 32) (hf : H < fuel) :
    ∀ (ks : List genome.kmer) (bf : genome.bloom_filter),
      bf.m_bloom_filter_size = S → bf.m_num_hashes = H →
      process.kmers XXH32 c fuel ks bf
        = (ks.flatMap (fun k => (List.range H).map (fun j => XXH32 k.data 8 j % S))).foldlM
            (fun s p => set_bit s p c) bf := by
  intro ks
  induction ks with
  | nil => intro bf _ _; rfl
  | cons k ks ih =>
    intro bf h1 h2
    unfold process.kmers
    rw [h1, h2]
    have hc : create_hashes XXH32 k.data genome.kmer.size S H (fun hash b => set_bit b hash c)
        fuel bf
        = ((List.range H).map (fun j => XXH32 k.data 8 j % S)).foldlM
            (fun s p => set_bit s p c) bf := by
      rw [create_hashes_eq XXH32 _ _ S H _ hS hH fuel hf, List.foldlM_map]
      rfl
    rw [hc, List.flatMap_cons, List.foldlM_append]
    cases hfold : ((List.range H).map (fun j => XXH32 k.data 8 j % S)).foldlM
        (fun s p => set_bit s p c) bf with
    | error e => rfl
    | ok bf1 =>
      obtain ⟨a1, a2⟩ := set_bit_fold_fields c _ bf bf1 hfold
      simp only []
      rw [ih bf1 (by rw [a1, h1]) (by rw [a2, h2])]
      rfl

theorem process_kmers_zero_size (XXH32 : List Nat → Nat → Nat → Nat) (c fuel : Nat)
    (hf : 0 < fuel) :
    ∀ (ks : List genome.kmer) (bf : genome.bloom_filter), bf.m_bloom_filter_size = 0 →
      process.kmers XXH32 c fuel ks bf
        = if ks = [] ∨ bf.m_num_hashes = 0 then .ok bf else .error .division_by_zero := by
  intro ks
  induction ks with
  | nil => intro bf _; simp [process.kmers]
  | cons k ks ih =>
    intro bf h0
    obtain ⟨fuel1, rfl⟩ : ∃ n, fuel = n + 1 := ⟨fuel - 1, by omega⟩
    unfold process.kmers create_hashes create_hashes.loop
    by_cases hH : bf.m_num_hashes = 0
    · rw [if_neg (by omega)]
      simp only []
      rw [ih bf h0]
      simp [hH]
    · rw [if_pos (by omega), if_pos h0]
      simp [hH]

/-- Inserting k-mer lists with the same members gives the same outcome. -/
theorem process_kmers_members (XXH32 : List Nat → Nat → Nat → Nat) (c fuel : Nat)
    (ks ks' : List genome.kmer) (bf : genome.bloom_filter)
    (hH : bf.m_num_hashes < 2 ^ 32) (hf : bf.m_num_hashes < fuel)
    (h : ∀ k, k ∈ ks ↔ k ∈ ks') :
    process.kmers XXH32 c fuel ks bf = process.kmers XXH32 c fuel ks' bf := by
  by_cases hS : bf.m_bloom_filter_size = 0
  · rw [process_kmers_zero_size XXH32 c fuel (by omega) ks bf hS,
      process_kmers_zero_size XXH32 c fuel (by omega) ks' bf hS]
    have : ks = [] ↔ ks' = [] := by
      rw [List.eq_nil_iff_forall_not_mem, List.eq_nil_iff_forall_not_mem]
      exact ⟨fun g k hk => g k ((h k).mpr hk), fun g k hk => g k ((h k).mp hk)⟩
    simp only [this]
  · rw [process_kmers_fold XXH32 c fuel _ _ (by omega) hH hf ks bf rfl rfl,
      process_kmers_fold XXH32 c fuel _ _ (by omega) hH hf ks' bf rfl rfl]
    apply set_bit_fold_members
    intro p
    simp only [List.mem_flatMap]
    exact ⟨fun ⟨k, hk, hp⟩ => ⟨k, (h k).mp hk, hp⟩, fun ⟨k, hk, hp⟩ => ⟨k, (h k).mpr hk, hp⟩⟩

/-- C15 (k-mer order and duplicates are immaterial).  For every builder state,
column `c` and fuel: inserting two k-mer lists with the same members into column
`c`, as `process` does, ends the same way when there are fewer than `2 ^ 32`
hashes and the fuel exceeds their number, and whenever both insertions return
they return the same builder, hence the same matrix bytes; in particular for a
permutation of the list, for the list without its duplicates, and for the list
with a member added again.  Moreover `set_bit` is idempotent, and two `set_bit`
calls in either order end the same way. -/
theorem kmer_order_immaterial (XXH32 : List Nat → Nat → Nat → Nat)
    (bf : genome.bloom_filter) (c fuel : Nat) :
    (∀ ks ks' : List genome.kmer, (∀ k, k ∈ ks ↔ k ∈ ks') →
        (bf.m_num_hashes < 2 ^ 32 → bf.m_num_hashes < fuel →
          process.kmers XXH32 c fuel ks bf = process.kmers XXH32 c fuel ks' bf)
        ∧ ∀ b1 b2, process.kmers XXH32 c fuel ks bf = .ok b1 →
            process.kmers XXH32 c fuel ks' bf = .ok b2 → b1 = b2)
    ∧ (∀ ks ks' : List genome.kmer, ks.Perm ks' →
        bf.m_num_hashes < 2 ^ 32 → bf.m_num_hashes < fuel →
        process.kmers XXH32 c fuel ks bf = process.kmers XXH32 c fuel ks' bf)
    ∧ (∀ ks : List genome.kmer, bf.m_num_hashes < 2 ^ 32 → bf.m_num_hashes < fuel →
        process.kmers XXH32 c fuel ks.dedup bf = process.kmers XXH32 c fuel ks bf)
    ∧ (∀ (ks : List genome.kmer) (k : genome.kmer), k ∈ ks →
        bf.m_num_hashes < 2 ^ 32 → bf.m_num_hashes < fuel →
        process.kmers XXH32 c fuel (k :: ks) bf = process.kmers XXH32 c fuel ks bf)
    ∧ (∀ r c1 bf1, set_bit bf r c1 = .ok bf1 → set_bit bf1 r c1 = .ok bf1)
    ∧ (∀ r1 c1 r2 c2,
        (set_bit bf r1 c1).bind (fun b => set_bit b r2 c2)
          = (set_bit bf r2 c2).bind (fun b => set_bit b r1 c1)) := by
  refine ⟨?_, ?_, ?_, ?_, fun r c1 bf1 h => set_bit_idem bf bf1 r c1 h,
    fun r1 c1 r2 c2 => set_bit_comm bf r1 c1 r2 c2⟩
  · intro ks ks' hm
    refine ⟨fun hH hf => process_kmers_members XXH32 c fuel ks ks' bf hH hf hm, ?_⟩
    intro b1 b2 h1 h2
    rcases process_kmers_inv XXH32 c fuel ks bf b1 h1 with ⟨hnil, hb⟩ | ⟨hH, hf⟩
    · have hnil' : ks' = [] := by
        rw [List.eq_nil_iff_forall_not_mem]
        intro k hk
        have := (hm k).mpr hk
        rw [hnil] at this
        cases this
      rw [hnil'] at h2
      simp only [process.kmers, Except.ok.injEq] at h2
      rw [hb, ← h2]
    · rw [process_kmers_members XXH32 c fuel ks ks' bf hH hf hm, h2] at h1
      exact (Except.ok.inj h1).symm
  · intro ks ks' hp hH hf
    exact process_kmers_members XXH32 c fuel ks ks' bf hH hf (fun k => hp.mem_iff)
  · intro ks hH hf
    exact process_kmers_members XXH32 c fuel _ _ bf hH hf (fun k => List.mem_dedup)
  · intro ks k hk hH hf
    apply process_kmers_members XXH32 c fuel _ _ bf hH hf
    intro k'
    constructor
    · intro h
      rcases List.mem_cons.mp h with rfl | h
      · exact hk
      · exact h
    · exact List.mem_cons_of_mem _

/-- The two k-mers of `two_paths` inserted into column 0 of a fresh builder, in
one order and, with a repetition, in the other. -/
theorem kmer_order_immaterial_witness :
    ((bloom_filter.bloom_filter 5 1 2).m_num_hashes < 2 ^ 32
      ∧ (bloom_filter.bloom_filter 5 1 2).m_num_hashes < 3
      ∧ ∀ k, k ∈ [({ data := [1, 0, 0, 0, 0, 0, 0, 0] } : genome.kmer),
                  { data := [3, 0, 0, 0, 0, 0, 0, 0] }]
            ↔ k ∈ [({ data := [3, 0, 0, 0, 0, 0, 0, 0] } : genome.kmer),
                   { data := [1, 0, 0, 0, 0, 0, 0, 0] },
                   { data := [3, 0, 0, 0, 0, 0, 0, 0] }])
    ∧ process.kmers sum_hash 0 3
          [{ data := [1, 0, 0, 0, 0, 0, 0, 0] }, { data := [3, 0, 0, 0, 0, 0, 0, 0] }]
          (bloom_filter.bloom_filter 5 1 2)
        = process.kmers sum_hash 0 3
          [{ data := [3, 0, 0, 0, 0, 0, 0, 0] }, { data := [1, 0, 0, 0, 0, 0, 0, 0] },
           { data := [3, 0, 0, 0, 0, 0, 0, 0] }]
          (bloom_filter.bloom_filter 5 1 2) :=
  ⟨⟨by decide, by decide, by intro k; simp; tauto⟩,
   ((kmer_order_immaterial sum_hash (bloom_filter.bloom_filter 5 1 2) 0 3).1 _ _
      (by intro k; simp; tauto)).1 (by decide) (by decide)⟩

/-! ## Row fetch: reads stay inside the body -/

theorem read_from_disk_loop_extend (f : cobs.ClassicIndexMMapSearchFile) (extra : List Nat)
    ( begin size buffer_size : Nat) (hS : 0 < f.header_.signature_size)
    (hdata : f.data_.length = f.header_.signature_size * f.header_.row_size)
    (hfit : begin + size ≤ f.header_.row_size) :
    ∀ (hashes : List Nat) (i : Nat) (rows : List Nat),
      cobs.ClassicIndexMMapSearchFile.read_from_disk.loop
          { f with data_ := f.data_ ++ extra } begin size buffer_size i hashes rows
        = cobs.ClassicIndexMMapSearchFile.read_from_disk.loop f begin size buffer_size
            i hashes rows := by
  intro hashes
  induction hashes with
  | nil => intro i rows; rfl
  | cons h hashes ih =>
    intro i rows
    have hread := row_offset_le f.header_.signature_size f.header_.row_size h begin size hS hfit
    have hS0 : ¬ f.header_.signature_size = 0 := by omega
    have hr1 : begin + (h % f.header_.signature_size) * f.header_.row_size + size
        ≤ (f.data_ ++ extra).length := by
      rw [List.length_append, hdata]; omega
    have hr2 : begin + (h % f.header_.signature_size) * f.header_.row_size + size
        ≤ f.data_.length := by
      rw [hdata]; exact hread
    unfold cobs.ClassicIndexMMapSearchFile.read_from_disk.loop
    simp only [if_neg hS0, if_pos hr1, if_pos hr2]
    have hslice : ((f.data_ ++ extra).drop
          ( begin + (h % f.header_.signature_size) * f.header_.row_size)).take size
        = (f.data_.drop ( begin + (h % f.header_.signature_size) * f.header_.row_size)).take
            size := by
      rw [List.drop_append_of_le_length (by rw [hdata]; omega),
        List.take_append_of_le_length (by rw [List.length_drop, hdata]; omega)]
    rw [hslice]
    by_cases hw : i * buffer_size + size ≤ rows.length
    · rw [if_pos hw, if_pos hw]
      exact ih _ _
    · rw [if_neg hw, if_neg hw]

/-- C16, as stated, fails where the sum `begin + size` of the `die_unless` wraps:
on `small_index`, whose rows have two bytes, `begin = 2^64 - 1` and `size = 2`
pass the check, because the sum is 1 modulo `2^64`; the call does not end with
the `die_unless`, and for the hash 3, of row 0, the bytes copied are not inside
the body. -/
theorem read_from_disk_sum_wraps :
    (2 ^ 64 - 1 + 2) % 2 ^ 64 ≤ cobs.small_index.header_.row_size
    ∧ cobs.small_index.header_.row_size < 2 ^ 64 - 1 + 2
    ∧ ¬ ((3 % cobs.small_index.header_.signature_size) * cobs.small_index.header_.row_size
          + (2 ^ 64 - 1) + 2
        ≤ cobs.small_index.header_.signature_size * cobs.small_index.header_.row_size)
    ∧ cobs.small_index.read_from_disk [3] [0, 0] (2 ^ 64 - 1) 2 2 = .error .out_of_range := by
  decide

/-- C16 (row fetch stays inside the body), amended.  For every list of hashes,
`S > 0`, `W`, a mapped body of `S * W` bytes, and `begin`, `size` whose sum is
below `2^64`: when the check `begin + size <= W` of the code passes,
`(hashes[i] mod S) * W + begin + size <= S * W` for every `i`, and the outcome of
`read_from_disk` is the same whatever bytes follow the body, so no byte at an
offset of `S * W` or more is read; when `begin + size > W` the call fails with
the `die_unless` and copies nothing. -/
theorem read_from_disk_inside (f : cobs.ClassicIndexMMapSearchFile) (hashes : List Nat)
    ( begin size buffer_size : Nat) (hS : 0 < f.header_.signature_size)
    (hdata : f.data_.length = f.header_.signature_size * f.header_.row_size)
    (hsum : begin + size < 2 ^ 64) :
    (( begin + size) % 2 ^ 64 ≤ f.header_.row_size →
      (∀ h ∈ hashes, (h % f.header_.signature_size) * f.header_.row_size + begin + size
          ≤ f.header_.signature_size * f.header_.row_size)
      ∧ ∀ (rows extra : List Nat),
          cobs.ClassicIndexMMapSearchFile.read_from_disk { f with data_ := f.data_ ++ extra }
              hashes rows begin size buffer_size
            = f.read_from_disk hashes rows begin size buffer_size)
    ∧ (f.header_.row_size < begin + size →
      ∀ rows, f.read_from_disk hashes rows begin size buffer_size = .error .die) := by
  have hmod : ( begin + size) % 2 ^ 64 = begin + size := Nat.mod_eq_of_lt hsum
  constructor
  · intro hcheck
    have hfit : begin + size ≤ f.header_.row_size := by rw [hmod] at hcheck; exact hcheck
    constructor
    · intro h _
      have := row_offset_le f.header_.signature_size f.header_.row_size h begin size hS hfit
      omega
    · intro rows extra
      unfold cobs.ClassicIndexMMapSearchFile.read_from_disk
      simp only []
      rw [if_pos hcheck, if_pos hcheck]
      exact read_from_disk_loop_extend f extra begin size buffer_size hS hdata hfit hashes 0 rows
  · intro hno rows
    unfold cobs.ClassicIndexMMapSearchFile.read_from_disk
    rw [hmod, if_neg (by omega)]

/-- Row fetches from `small_index`, whose rows have two bytes: a slice of one byte
at offset 1 is inside the body; a slice of two bytes at offset 1 is refused. -/
theorem read_from_disk_inside_witness :
    (0 < cobs.small_index.header_.signature_size
      ∧ cobs.small_index.data_.length
          = cobs.small_index.header_.signature_size * cobs.small_index.header_.row_size
      ∧ 1 + 1 < 2 ^ 64 ∧ 1 + 2 < 2 ^ 64
      ∧ (1 + 1) % 2 ^ 64 ≤ cobs.small_index.header_.row_size
      ∧ cobs.small_index.header_.row_size < 1 + 2)
    ∧ (∀ h ∈ [4, 5, 3], (h % cobs.small_index.header_.signature_size)
          * cobs.small_index.header_.row_size + 1 + 1
          ≤ cobs.small_index.header_.signature_size * cobs.small_index.header_.row_size)
    ∧ cobs.small_index.read_from_disk [4, 5, 3] [0, 0, 0, 0, 0, 0, 0] 1 2 2 = .error .die :=
  ⟨⟨by decide, by decide, by decide, by decide, by decide, by decide⟩,
   ((read_from_disk_inside cobs.small_index [4, 5, 3] 1 1 2 (by decide) (by decide)
      (by decide)).1 (by decide)).1,
   (read_from_disk_inside cobs.small_index [4, 5, 3] 1 2 2 (by decide) (by decide)
      (by decide)).2 (by decide) [0, 0, 0, 0, 0, 0, 0]⟩

/-! ## The builder: every write is inside the matrix -/

/-- Every value that `create_hashes` hands to its callback is below the size:
guarding the callback with that test changes no run. -/
theorem create_hashes_loop_guard {σ : Type} (XXH32 : List Nat → Nat → Nat → Nat)
    (input : List Nat) (len S H : Nat) (callback : Nat → σ → Except failure σ)
    (guard : Prop) [Decidable guard] (hS : 0 < S) (hg : guard) :
    ∀ (fuel i : Nat) (st : σ),
      create_hashes.loop XXH32 input len S H callback fuel i st
        = create_hashes.loop XXH32 input len S H
            (fun r s => if r < S ∧ guard then callback r s else .error .assertion) fuel i st := by
  intro fuel
  induction fuel with
  | zero => intro i st; rfl
  | succ fuel ih =>
    intro i st
    have hlt : XXH32 input len i % S < S ∧ guard := ⟨Nat.mod_lt _ hS, hg⟩
    unfold create_hashes.loop
    simp only [if_pos hlt]
    by_cases hi : i < H
    · simp only [if_pos hi]
      by_cases h0 : S = 0
      · simp only [if_pos h0]
      · simp only [if_neg h0]
        cases hcb : callback (XXH32 input len i % S) st with
        | error e => rfl
        | ok st1 => exact ih _ st1
    · simp only [if_neg hi]

theorem create_hashes_loop_safe (XXH32 : List Nat → Nat → Nat → Nat) (S W H c : Nat)
    (hS : 0 < S) (hc : c < 8 * W) (k : genome.kmer) :
    ∀ (fuel i : Nat) (bf : genome.bloom_filter), has_shape bf S W H →
      (∃ bf1, create_hashes.loop XXH32 k.data genome.kmer.size S H
            (fun hash b => set_bit b hash c) fuel i bf = .ok bf1 ∧ has_shape bf1 S W H)
      ∨ create_hashes.loop XXH32 k.data genome.kmer.size S H
            (fun hash b => set_bit b hash c) fuel i bf = .error .diverges := by
  intro fuel
  induction fuel with
  | zero => intro i bf _; right; rfl
  | succ fuel ih =>
    intro i bf hbf
    unfold create_hashes.loop
    by_cases hi : i < H
    · obtain ⟨bf1, e, s1, _⟩ := set_bit_shape S W H bf
        (XXH32 k.data genome.kmer.size i % S) c hbf (Nat.mod_lt _ hS) hc
      simp only [if_pos hi, if_neg (show ¬ S = 0 by omega), e]
      exact ih _ bf1 s1
    · simp only [if_neg hi]
      exact Or.inl ⟨bf, rfl, hbf⟩

theorem process_kmers_safe (XXH32 : List Nat → Nat → Nat → Nat) (S W H c fuel : Nat)
    (hS : 0 < S) (hc : c < 8 * W) :
    ∀ (ks : List genome.kmer) (bf : genome.bloom_filter), has_shape bf S W H →
      (∃ bf1, process.kmers XXH32 c fuel ks bf = .ok bf1 ∧ has_shape bf1 S W H)
      ∨ process.kmers XXH32 c fuel ks bf = .error .diverges := by
  intro ks
  induction ks with
  | nil => intro bf hbf; exact Or.inl ⟨bf, rfl, hbf⟩
  | cons k ks ih =>
    intro bf hbf
    unfold process.kmers create_hashes
    rw [hbf.1, hbf.2.2.1]
    rcases create_hashes_loop_safe XXH32 S W H c hS hc k fuel 0 bf hbf with ⟨bf1, e, s1⟩ | e
    · simp only [e]
      exact ih bf1 s1
    · right
      simp only [e]

theorem process_paths_safe (XXH32 : List Nat → Nat → Nat → Nat) (S W H fuel : Nat)
    (hS : 0 < S) :
    ∀ (paths : List genome.path) (i : Nat) (bf : genome.bloom_filter),
      i + paths.length ≤ 8 * W → has_shape bf S W H →
      (∃ bf1, process.paths XXH32 fuel i paths bf = .ok bf1 ∧ has_shape bf1 S W H)
      ∨ process.paths XXH32 fuel i paths bf = .error .diverges := by
  intro paths
  induction paths with
  | nil => intro i bf _ hbf; exact Or.inl ⟨bf, rfl, hbf⟩
  | cons p paths ih =>
    intro i bf hi hbf
    simp only [List.length_cons] at hi
    unfold process.paths
    rcases process_kmers_safe XXH32 S W H i fuel hS (by omega) p.kmers bf hbf with
      ⟨bf1, e, s1⟩ | e
    · simp only [e]
      exact ih (i + 1) bf1 (by omega) s1
    · right
      simp only [e]

/-- C17, as stated, fails where the product `bloom_filter_size * block_size` of the
constructor wraps: with `S = 2^63` and `W = 2` the matrix of the fresh builder has
no bytes, not `S * W`, and the first `set_bit(row, 0)` that `process` makes on
`two_paths`, with `row < S` and column `0 < 8 * W`, is outside it. -/
theorem set_bit_matrix_wraps :
    (0 < 2 ^ 63 ∧ two_paths.length ≤ 8 * 2)
    ∧ (sum_hash [1, 0, 0, 0, 0, 0, 0, 0] 8 0 % 2 ^ 63 < 2 ^ 63 ∧ 0 < 8 * 2)
    ∧ (bloom_filter.bloom_filter (2 ^ 63) 2 1).m_data.length ≠ 2 ^ 63 * 2
    ∧ set_bit (bloom_filter.bloom_filter (2 ^ 63) 2 1)
        (sum_hash [1, 0, 0, 0, 0, 0, 0, 0] 8 0 % 2 ^ 63) 0 = .error .out_of_range
    ∧ process.paths sum_hash 3 0 two_paths (bloom_filter.bloom_filter (2 ^ 63) 2 1)
        = .error .out_of_range := by
  decide

/-- C17 (builder writes stay inside the matrix), amended.  For every `S > 0`, `W`,
`H` with `S * W < 2 ^ 64` and every list `P` of at most `8 * W` samples: the
matrix of the fresh builder has `S * W` bytes; at the call of `create_hashes` in
`process`, for a column `c < |P|`, guarding the callback `set_bit(hash, c)` with
`hash < S` and `c < 8 * W` changes no run, so every `set_bit(row, c)` call has
`row < S` and `c < 8 * W`; the loop of `process` over the samples, on the fresh
builder and whatever the fuel, either returns or is still running when the fuel
is used up, and never leaves `m_data`, and so does the whole of `process` when
`8 * W < 2 ^ 64`; for `row < S` and `c < 8 * W` the byte index `W * row + c / 8`
is below `S * W` and inside row `row`; and for `c >= 8 * W` it is in a later row,
at or past `S * W` when `row = S - 1`. -/
theorem process_writes_inside (XXH32 : List Nat → Nat → Nat → Nat) (S W H : Nat)
    (P : List genome.path) (hS : 0 < S) (hSW : S * W < 2 ^ 64) (hP : P.length ≤ 8 * W) :
    (bloom_filter.bloom_filter S W H).m_data.length = S * W
    ∧ (∀ (c : Nat), c < P.length → ∀ (k : genome.kmer) (bf : genome.bloom_filter) (fuel : Nat),
        create_hashes XXH32 k.data genome.kmer.size S H (fun hash b => set_bit b hash c) fuel bf
          = create_hashes XXH32 k.data genome.kmer.size S H
              (fun hash b => if hash < S ∧ c < 8 * W then set_bit b hash c
                else .error .assertion) fuel bf)
    ∧ (∀ fuel,
        (∃ bf, process.paths XXH32 fuel 0 P (bloom_filter.bloom_filter S W H) = .ok bf)
        ∨ process.paths XXH32 fuel 0 P (bloom_filter.bloom_filter S W H) = .error .diverges)
    ∧ (8 * W < 2 ^ 64 → ∀ fuel,
        (∃ bf out, process XXH32 (bloom_filter.bloom_filter S W H) P fuel = .ok (bf, out))
        ∨ process XXH32 (bloom_filter.bloom_filter S W H) P fuel = .error .diverges)
    ∧ (∀ row c, row < S → c < 8 * W →
        W * row + c / 8 < S * W ∧ W * row ≤ W * row + c / 8 ∧ W * row + c / 8 < W * (row + 1))
    ∧ (∀ row c, row < S → 8 * W ≤ c →
        W * (row + 1) ≤ W * row + c / 8 ∧ (row = S - 1 → S * W ≤ W * row + c / 8)) := by
  refine ⟨(has_shape_new S W H hSW).2.2.2, ?_, ?_, ?_, ?_, ?_⟩
  · intro c hc k bf fuel
    unfold create_hashes
    exact create_hashes_loop_guard XXH32 k.data genome.kmer.size S H _ (c < 8 * W) hS
      (by omega) fuel 0 bf
  · intro fuel
    rcases process_paths_safe XXH32 S W H fuel hS P 0 _ (by omega)
        (has_shape_new S W H hSW) with ⟨bf1, e, _⟩ | e
    · exact Or.inl ⟨bf1, e⟩
    · exact Or.inr e
  · intro hW fuel
    unfold process
    rcases process_paths_safe XXH32 S W H fuel hS P 0 _ (by omega)
        (has_shape_new S W H hSW) with ⟨bf1, e, s1⟩ | e
    · left
      obtain ⟨names, en, _⟩ := process_transform_spec P 0 (List.replicate (8 * W) "")
        (by simpa using hP)
      simp only [e, process.file_names, s1.2.1, Nat.mod_eq_of_lt hW, en]
      exact ⟨_, _, rfl⟩
    · right
      simp only [e]
  · intro row c hr hc
    refine ⟨index_lt S W row c hr hc, Nat.le_add_right _ _, ?_⟩
    rw [Nat.mul_add]; omega
  · intro row c hr hc
    have h1 : W * (row + 1) ≤ W * row + c / 8 := by
      rw [Nat.mul_add]; omega
    refine ⟨h1, ?_⟩
    intro hlast
    have : row + 1 = S := by omega
    rw [this, Nat.mul_comm] at h1
    exact h1

/-- The builder on `two_paths` with `S = 5`, `W = 1`, `H = 2` and three units of
fuel: the run returns or is still running. -/
theorem process_writes_inside_witness :
    (0 < 5 ∧ 5 * 1 < 2 ^ 64 ∧ two_paths.length ≤ 8 * 1 ∧ 8 * 1 < 2 ^ 64)
    ∧ ((∃ bf out, process sum_hash (bloom_filter.bloom_filter 5 1 2) two_paths 3 = .ok (bf, out))
        ∨ process sum_hash (bloom_filter.bloom_filter 5 1 2) two_paths 3 = .error .diverges) :=
  ⟨⟨by decide, by decide, by decide, by decide⟩,
   (process_writes_inside sum_hash 5 1 2 two_paths (by decide) (by decide)
      (by decide)).2.2.2.1 (by decide) 3⟩

/-! ## The older row fetch -/

open cobs.cortex

/-! ## Cortex records -/

theorem append_take_length (P Q : List Nat) (n : Nat) (h : P.length = n) :
    (P ++ Q).take n = P := by
  subst h; simp

theorem append_drop_length (P Q : List Nat) (n x : Nat) (h : P.length = n) :
    (P ++ Q).drop (n + x) = Q.drop x := by
  subst h; simp

/-- One pass of the loop of `read_sample` that copies a record. -/
theorem read_sample_loop_copy (h : header) (K T : Nat)
    (hK : (8 * h.num_words_per_kmer) % 2 ^ 32 = K) (hT : (5 * h.num_colors) % 2 ^ 32 = T)
    (fuel : Nat) (body data : List Nat) (offset records : Nat)
    (hb : body ≠ []) (hl : ¬ body.length < K + T) (ho : offset + K ≤ data.length) :
    read_sample.loop h (fuel + 1) body data offset records
      = read_sample.loop h fuel (body.drop (K + T))
          (data.take offset ++ body.take K ++ data.drop (offset + K)) (offset + K)
          (records + 1) := by
  rw [read_sample.loop]
  simp only [hK, hT, if_neg hb, if_neg hl, if_pos ho]

/-- One pass of the loop of `read_sample` whose copy leaves the sample bytes. -/
theorem read_sample_loop_out (h : header) (K T : Nat)
    (hK : (8 * h.num_words_per_kmer) % 2 ^ 32 = K) (hT : (5 * h.num_colors) % 2 ^ 32 = T)
    (fuel : Nat) (body data : List Nat) (offset records : Nat)
    (hb : body ≠ []) (hl : ¬ body.length < K + T) (ho : ¬ offset + K ≤ data.length) :
    read_sample.loop h (fuel + 1) body data offset records
      = { sample_data := data, records := records, ending := .error .out_of_range } := by
  rw [read_sample.loop]
  simp only [hK, hT, if_neg hb, if_neg hl, if_neg ho]

/-- The loop of `read_sample`, with `K` the bytes copied per record and `K + T`
the bytes advanced: with fuel for every record and room in the sample for every
copy, it copies the first `K` bytes of each whole record and ends normally
exactly when no bytes are left over. -/
theorem read_sample_loop_spec (h : header) (K T : Nat)
    (hK : (8 * h.num_words_per_kmer) % 2 ^ 32 = K) (hT : (5 * h.num_colors) % 2 ^ 32 = T)
    (hR : 0 < K + T) :
    ∀ (fuel : Nat) (body data : List Nat) (offset records : Nat),
      body.length / (K + T) < fuel →
      offset + K * (body.length / (K + T)) ≤ data.length →
      read_sample.loop h fuel body data offset records
        = { sample_data := data.take offset
              ++ record_prefixes K (K + T) (body.length / (K + T)) body
              ++ data.drop (offset + K * (body.length / (K + T)))
            records := records + body.length / (K + T)
            ending := if body.length % (K + T) = 0 then .ok ()
              else .error (.invalid_argument "corrupted .ctx file") } := by
  intro fuel
  induction fuel with
  | zero => intro body data offset records hf; exact absurd hf (Nat.not_lt_zero _)
  | succ fuel ih =>
    intro body data offset records hf hd
    by_cases hb : body = []
    · subst hb
      rw [read_sample.loop]
      simp [record_prefixes]
    · by_cases hl : body.length < K + T
      · have hn : body.length / (K + T) = 0 := Nat.div_eq_of_lt hl
        have hm : body.length % (K + T) = body.length := Nat.mod_eq_of_lt hl
        have hpos : body.length ≠ 0 := fun e => hb (List.length_eq_zero.mp e)
        rw [read_sample.loop]
        simp only [hK, hT, if_neg hb, if_pos hl, hn, hm, if_neg hpos, record_prefixes,
          Nat.mul_zero, Nat.add_zero, List.append_nil, List.take_append_drop]
      · have hn : body.length / (K + T) = (body.length - (K + T)) / (K + T) + 1 :=
          Nat.div_eq_sub_div hR (by omega)
        have hm : body.length % (K + T) = (body.length - (K + T)) % (K + T) :=
          Nat.mod_eq_sub_mod (by omega)
        rw [hn] at hf hd
        rw [Nat.mul_succ] at hd
        have ho : offset + K ≤ data.length := by omega
        have hlen : (data.take offset ++ body.take K).length = offset + K := by
          rw [List.length_append, List.length_take, List.length_take]; omega
        have hlen2 : (data.take offset ++ body.take K ++ data.drop (offset + K)).length
            = data.length := by
          rw [List.length_append, hlen, List.length_drop]; omega
        rw [read_sample_loop_copy h K T hK hT fuel body data offset records hb hl ho,
          ih _ _ _ _ (by rw [List.length_drop]; omega)
            (by rw [List.length_drop, hlen2]; omega),
          List.length_drop, hn, hm]
        simp only [record_prefixes]
        rw [append_take_length _ _ _ hlen, append_drop_length _ _ _ _ hlen, List.drop_drop]
        refine congrArg₂ (fun a b => ({ sample_data := a, records := b, ending := _ } :
          read_result)) ?_ (by omega)
        rw [Nat.mul_succ, Nat.add_assoc offset K, Nat.add_comm K (K * _)]
        simp only [List.append_assoc]

theorem record_prefixes_flatten (K R : Nat) (hKR : K ≤ R) :
    ∀ (recs : List (List Nat)), (∀ r ∈ recs, r.length = R) →
      record_prefixes K R recs.length recs.flatten = (recs.map (List.take K)).flatten := by
  intro recs
  induction recs with
  | nil => intro _; rfl
  | cons r recs ih =>
    intro hrec
    have hr : r.length = R := hrec r (List.mem_cons_self _ _)
    simp only [List.length_cons, List.flatten_cons, List.map_cons, record_prefixes]
    rw [List.take_append_of_le_length (by omega), ← hr, List.drop_left, hr,
      ih (fun x hx => hrec x (List.mem_cons_of_mem _ hx))]

theorem flatten_length_records (R : Nat) :
    ∀ (recs : List (List Nat)), (∀ r ∈ recs, r.length = R) →
      recs.flatten.length = recs.length * R := by
  intro recs
  induction recs with
  | nil => intro _; simp
  | cons r recs ih =>
    intro hrec
    simp only [List.flatten_cons, List.length_append, List.length_cons]
    rw [ih (fun x hx => hrec x (List.mem_cons_of_mem _ hx)), hrec r (List.mem_cons_self _ _),
      Nat.succ_mul]
    omega

theorem resize_length (data : List Nat) (n : Nat) : (resize data n).length = 8 * n := by
  unfold resize
  rw [List.length_append, List.length_take, List.length_replicate]
  omega

/-- C19, as stated, fails where a 32-bit product wraps: with `2^29` words per
k-mer and one colour the record size `8 * 2^29 + 5` does not divide a body of 5
bytes, and with no words and 858993460 colours the record size `5 * 858993460`
does not divide a body of 4 bytes, yet `read_sample` returns normally after one
record in both cases. -/
theorem read_sample_wraps :
    (¬ (8 * 536870912 + 5 * 1 ∣ [1, 2, 3, 4, 5].length)
      ∧ read_sample [1, 2, 3, 4, 5]
          { version := 6, kmer_size := 31, num_words_per_kmer := 536870912, num_colors := 1,
            name := [] } [] 10
        = { sample_data := [], records := 1, ending := .ok () })
    ∧ (¬ (8 * 0 + 5 * 858993460 ∣ [1, 2, 3, 4].length)
      ∧ read_sample [1, 2, 3, 4]
          { version := 6, kmer_size := 31, num_words_per_kmer := 0, num_colors := 858993460,
            name := [] } [] 10
        = { sample_data := [], records := 1, ending := .ok () }) := by
  decide

/-- C19 (truncated cortex body), amended.  For every header whose products
`8 * num_words_per_kmer` and `5 * num_colors` are below `2^32`, with record size
`R = 8 * num_words_per_kmer + 5 * num_colors > 0`, every body of `L` bytes, a
sample with room for `floor(L / R)` k-mer parts and fuel for `floor(L / R)`
records: `read_sample` ends with the first `8 * num_words_per_kmer` bytes of each
of the `floor(L / R)` whole records copied, in order, to the front of the sample,
normally when `R` divides `L` and with the error `corrupted .ctx file` otherwise;
so it throws that error if and only if `L` is not a multiple of `R`, and returns
normally, after exactly `L / R` records, if and only if it is. -/
theorem read_sample_truncated (h : header) (body data : List Nat) (fuel : Nat)
    (hw : 8 * h.num_words_per_kmer < 2 ^ 32) (hc : 5 * h.num_colors < 2 ^ 32)
    (hR : 0 < 8 * h.num_words_per_kmer + 5 * h.num_colors)
    (hd : 8 * h.num_words_per_kmer
        * (body.length / (8 * h.num_words_per_kmer + 5 * h.num_colors)) ≤ data.length)
    (hf : body.length / (8 * h.num_words_per_kmer + 5 * h.num_colors) < fuel) :
    read_sample body h data fuel
      = { sample_data :=
            record_prefixes (8 * h.num_words_per_kmer)
                (8 * h.num_words_per_kmer + 5 * h.num_colors)
                (body.length / (8 * h.num_words_per_kmer + 5 * h.num_colors)) body
              ++ data.drop (8 * h.num_words_per_kmer
                  * (body.length / (8 * h.num_words_per_kmer + 5 * h.num_colors)))
          records := body.length / (8 * h.num_words_per_kmer + 5 * h.num_colors)
          ending :=
            if body.length % (8 * h.num_words_per_kmer + 5 * h.num_colors) = 0 then .ok ()
            else .error (.invalid_argument "corrupted .ctx file") }
    ∧ ((read_sample body h data fuel).ending
          = .error (.invalid_argument "corrupted .ctx file")
        ↔ ¬ (8 * h.num_words_per_kmer + 5 * h.num_colors ∣ body.length))
    ∧ ((read_sample body h data fuel).ending = .ok ()
          ∧ (read_sample body h data fuel).records
              = body.length / (8 * h.num_words_per_kmer + 5 * h.num_colors)
        ↔ 8 * h.num_words_per_kmer + 5 * h.num_colors ∣ body.length) := by
  have e := read_sample_loop_spec h (8 * h.num_words_per_kmer) (5 * h.num_colors)
    (Nat.mod_eq_of_lt hw) (Nat.mod_eq_of_lt hc) hR fuel body data 0 0 hf
    (by rw [Nat.zero_add]; exact hd)
  simp only [List.take_zero, List.nil_append, Nat.zero_add] at e
  have e1 : read_sample body h data fuel = _ := e
  refine ⟨e1, ?_, ?_⟩
  · rw [e1, Nat.dvd_iff_mod_eq_zero]
    by_cases hm : body.length % (8 * h.num_words_per_kmer + 5 * h.num_colors) = 0
    · simp [hm]
    · simp [hm]
  · rw [e1, Nat.dvd_iff_mod_eq_zero]
    by_cases hm : body.length % (8 * h.num_words_per_kmer + 5 * h.num_colors) = 0
    · simp [hm]
    · simp [hm]

/-- One whole record and a part of a second one, one word per k-mer and one
colour: the first record is copied and the call throws. -/
theorem read_sample_truncated_witness :
    (8 * 1 < 2 ^ 32 ∧ 5 * 1 < 2 ^ 32 ∧ 0 < 8 * 1 + 5 * 1)
    ∧ (read_sample (two_records.take 20)
          { version := 6, kmer_size := 31, num_words_per_kmer := 1, num_colors := 1,
            name := [] } (List.replicate 8 0) 5).ending
        = .error (.invalid_argument "corrupted .ctx file") :=
  ⟨by decide,
   ((read_sample_truncated
      { version := 6, kmer_size := 31, num_words_per_kmer := 1, num_colors := 1, name := [] }
      (two_records.take 20) (List.replicate 8 0) 5
      (by decide) (by decide) (by decide) (by decide) (by decide)).2.1).mpr (by decide)⟩

/-- A body of `4294967308` bytes under a header of one word per k-mer and
858993460 colours, with the sample sized to one k-mer: the loop advances by
`8 + (5 * 858993460) mod 2^32 = 12` bytes, and its second copy leaves the sample. -/
theorem read_sample_colour_wrap (body : List Nat) (hlen : body.length = 4294967308) :
    (read_sample body
        { version := 6, kmer_size := 31, num_words_per_kmer := 1, num_colors := 858993460,
          name := [] } (resize [] 1) 10).ending = .error .out_of_range := by
  have hK : (8 * (header.mk 6 31 1 858993460 []).num_words_per_kmer) % 2 ^ 32 = 8 := by decide
  have hT : (5 * (header.mk 6 31 1 858993460 []).num_colors) % 2 ^ 32 = 4 := by decide
  have hb : body ≠ [] := by
    intro e; rw [e] at hlen; exact absurd hlen (by decide)
  have hl : ¬ body.length < 8 + 4 := by rw [hlen]; decide
  have hr : (resize [] 1).length = 8 := resize_length [] 1
  have ho : 0 + 8 ≤ (resize [] 1).length := by rw [hr]
  have hlen2 : (body.drop (8 + 4)).length = 4294967296 := by
    rw [List.length_drop, hlen]
  have hb2 : body.drop (8 + 4) ≠ [] := by
    intro e; rw [e] at hlen2; exact absurd hlen2 (by decide)
  have hl2 : ¬ (body.drop (8 + 4)).length < 8 + 4 := by rw [hlen2]; decide
  have ho2 : ¬ 0 + 8 + 8
      ≤ ((resize [] 1).take 0 ++ body.take 8 ++ (resize [] 1).drop (0 + 8)).length := by
    rw [List.length_append, List.length_append, List.length_take, List.length_take,
      List.length_drop, hr, hlen]
    decide
  show (read_sample.loop _ (8 + 1 + 1) body (resize [] 1) 0 0).ending = _
  rw [read_sample_loop_copy _ 8 4 hK hT (8 + 1) body (resize [] 1) 0 0 hb hl ho,
    read_sample_loop_out _ 8 4 hK hT 8 _ _ _ _ hb2 hl2 ho2]

/-- C12, as stated, fails in two ways.  With two words per k-mer and one colour,
one record of 21 bytes and the sample sized to one k-mer, the copy of 16 bytes
leaves the 8 sample bytes.  With one word per k-mer and 858993460 colours, a body
of one record of `8 + 5 * 858993460 = 4294967308` bytes and the sample sized to
one k-mer, the 32-bit product `5 * num_colors` has wrapped to 4, the loop takes
the body for records of 12 bytes, and its second copy leaves the sample. -/
theorem read_sample_leaves_sample :
    ((two_records.take 21).length = 1 * (8 * 2 + 5 * 1)
      ∧ (read_sample (two_records.take 21)
          { version := 6, kmer_size := 31, num_words_per_kmer := 2, num_colors := 1,
            name := [] } (resize [] 1) 10).ending = .error .out_of_range)
    ∧ ((List.replicate 4294967308 0).length = 1 * (8 * 1 + 5 * 858993460)
      ∧ (read_sample (List.replicate 4294967308 0)
          { version := 6, kmer_size := 31, num_words_per_kmer := 1, num_colors := 858993460,
            name := [] } (resize [] 1) 10).ending = .error .out_of_range) :=
  ⟨by decide, List.length_replicate _ _,
   read_sample_colour_wrap _ (List.length_replicate _ _)⟩

/-- C12 (cortex record extraction), amended.  For every header with at most one
word per k-mer and `5 * num_colors < 2^32`, record size
`R = 8 * num_words_per_kmer + 5 * num_colors > 0`, every body that is the
concatenation of `n` records of `R` bytes each, the sample sized to `n` k-mers
as `process_file` does, and fuel for `n` records: `read_sample` returns normally
after `n` records, and the sample bytes are the concatenation, in record order,
of the first `8 * num_words_per_kmer` bytes of each record, followed by the
sample bytes not written; with one word per k-mer the sample bytes are exactly
that concatenation, so no byte of a trailing part is among them; and when `R`
is below `2^32`, `n` is the k-mer count that `process_file` computes. -/
theorem read_sample_extracts (h : header) (recs : List (List Nat)) (s : List Nat)
    (fuel : Nat) (hw : h.num_words_per_kmer ≤ 1) (hc : 5 * h.num_colors < 2 ^ 32)
    (hR : 0 < 8 * h.num_words_per_kmer + 5 * h.num_colors)
    (hrec : ∀ r ∈ recs, r.length = 8 * h.num_words_per_kmer + 5 * h.num_colors)
    (hf : recs.length < fuel) :
    read_sample recs.flatten h (resize s recs.length) fuel
      = { sample_data := (recs.map (List.take (8 * h.num_words_per_kmer))).flatten
            ++ (resize s recs.length).drop (8 * h.num_words_per_kmer * recs.length)
          records := recs.length
          ending := .ok () }
    ∧ (h.num_words_per_kmer = 1 →
        (read_sample recs.flatten h (resize s recs.length) fuel).sample_data
          = (recs.map (List.take 8)).flatten)
    ∧ (8 * h.num_words_per_kmer + 5 * h.num_colors < 2 ^ 32 →
        recs.flatten.length / ((8 * h.num_words_per_kmer + 5 * h.num_colors) % 2 ^ 32)
          = recs.length) := by
  have hL := flatten_length_records _ recs hrec
  have hdiv : recs.flatten.length / (8 * h.num_words_per_kmer + 5 * h.num_colors)
      = recs.length := by
    rw [hL]; exact Nat.mul_div_cancel _ hR
  have hmod : recs.flatten.length % (8 * h.num_words_per_kmer + 5 * h.num_colors) = 0 := by
    rw [hL]; exact Nat.mul_mod_left _ _
  have hroom : 8 * h.num_words_per_kmer * recs.length ≤ (resize s recs.length).length := by
    rw [resize_length]
    exact Nat.mul_le_mul_right _ (by omega)
  have e := read_sample_loop_spec h (8 * h.num_words_per_kmer) (5 * h.num_colors)
    (Nat.mod_eq_of_lt (by omega)) (Nat.mod_eq_of_lt hc) hR fuel recs.flatten
    (resize s recs.length) 0 0 (by rw [hdiv]; exact hf)
    (by rw [hdiv, Nat.zero_add]; exact hroom)
  rw [hdiv, hmod, record_prefixes_flatten _ _ (Nat.le_add_right _ _) recs hrec] at e
  simp only [List.take_zero, List.nil_append, Nat.zero_add, if_true] at e
  have e1 : read_sample recs.flatten h (resize s recs.length) fuel = _ := e
  refine ⟨e1, ?_, ?_⟩
  · intro h1
    rw [e1, h1]
    show _ ++ (resize s recs.length).drop (8 * 1 * recs.length) = _
    rw [List.drop_of_length_le (by rw [resize_length])]
    exact List.append_nil _
  · intro hlt
    rw [Nat.mod_eq_of_lt hlt]
    exact hdiv

/-- The two records of `two_records` under a header of one word per k-mer and one
colour: the sample holds the two k-mer parts. -/
theorem read_sample_extracts_witness :
    ((1 ≤ 1 ∧ 5 * 1 < 2 ^ 32 ∧ 0 < 8 * 1 + 5 * 1)
      ∧ (∀ r ∈ [two_records.take 13, two_records.drop 13], r.length = 8 * 1 + 5 * 1))
    ∧ read_sample [two_records.take 13, two_records.drop 13].flatten
          { version := 6, kmer_size := 31, num_words_per_kmer := 1, num_colors := 1,
            name := [] } (resize [] 2) 5
        = { sample_data := [1, 2, 3, 4, 5, 6, 7, 8, 11, 12, 13, 14, 15, 16, 17, 18]
            records := 2
            ending := .ok () } :=
  ⟨⟨by decide, by decide⟩,
   (read_sample_extracts
      { version := 6, kmer_size := 31, num_words_per_kmer := 1, num_colors := 1, name := [] }
      [two_records.take 13, two_records.drop 13] [] 5
      (by decide) (by decide) (by decide) (by decide) (by decide)).1⟩

/-! ## The cortex header -/

/-- A read of an integer that the stream can serve, `a` bytes into the bytes `r`:
the value is that of the bytes read, whatever the object held before. -/
theorem cast_advance_at (r : List Nat) (p a n : Nat) (t : List Nat) (h : a + n ≤ r.length) :
    cast_advance n t { rest := r.drop a, pos := p + a, good := true }
      = (little_endian ((r.drop a).take n),
          { rest := r.drop (a + n), pos := p + (a + n), good := true }) := by
  have h1 : n ≤ (r.drop a).length := by rw [List.length_drop]; omega
  have h2 : ((r.drop a).take n).length = n := by rw [List.length_take]; omega
  unfold cast_advance istream.read
  simp only [h1, if_true, List.drop_drop, Nat.add_assoc]
  rw [List.take_append_of_le_length (by omega), List.take_of_length_le (by omega)]

/-- A read of an integer that meets the end of the stream: the stream is no
longer good. -/
theorem cast_advance_short (r : List Nat) (p a n : Nat) (t : List Nat) (ha : a ≤ r.length)
    (h : ¬ a + n ≤ r.length) :
    cast_advance n t { rest := r.drop a, pos := p + a, good := true }
      = (little_endian ((r.drop a ++ t.drop (r.drop a).length).take n),
          { rest := [], pos := p + r.length, good := false }) := by
  have h1 : ¬ n ≤ (r.drop a).length := by rw [List.length_drop]; omega
  have h2 : p + a + (r.drop a).length = p + r.length := by rw [List.length_drop]; omega
  unfold cast_advance istream.read
  simp only [h1, if_true, if_false, h2]

theorem cast_advance_bad (r : List Nat) (p n : Nat) (t : List Nat) :
    cast_advance n t { rest := r, pos := p, good := false }
      = (little_endian (t.take n), { rest := r, pos := p, good := false }) := by
  simp [cast_advance, istream.read]

theorem ignore_at (r : List Nat) (p a n : Nat) (ha : a ≤ r.length) :
    istream.ignore { rest := r.drop a, pos := p + a, good := true } n
      = if a + n ≤ r.length then { rest := r.drop (a + n), pos := p + (a + n), good := true }
        else { rest := [], pos := p + r.length, good := false } := by
  unfold istream.ignore
  by_cases h : a + n ≤ r.length
  · have h1 : n ≤ (r.drop a).length := by rw [List.length_drop]; omega
    simp only [h1, h, if_true, List.drop_drop, Nat.add_assoc]
  · have h1 : ¬ n ≤ (r.drop a).length := by rw [List.length_drop]; omega
    have h2 : p + a + (r.drop a).length = p + r.length := by rw [List.length_drop]; omega
    simp only [h1, h, if_true, if_false, h2]

theorem ignore_bad (r : List Nat) (p n : Nat) :
    istream.ignore { rest := r, pos := p, good := false } n
      = { rest := r, pos := p, good := false } := by
  simp [istream.ignore]

theorem read_at (r : List Nat) (p a n : Nat) (ha : a ≤ r.length) :
    istream.read { rest := r.drop a, pos := p + a, good := true } n
      = if a + n ≤ r.length then
          ((r.drop a).take n, { rest := r.drop (a + n), pos := p + (a + n), good := true })
        else (r.drop a, { rest := [], pos := p + r.length, good := false }) := by
  unfold istream.read
  by_cases h : a + n ≤ r.length
  · have h1 : n ≤ (r.drop a).length := by rw [List.length_drop]; omega
    simp only [h1, h, if_true, List.drop_drop, Nat.add_assoc]
  · have h1 : ¬ n ≤ (r.drop a).length := by rw [List.length_drop]; omega
    have h2 : p + a + (r.drop a).length = p + r.length := by rw [List.length_drop]; omega
    simp only [h1, h, if_true, if_false, h2]

theorem read_bad (r : List Nat) (p n : Nat) :
    istream.read { rest := r, pos := p, good := false } n
      = ([], { rest := r, pos := p, good := false }) := by
  simp [istream.read]

theorem check_magic_loop_bad (m : Nat) (word r : List Nat) (p : Nat) :
    check_magic_number.loop (m :: word) { rest := r, pos := p, good := false }
      = .error (.invalid_argument "magic number does not match") := by
  simp [check_magic_number.loop, istream.get]

/-- The loop of `check_magic_number` on a good stream: it ends normally exactly
when the next bytes are the word, and then it has extracted them. -/
theorem check_magic_loop_good :
    ∀ (word r : List Nat) (p : Nat),
      check_magic_number.loop word { rest := r, pos := p, good := true }
        = if word.length ≤ r.length ∧ r.take word.length = word then
            .ok { rest := r.drop word.length, pos := p + word.length, good := true }
          else .error (.invalid_argument "magic number does not match") := by
  intro word
  induction word with
  | nil => intro r p; simp [check_magic_number.loop]
  | cons m word ih =>
    intro r p
    cases r with
    | nil => simp [check_magic_number.loop, istream.get]
    | cons b r =>
      by_cases hb : b = m
      · subst hb
        simp only [check_magic_number.loop, istream.get, if_true, ih, List.length_cons,
          Nat.add_le_add_iff_right, List.take_succ_cons, List.cons.injEq, true_and,
          List.drop_succ_cons, Nat.add_assoc, Nat.add_comm 1]
      · simp [check_magic_number.loop, istream.get, hb]

theorem check_magic_at (r : List Nat) (p a : Nat) :
    check_magic_number { rest := r.drop a, pos := p + a, good := true }
      = if a + 6 ≤ r.length ∧ (r.drop a).take 6 = magic_word then
          .ok { rest := r.drop (a + 6), pos := p + (a + 6), good := true }
        else .error (.invalid_argument "magic number does not match") := by
  unfold check_magic_number
  rw [check_magic_loop_good]
  have hm : magic_word.length = 6 := rfl
  rw [hm, List.length_drop, List.drop_drop, Nat.add_assoc]
  by_cases h : a + 6 ≤ r.length
  · have h1 : 6 ≤ r.length - a := by omega
    simp only [h, h1, true_and]
  · have h1 : ¬ 6 ≤ r.length - a := by omega
    simp only [h, h1, false_and]

theorem check_magic_bad (r : List Nat) (p : Nat) :
    check_magic_number { rest := r, pos := p, good := false }
      = .error (.invalid_argument "magic number does not match") :=
  check_magic_loop_bad _ _ _ _

/-- A stream that is not good stays as it is through the three loops of
`skip_header`. -/
theorem skip_header_lengths_bad (u : Nat → Nat → List Nat) (r : List Nat) (p : Nat) :
    ∀ n, skip_header.lengths u n { rest := r, pos := p, good := false }
      = { rest := r, pos := p, good := false } := by
  intro n
  induction n with
  | zero => rfl
  | succ n ih => simp only [skip_header.lengths, cast_advance_bad, ih]

theorem skip_header_names_bad (u : Nat → Nat → List Nat) (r : List Nat) (p : Nat) :
    ∀ (n : Nat) (name : List Nat),
      (skip_header.names u n name { rest := r, pos := p, good := false }).2
        = { rest := r, pos := p, good := false } := by
  intro n
  induction n with
  | zero => intro name; rfl
  | succ n ih =>
    intro name
    simp only [skip_header.names, cast_advance_bad, read_bad, ih]

theorem skip_header_graph_names_bad (u : Nat → Nat → List Nat) (r : List Nat) (p : Nat) :
    ∀ n, skip_header.graph_names u n { rest := r, pos := p, good := false }
      = { rest := r, pos := p, good := false } := by
  intro n
  induction n with
  | zero => rfl
  | succ n ih => simp only [skip_header.graph_names, ignore_bad, cast_advance_bad, ih]

theorem skip_header_lengths_at (u : Nat → Nat → List Nat) (r : List Nat) (p a : Nat)
    (ha : a ≤ r.length) :
    skip_header.lengths u 1 { rest := r.drop a, pos := p + a, good := true }
      = if a + 12 ≤ r.length then
          { rest := r.drop (a + 12), pos := p + (a + 12), good := true }
        else { rest := [], pos := p + r.length, good := false } := by
  simp only [skip_header.lengths]
  by_cases h4 : a + 4 ≤ r.length
  swap
  · rw [cast_advance_short r p a 4 _ ha h4, if_neg (by omega)]
    simp only [cast_advance_bad]
  rw [cast_advance_at r p a 4 _ h4]
  dsimp only
  by_cases h12 : a + 12 ≤ r.length
  · rw [cast_advance_at r p (a + 4) 8 _ (by omega), if_pos h12, Nat.add_assoc]
  · rw [cast_advance_short r p (a + 4) 8 _ h4 (by omega), if_neg h12]

/-- The loop of `skip_header` over the sample names, for one colour, when the
stream holds the length and the name. -/
theorem skip_header_names_at (u : Nat → Nat → List Nat) (r : List Nat) (p a : Nat)
    (h4 : a + 4 ≤ r.length)
    (hn : a + 4 + little_endian ((r.drop a).take 4) ≤ r.length) :
    skip_header.names u 1 [] { rest := r.drop a, pos := p + a, good := true }
      = ((r.drop (a + 4)).take (little_endian ((r.drop a).take 4)),
          { rest := r.drop (a + 4 + little_endian ((r.drop a).take 4))
            pos := p + (a + 4 + little_endian ((r.drop a).take 4))
            good := true }) := by
  simp only [skip_header.names]
  rw [cast_advance_at r p a 4 _ h4]
  dsimp only
  rw [read_at r p (a + 4) _ h4, if_pos hn]
  dsimp only
  simp only [List.take_nil, List.nil_append, Nat.sub_zero, List.length_nil]
  generalize little_endian ((r.drop a).take 4) = nl at hn
  have e : (List.replicate nl 0).drop ((r.drop (a + 4)).take nl).length = [] :=
    List.drop_of_length_le (by
      rw [List.length_replicate, List.length_take, List.length_drop]; omega)
  rw [e, List.append_nil]

/-- The loop of `skip_header` over the sample names, for one colour, when the
stream ends before the end of the name: the stream is no longer good. -/
theorem skip_header_names_short (u : Nat → Nat → List Nat) (r : List Nat) (p a : Nat)
    (ha : a ≤ r.length)
    (hn : ¬ (a + 4 ≤ r.length ∧ a + 4 + little_endian ((r.drop a).take 4) ≤ r.length)) :
    (skip_header.names u 1 [] { rest := r.drop a, pos := p + a, good := true }).2
      = { rest := [], pos := p + r.length, good := false } := by
  simp only [skip_header.names]
  by_cases h4 : a + 4 ≤ r.length
  swap
  · rw [cast_advance_short r p a 4 _ ha h4]
    dsimp only
    rw [read_bad]
  rw [cast_advance_at r p a 4 _ h4]
  dsimp only
  rw [read_at r p (a + 4) _ h4, if_neg (fun c => hn ⟨h4, c⟩)]

theorem skip_header_graph_names_at (u : Nat → Nat → List Nat) (r : List Nat) (p a : Nat)
    (ha : a ≤ r.length) :
    skip_header.graph_names u 1
        (istream.ignore { rest := r.drop a, pos := p + a, good := true } 16)
      = if a + 32 ≤ r.length ∧ a + 32 + little_endian ((r.drop (a + 28)).take 4) ≤ r.length
        then
          { rest := r.drop (a + 32 + little_endian ((r.drop (a + 28)).take 4))
            pos := p + (a + 32 + little_endian ((r.drop (a + 28)).take 4))
            good := true }
        else { rest := [], pos := p + r.length, good := false } := by
  simp only [skip_header.graph_names]
  rw [ignore_at r p a 16 ha]
  by_cases h16 : a + 16 ≤ r.length
  swap
  · rw [if_neg h16, if_neg (fun c => h16 (by omega))]
    simp only [ignore_bad, cast_advance_bad]
  rw [if_pos h16, ignore_at r p (a + 16) 12 h16]
  by_cases h28 : a + 28 ≤ r.length
  swap
  · rw [if_neg (by omega), if_neg (fun c => h28 (by omega))]
    simp only [ignore_bad, cast_advance_bad]
  rw [if_pos (by omega), show a + 16 + 12 = a + 28 from by omega]
  by_cases h32 : a + 32 ≤ r.length
  swap
  · rw [cast_advance_short r p (a + 28) 4 _ h28 (by omega), if_neg (fun c => h32 c.1)]
    simp only [ignore_bad]
  rw [cast_advance_at r p (a + 28) 4 _ (by omega)]
  dsimp only
  rw [show a + 28 + 4 = a + 32 from by omega, ignore_at r p (a + 32) _ h32]
  by_cases hg : a + 32 + little_endian ((r.drop (a + 28)).take 4) ≤ r.length
  · rw [if_pos hg, if_pos ⟨h32, hg⟩]
  · rw [if_neg hg, if_neg (fun c => hg c.2)]

/-- The function `skip_header` on a good stream whose bytes `r` are a header of
version 6, k 31 and one colour between two magic words: the header and the stream
it returns, whatever the uninitialised objects held. -/
theorem skip_header_accepts (u : Nat → Nat → List Nat) (r : List Nat) (p nl gl : Nat)
    (hnl : little_endian ((r.drop 34).take 4) = nl)
    (hgl : little_endian ((r.drop (66 + nl)).take 4) = gl)
    (hlen : 76 + nl + gl ≤ r.length)
    (hm : r.take 6 = magic_word)
    (hv : little_endian ((r.drop 6).take 4) = 6)
    (hk : little_endian ((r.drop 10).take 4) = 31)
    (hc : little_endian ((r.drop 18).take 4) = 1)
    (hm2 : (r.drop (70 + nl + gl)).take 6 = magic_word) :
    skip_header u { rest := r, pos := p, good := true }
      = .ok ({ version := 6
               kmer_size := 31
               num_words_per_kmer := little_endian ((r.drop 14).take 4)
               num_colors := 1
               name := (r.drop 38).take nl },
             { rest := r.drop (76 + nl + gl), pos := p + (76 + nl + gl), good := true }) := by
  have e0 : ({ rest := r, pos := p, good := true } : istream)
      = { rest := r.drop 0, pos := p + 0, good := true } := by simp
  unfold skip_header
  rw [e0, check_magic_at r p 0]
  simp only [Nat.zero_add, List.drop_zero]
  rw [if_pos ⟨by omega, hm⟩]
  dsimp only
  rw [cast_advance_at r p 6 4 _ (by omega)]
  simp only [Nat.reduceAdd]
  rw [cast_advance_at r p 10 4 _ (by omega)]
  simp only [Nat.reduceAdd]
  rw [cast_advance_at r p 14 4 _ (by omega)]
  simp only [Nat.reduceAdd]
  rw [cast_advance_at r p 18 4 _ (by omega)]
  simp only [Nat.reduceAdd, hv, hk, hc, ne_eq, not_true_eq_false, if_false, Nat.reduceMul,
    Nat.reducePow, Nat.reduceMod]
  rw [skip_header_lengths_at u r p 22 (by omega), if_pos (by omega)]
  simp only [Nat.reduceAdd]
  rw [skip_header_names_at u r p 34 (by omega) (by rw [hnl]; omega)]
  simp only [Nat.reduceAdd, hnl]
  rw [skip_header_graph_names_at u r p (38 + nl) (by omega)]
  rw [show 38 + nl + 28 = 66 + nl from by omega, hgl,
    if_pos ⟨by omega, by omega⟩, show 38 + nl + 32 + gl = 70 + nl + gl from by omega,
    check_magic_at r p (70 + nl + gl), if_pos ⟨by omega, hm2⟩,
    show 70 + nl + gl + 6 = 76 + nl + gl from by omega]

theorem skip_header_bad (u : Nat → Nat → List Nat) (r : List Nat) (p : Nat) :
    skip_header u { rest := r, pos := p, good := false }
      = .error (.invalid_argument "magic number does not match") := by
  unfold skip_header
  rw [check_magic_bad]

/-- A stream that does not begin with the magic word. -/
theorem skip_header_magic (u : Nat → Nat → List Nat) (r : List Nat) (p : Nat)
    (c1 : ¬ (6 ≤ r.length ∧ r.take 6 = magic_word)) :
    skip_header u { rest := r, pos := p, good := true }
      = .error (.invalid_argument "magic number does not match") := by
  have e0 : ({ rest := r, pos := p, good := true } : istream)
      = { rest := r.drop 0, pos := p + 0, good := true } := by simp
  unfold skip_header
  rw [e0, check_magic_at r p 0]
  simp only [Nat.zero_add, List.drop_zero]
  rw [if_neg c1]

/-- A stream that begins with the magic word and a version field other than 6. -/
theorem skip_header_version (u : Nat → Nat → List Nat) (r : List Nat) (p : Nat)
    (c1 : 6 ≤ r.length ∧ r.take 6 = magic_word) (c2 : 10 ≤ r.length)
    (c3 : little_endian ((r.drop 6).take 4) ≠ 6) :
    skip_header u { rest := r, pos := p, good := true } = .error .die := by
  have e0 : ({ rest := r, pos := p, good := true } : istream)
      = { rest := r.drop 0, pos := p + 0, good := true } := by simp
  unfold skip_header
  rw [e0, check_magic_at r p 0]
  simp only [Nat.zero_add, List.drop_zero]
  rw [if_pos c1]
  dsimp only
  rw [cast_advance_at r p 6 4 _ c2]
  dsimp only
  rw [if_pos c3]

/-- The function `skip_header` on a good stream whose bytes are not a header of
version 6, k 31 and one colour between two magic words: the call ends in `die`
or with the exception of `check_magic_number`, whatever the uninitialised
objects held. -/
theorem skip_header_rejects (u : Nat → Nat → List Nat) (r : List Nat) (p : Nat)
    (hnot : ∀ nl gl, little_endian ((r.drop 34).take 4) = nl →
      little_endian ((r.drop (66 + nl)).take 4) = gl →
      ¬ (76 + nl + gl ≤ r.length
        ∧ r.take 6 = magic_word
        ∧ little_endian ((r.drop 6).take 4) = 6
        ∧ little_endian ((r.drop 10).take 4) = 31
        ∧ little_endian ((r.drop 18).take 4) = 1
        ∧ (r.drop (70 + nl + gl)).take 6 = magic_word)) :
    skip_header u { rest := r, pos := p, good := true } = .error .die
    ∨ skip_header u { rest := r, pos := p, good := true }
        = .error (.invalid_argument "magic number does not match") := by
  have e0 : ({ rest := r, pos := p, good := true } : istream)
      = { rest := r.drop 0, pos := p + 0, good := true } := by simp
  unfold skip_header
  rw [e0, check_magic_at r p 0]
  simp only [Nat.zero_add, List.drop_zero]
  by_cases c1 : 6 ≤ r.length ∧ r.take 6 = magic_word
  swap
  · right; simp only [if_neg c1]
  simp only [if_pos c1]
  by_cases c2 : 10 ≤ r.length
  swap
  · rw [cast_advance_short r p 6 4 _ (by omega) (by omega)]
    simp only [cast_advance_bad, ignore_bad, read_bad, skip_header_lengths_bad,
      skip_header_names_bad, skip_header_graph_names_bad, check_magic_bad]
    split_ifs <;> simp
  rw [cast_advance_at r p 6 4 _ c2]
  simp only [Nat.reduceAdd]
  by_cases c3 : little_endian ((r.drop 6).take 4) = 6
  swap
  · left; simp only [ne_eq, c3, not_false_eq_true, if_true]
  simp only [ne_eq, c3, not_true_eq_false, if_false]
  by_cases c4 : 14 ≤ r.length
  swap
  · rw [cast_advance_short r p 10 4 _ c2 (by omega)]
    simp only [cast_advance_bad, ignore_bad, read_bad, skip_header_lengths_bad,
      skip_header_names_bad, skip_header_graph_names_bad, check_magic_bad]
    split_ifs <;> simp
  rw [cast_advance_at r p 10 4 _ c4]
  simp only [Nat.reduceAdd]
  by_cases c5 : little_endian ((r.drop 10).take 4) = 31
  swap
  · left; simp only [ne_eq, c5, not_false_eq_true, if_true]
  simp only [ne_eq, c5, not_true_eq_false, if_false]
  by_cases c6 : 18 ≤ r.length
  swap
  · rw [cast_advance_short r p 14 4 _ c4 (by omega)]
    simp only [cast_advance_bad, ignore_bad, read_bad, skip_header_lengths_bad,
      skip_header_names_bad, skip_header_graph_names_bad, check_magic_bad]
    split_ifs <;> simp
  rw [cast_advance_at r p 14 4 _ c6]
  simp only [Nat.reduceAdd]
  by_cases c7 : 22 ≤ r.length
  swap
  · rw [cast_advance_short r p 18 4 _ c6 (by omega)]
    simp only [cast_advance_bad, ignore_bad, read_bad, skip_header_lengths_bad,
      skip_header_names_bad, skip_header_graph_names_bad, check_magic_bad]
    split_ifs <;> simp
  rw [cast_advance_at r p 18 4 _ c7]
  simp only [Nat.reduceAdd]
  by_cases c8 : little_endian ((r.drop 18).take 4) = 1
  swap
  · left; simp only [ne_eq, c8, not_false_eq_true, if_true]
  simp only [ne_eq, c8, not_true_eq_false, if_false, Nat.reduceMul, Nat.reducePow,
    Nat.reduceMod]
  rw [skip_header_lengths_at u r p 22 c7]
  by_cases c9 : 34 ≤ r.length
  swap
  · rw [if_neg (by omega)]
    simp [ignore_bad, skip_header_names_bad, skip_header_graph_names_bad, check_magic_bad]
  rw [if_pos (by omega)]
  simp only [Nat.reduceAdd]
  obtain ⟨nl, hnl⟩ : ∃ nl, little_endian ((r.drop 34).take 4) = nl := ⟨_, rfl⟩
  by_cases c10 : 38 ≤ r.length ∧ 38 + nl ≤ r.length
  swap
  · rw [skip_header_names_short u r p 34 c9 (by rw [hnl]; exact c10)]
    simp [ignore_bad, skip_header_graph_names_bad, check_magic_bad]
  rw [skip_header_names_at u r p 34 c10.1 (by rw [hnl]; exact c10.2)]
  simp only [Nat.reduceAdd, hnl]
  rw [skip_header_graph_names_at u r p (38 + nl) c10.2,
    show 38 + nl + 28 = 66 + nl from by omega]
  obtain ⟨gl, hgl⟩ : ∃ gl, little_endian ((r.drop (66 + nl)).take 4) = gl := ⟨_, rfl⟩
  rw [hgl]
  by_cases c11 : 38 + nl + 32 ≤ r.length ∧ 38 + nl + 32 + gl ≤ r.length
  swap
  · rw [if_neg c11]
    simp [check_magic_bad]
  rw [if_pos c11, show 38 + nl + 32 + gl = 70 + nl + gl from by omega,
    check_magic_at r p (70 + nl + gl)]
  by_cases c12 : 70 + nl + gl + 6 ≤ r.length ∧ (r.drop (70 + nl + gl)).take 6 = magic_word
  · exact absurd ⟨by omega, c1.2, c3, c5, c8, c12.2⟩ (hnot nl gl hnl hgl)
  · right; simp only [if_neg c12]

/-- The function `skip_header` on a good stream whose four checked fields are
right and which ends before the second magic word, or does not hold it: the call
ends with the exception of `check_magic_number`, whatever the uninitialised
objects held. -/
theorem skip_header_truncated (u : Nat → Nat → List Nat) (r : List Nat) (p : Nat)
    (c1 : 6 ≤ r.length ∧ r.take 6 = magic_word) (c7 : 22 ≤ r.length)
    (c3 : little_endian ((r.drop 6).take 4) = 6)
    (c5 : little_endian ((r.drop 10).take 4) = 31)
    (c8 : little_endian ((r.drop 18).take 4) = 1)
    (hnot : ∀ nl gl, little_endian ((r.drop 34).take 4) = nl →
      little_endian ((r.drop (66 + nl)).take 4) = gl →
      ¬ (76 + nl + gl ≤ r.length ∧ (r.drop (70 + nl + gl)).take 6 = magic_word)) :
    skip_header u { rest := r, pos := p, good := true }
      = .error (.invalid_argument "magic number does not match") := by
  have e0 : ({ rest := r, pos := p, good := true } : istream)
      = { rest := r.drop 0, pos := p + 0, good := true } := by simp
  unfold skip_header
  rw [e0, check_magic_at r p 0]
  simp only [Nat.zero_add, List.drop_zero]
  simp only [if_pos c1]
  rw [cast_advance_at r p 6 4 _ (by omega)]
  simp only [Nat.reduceAdd]
  rw [cast_advance_at r p 10 4 _ (by omega)]
  simp only [Nat.reduceAdd]
  rw [cast_advance_at r p 14 4 _ (by omega)]
  simp only [Nat.reduceAdd]
  rw [cast_advance_at r p 18 4 _ (by omega)]
  simp only [Nat.reduceAdd, c3, c5, c8, ne_eq, not_true_eq_false, if_false, Nat.reduceMul,
    Nat.reducePow, Nat.reduceMod]
  rw [skip_header_lengths_at u r p 22 c7]
  by_cases c9 : 34 ≤ r.length
  swap
  · rw [if_neg (by omega)]
    simp [ignore_bad, skip_header_names_bad, skip_header_graph_names_bad, check_magic_bad]
  rw [if_pos (by omega)]
  simp only [Nat.reduceAdd]
  obtain ⟨nl, hnl⟩ : ∃ nl, little_endian ((r.drop 34).take 4) = nl := ⟨_, rfl⟩
  by_cases c10 : 38 ≤ r.length ∧ 38 + nl ≤ r.length
  swap
  · rw [skip_header_names_short u r p 34 c9 (by rw [hnl]; exact c10)]
    simp [ignore_bad, skip_header_graph_names_bad, check_magic_bad]
  rw [skip_header_names_at u r p 34 c10.1 (by rw [hnl]; exact c10.2)]
  simp only [Nat.reduceAdd, hnl]
  rw [skip_header_graph_names_at u r p (38 + nl) c10.2,
    show 38 + nl + 28 = 66 + nl from by omega]
  obtain ⟨gl, hgl⟩ : ∃ gl, little_endian ((r.drop (66 + nl)).take 4) = gl := ⟨_, rfl⟩
  rw [hgl]
  by_cases c11 : 38 + nl + 32 ≤ r.length ∧ 38 + nl + 32 + gl ≤ r.length
  swap
  · rw [if_neg c11]
    simp [check_magic_bad]
  rw [if_pos c11, show 38 + nl + 32 + gl = 70 + nl + gl from by omega,
    check_magic_at r p (70 + nl + gl)]
  by_cases c12 : 70 + nl + gl + 6 ≤ r.length ∧ (r.drop (70 + nl + gl)).take 6 = magic_word
  · exact absurd ⟨by omega, c12.2⟩ (hnot nl gl hnl hgl)
  · simp only [if_neg c12]

/-- C13 (cortex header validation).  For every stream, and whatever the
uninitialised objects of `cast_advance` hold, `skip_header` returns the header
`h` and leaves the stream `is1` if and only if the stream is good and its bytes
are, in order: the 6 bytes `CORTEX`; a version field of value 6; a k-mer size
field of value 31; the field of the words per k-mer; a colour count of value 1;
12 bytes; the length `nl` of the sample name; `nl` bytes, which are the name
returned; 28 bytes; the length `gl` of the graph name; `gl` bytes; and the 6
bytes `CORTEX` again, after which `is1` stands.  In every other case the call
fails and returns no header.  The file `good_ctx` is accepted. -/
theorem skip_header_validates (uninit : Nat → Nat → List Nat) (is : istream) (h : header)
    (is1 : istream) :
    (skip_header uninit is = .ok (h, is1) ↔
      is.good = true
      ∧ ∃ nl gl,
          little_endian ((is.rest.drop 34).take 4) = nl
          ∧ little_endian ((is.rest.drop (66 + nl)).take 4) = gl
          ∧ 76 + nl + gl ≤ is.rest.length
          ∧ is.rest.take 6 = magic_word
          ∧ little_endian ((is.rest.drop 6).take 4) = 6
          ∧ little_endian ((is.rest.drop 10).take 4) = 31
          ∧ little_endian ((is.rest.drop 18).take 4) = 1
          ∧ (is.rest.drop (70 + nl + gl)).take 6 = magic_word
          ∧ h = { version := 6
                  kmer_size := 31
                  num_words_per_kmer := little_endian ((is.rest.drop 14).take 4)
                  num_colors := 1
                  name := (is.rest.drop 38).take nl }
          ∧ is1 = { rest := is.rest.drop (76 + nl + gl)
                    pos := is.pos + (76 + nl + gl)
                    good := true })
    ∧ ((¬ ∃ h1 is2, skip_header uninit is = .ok (h1, is2)) →
        ∃ e, skip_header uninit is = .error e)
    ∧ skip_header uninit { rest := good_ctx, pos := 0, good := true }
        = .ok ({ version := 6, kmer_size := 31, num_words_per_kmer := 1, num_colors := 1,
                 name := [115] },
               { rest := two_records, pos := 77, good := true }) := by
  refine ⟨?_, ?_, ?_⟩
  · obtain ⟨r, p, g⟩ := is
    cases g with
    | false =>
      rw [skip_header_bad]
      constructor
      · intro hok; cases hok
      · intro hr; exact absurd hr.1 Bool.false_ne_true
    | true =>
      dsimp only
      constructor
      · intro hok
        by_cases hC : ∃ nl gl, little_endian ((r.drop 34).take 4) = nl
            ∧ little_endian ((r.drop (66 + nl)).take 4) = gl
            ∧ 76 + nl + gl ≤ r.length
            ∧ r.take 6 = magic_word
            ∧ little_endian ((r.drop 6).take 4) = 6
            ∧ little_endian ((r.drop 10).take 4) = 31
            ∧ little_endian ((r.drop 18).take 4) = 1
            ∧ (r.drop (70 + nl + gl)).take 6 = magic_word
        · obtain ⟨nl, gl, hnl, hgl, hlen, hm, hv, hk, hc, hm2⟩ := hC
          rw [skip_header_accepts uninit r p nl gl hnl hgl hlen hm hv hk hc hm2] at hok
          injection hok with hok
          injection hok with e1 e2
          exact ⟨rfl, nl, gl, hnl, hgl, hlen, hm, hv, hk, hc, hm2, e1.symm, e2.symm⟩
        · rcases skip_header_rejects uninit r p (fun nl gl hnl hgl hrest =>
            hC ⟨nl, gl, hnl, hgl, hrest⟩) with e | e
          · rw [e] at hok; cases hok
          · rw [e] at hok; cases hok
      · rintro ⟨_, nl, gl, hnl, hgl, hlen, hm, hv, hk, hc, hm2, rfl, rfl⟩
        exact skip_header_accepts uninit r p nl gl hnl hgl hlen hm hv hk hc hm2
  · intro hno
    cases hs : skip_header uninit is with
    | error e => exact ⟨e, rfl⟩
    | ok x => exact absurd ⟨x.1, x.2, hs⟩ hno
  · exact (skip_header_accepts uninit good_ctx 0 1 0 (by decide) (by decide) (by decide)
      (by decide) (by decide) (by decide) (by decide) (by decide)).trans (by decide)

/-- C18 (cortex writes and the sample buffer): the file `wide_ctx`.  `skip_header`
accepts its header, which says two words per k-mer; `process_file` sizes the
sample to `21 / (8 * 2 + 5 * 1) = 1` k-mer of 8 bytes; the copy of the one record
is of 16 bytes and leaves the sample. -/
theorem process_file_overruns (uninit : Nat → Nat → List Nat) :
    skip_header uninit { rest := wide_ctx, pos := 0, good := true }
      = .ok ({ version := 6, kmer_size := 31, num_words_per_kmer := 2, num_colors := 1,
               name := [115] },
             { rest := two_records.take 21, pos := 77, good := true })
    ∧ (resize [] ((two_records.take 21).length / ((8 * 2 + 5 * 1) % 2 ^ 32))).length = 8
    ∧ ((8 * 2) % 2 ^ 32 = 16 ∧ ¬ 0 + 16 ≤ 8)
    ∧ process_file uninit wide_ctx [] 10
        = { sample_data := List.replicate 8 0, written := none,
            ending := .error .out_of_range } := by
  have hs : skip_header uninit { rest := wide_ctx, pos := 0, good := true }
      = .ok ({ version := 6, kmer_size := 31, num_words_per_kmer := 2, num_colors := 1,
               name := [115] },
             { rest := two_records.take 21, pos := 77, good := true }) :=
    (skip_header_accepts uninit wide_ctx 0 1 0 (by decide) (by decide) (by decide)
      (by decide) (by decide) (by decide) (by decide) (by decide)).trans (by decide)
  refine ⟨hs, by decide, by decide, ?_⟩
  unfold process_file
  rw [if_neg (by decide), hs]
  decide

/-! ## Files of a directory -/

/-- A failure of `skip_header` is the failure of `process_file`, and nothing is
written. -/
theorem process_file_header_error (uninit : Nat → Nat → List Nat) (v data : List Nat)
    (fuel : Nat) (e : failure) (hv : v ≠ [])
    (hs : skip_header uninit { rest := v, pos := 0, good := true } = .error e) :
    process_file uninit v data fuel
      = { sample_data := data, written := none, ending := .error e } := by
  unfold process_file
  rw [if_neg hv, hs]

/-- The loop of `process_all_in_directory` when every file either is processed
normally or fails with an exception that is caught: the loop reaches the end of
the entries, keeps the lines printed so far, tries every file that is eligible
unless its output exists, and prints `OK` for a file exactly when `process_file`
ended normally on it. -/
theorem process_all_loop_isolates (die_throws : Bool) (uninit : Nat → Nat → List Nat)
    (fuel : Nat) :
    ∀ (entries : List directory_entry) (st : directory_state),
      (∀ e ∈ entries, ∀ data,
        (process_file uninit e.bytes data fuel).ending = .ok ()
        ∨ (∃ what,
            (process_file uninit e.bytes data fuel).ending = .error (.invalid_argument what))
        ∨ (die_throws = true ∧ (process_file uninit e.bytes data fuel).ending = .error .die)) →
      ∃ st1, process_all_in_directory.loop die_throws uninit fuel entries st = .ok st1
        ∧ (∀ x ∈ st.report, x ∈ st1.report)
        ∧ (∀ e ∈ entries, e.is_regular_file = true → e.extension = ".ctx" →
            e.uncleaned = false →
            e.stem ∈ st.existing ∨ e.stem ∈ st1.report.map Prod.fst)
        ∧ (∀ x ∈ st1.report, x ∈ st.report
            ∨ ∃ e ∈ entries, ∃ data, x.1 = e.stem
                ∧ (x.2 = true ↔ (process_file uninit e.bytes data fuel).ending = .ok ())) := by
  intro entries
  induction entries with
  | nil =>
    intro st _
    exact ⟨st, rfl, fun x hx => hx, fun e he => absurd he (List.not_mem_nil _),
      fun x hx => Or.inl hx⟩
  | cons e entries ih =>
    intro st hyp
    have hrest : ∀ e1 ∈ entries, ∀ data,
        (process_file uninit e1.bytes data fuel).ending = .ok ()
        ∨ (∃ what,
            (process_file uninit e1.bytes data fuel).ending = .error (.invalid_argument what))
        ∨ (die_throws = true
            ∧ (process_file uninit e1.bytes data fuel).ending = .error .die) :=
      fun e1 he1 => hyp e1 (List.mem_cons_of_mem _ he1)
    rw [process_all_in_directory.loop]
    by_cases hel : e.is_regular_file = true ∧ e.extension = ".ctx" ∧ e.uncleaned = false
        ∧ e.stem ∉ st.existing
    · rw [if_pos hel]
      have hE := hyp e (List.mem_cons_self _ _) st.sample_data
      -- what the loop does after the file, given the flag it prints
      have key : ∀ (data1 : List Nat) (existing1 : List String) (flag : Bool),
          (∀ s ∈ existing1, s ∈ st.existing ∨ s = e.stem) →
          (flag = true ↔ (process_file uninit e.bytes st.sample_data fuel).ending = .ok ()) →
          ∃ st1, process_all_in_directory.loop die_throws uninit fuel entries
                { sample_data := data1, existing := existing1,
                  report := st.report ++ [(e.stem, flag)] } = .ok st1
            ∧ (∀ x ∈ st.report, x ∈ st1.report)
            ∧ (∀ e1 ∈ e :: entries, e1.is_regular_file = true → e1.extension = ".ctx" →
                e1.uncleaned = false →
                e1.stem ∈ st.existing ∨ e1.stem ∈ st1.report.map Prod.fst)
            ∧ (∀ x ∈ st1.report, x ∈ st.report
                ∨ ∃ e1 ∈ e :: entries, ∃ data, x.1 = e1.stem
                    ∧ (x.2 = true ↔ (process_file uninit e1.bytes data fuel).ending = .ok ())) := by
        intro data1 existing1 flag hex hflag
        obtain ⟨st1, hrun, hmono, htried, hflags⟩ := ih
          { sample_data := data1, existing := existing1,
            report := st.report ++ [(e.stem, flag)] } hrest
        have hmine : e.stem ∈ st1.report.map Prod.fst :=
          List.mem_map.mpr ⟨(e.stem, flag),
            hmono _ (List.mem_append_right _ (List.mem_singleton.mpr rfl)), rfl⟩
        refine ⟨st1, hrun, fun x hx => hmono x (List.mem_append_left _ hx), ?_, ?_⟩
        · intro e1 he1 h1 h2 h3
          rcases List.mem_cons.mp he1 with rfl | he1
          · exact Or.inr hmine
          · rcases htried e1 he1 h1 h2 h3 with hin | hin
            · rcases hex _ hin with hin | hin
              · exact Or.inl hin
              · rw [hin]; exact Or.inr hmine
            · exact Or.inr hin
        · intro x hx
          rcases hflags x hx with hin | ⟨e1, he1, data, h1, h2⟩
          · rcases List.mem_append.mp hin with hin | hin
            · exact Or.inl hin
            · rw [List.mem_singleton.mp hin]
              exact Or.inr ⟨e, List.mem_cons_self _ _, st.sample_data, rfl, hflag⟩
          · exact Or.inr ⟨e1, List.mem_cons_of_mem _ he1, data, h1, h2⟩
      rcases hpf : process_file uninit e.bytes st.sample_data fuel with
        ⟨data1, written, ending⟩
      rw [hpf] at hE key
      dsimp only at hE key
      rcases hE with h1 | ⟨what, h1⟩ | ⟨hdt, h1⟩
      · subst h1
        dsimp only
        refine key data1 _ true ?_ (by simp)
        intro s hs
        split at hs
        · rcases List.mem_append.mp hs with hs | hs
          · exact Or.inl hs
          · exact Or.inr (List.mem_singleton.mp hs)
        · exact Or.inl hs
      · subst h1
        dsimp only
        exact key data1 _ false (fun s hs => Or.inl hs) (by simp)
      · subst h1
        dsimp only
        rw [if_pos hdt]
        exact key data1 _ false (fun s hs => Or.inl hs) (by simp)
    · rw [if_neg hel]
      obtain ⟨st1, hrun, hmono, htried, hflags⟩ := ih st hrest
      refine ⟨st1, hrun, hmono, ?_, ?_⟩
      · intro e1 he1 h1 h2 h3
        rcases List.mem_cons.mp he1 with rfl | he1
        · left
          by_contra hnot
          exact hel ⟨h1, h2, h3, hnot⟩
        · exact htried e1 he1 h1 h2 h3
      · intro x hx
        rcases hflags x hx with hin | ⟨e1, he1, data, h1, h2⟩
        · exact Or.inl hin
        · exact Or.inr ⟨e1, List.mem_cons_of_mem _ he1, data, h1, h2⟩

/-- One pass of the loop of `process_all_in_directory` over a file that is tried
and ends normally. -/
theorem process_all_loop_ok (die_throws : Bool) (uninit : Nat → Nat → List Nat) (fuel : Nat)
    (e : directory_entry) (entries : List directory_entry) (st : directory_state)
    (data1 : List Nat) (written : Option sample_file)
    (hel : e.is_regular_file = true ∧ e.extension = ".ctx" ∧ e.uncleaned = false
      ∧ e.stem ∉ st.existing)
    (hpf : process_file uninit e.bytes st.sample_data fuel
      = { sample_data := data1, written := written, ending := .ok () }) :
    process_all_in_directory.loop die_throws uninit fuel (e :: entries) st
      = process_all_in_directory.loop die_throws uninit fuel entries
          { sample_data := data1
            existing := if written.isSome then st.existing ++ [e.stem] else st.existing
            report := st.report ++ [(e.stem, true)] } := by
  rw [process_all_in_directory.loop, if_pos hel, hpf]

/-- One pass of the loop over a file that is tried and throws
`std::invalid_argument`. -/
theorem process_all_loop_invalid (die_throws : Bool) (uninit : Nat → Nat → List Nat)
    (fuel : Nat) (e : directory_entry) (entries : List directory_entry)
    (st : directory_state) (data1 : List Nat) (written : Option sample_file) (what : String)
    (hel : e.is_regular_file = true ∧ e.extension = ".ctx" ∧ e.uncleaned = false
      ∧ e.stem ∉ st.existing)
    (hpf : process_file uninit e.bytes st.sample_data fuel
      = { sample_data := data1, written := written,
          ending := .error (.invalid_argument what) }) :
    process_all_in_directory.loop die_throws uninit fuel (e :: entries) st
      = process_all_in_directory.loop die_throws uninit fuel entries
          { sample_data := data1, existing := st.existing,
            report := st.report ++ [(e.stem, false)] } := by
  rw [process_all_in_directory.loop, if_pos hel, hpf]

/-- One pass of the loop over a file that is tried and ends in `die`. -/
theorem process_all_loop_die (die_throws : Bool) (uninit : Nat → Nat → List Nat)
    (fuel : Nat) (e : directory_entry) (entries : List directory_entry)
    (st : directory_state) (data1 : List Nat) (written : Option sample_file)
    (hel : e.is_regular_file = true ∧ e.extension = ".ctx" ∧ e.uncleaned = false
      ∧ e.stem ∉ st.existing)
    (hpf : process_file uninit e.bytes st.sample_data fuel
      = { sample_data := data1, written := written, ending := .error .die }) :
    process_all_in_directory.loop die_throws uninit fuel (e :: entries) st
      = if die_throws then
          process_all_in_directory.loop die_throws uninit fuel entries
            { sample_data := data1, existing := st.existing,
              report := st.report ++ [(e.stem, false)] }
        else .error .die := by
  rw [process_all_in_directory.loop, if_pos hel, hpf]

/-- C14 (per-file failure isolation): a directory with the file `a.ctx` of
version 5 and the well-formed file `b.ctx`.  `skip_header` ends the first file
through the macro `die`, where `check_magic_number` throws: when `die` ends the
process, as it does unless tlx has been set to throw, the run ends at `a.ctx`
and `b.ctx` is not processed.  A file that fails at the magic word in the same
place, and a file whose header is cut short after 40 bytes, are reported and the
run goes on to `b.ctx`; so it does for `a.ctx` when `die` throws. -/
theorem process_all_in_directory_die (uninit : Nat → Nat → List Nat) :
    (process_file uninit bad_version_ctx [] 10).ending = .error .die
    ∧ (process_file uninit good_ctx [] 10).ending = .ok ()
    ∧ process_all_in_directory false uninit
          [ctx_entry "a" bad_version_ctx, ctx_entry "b" good_ctx] [] 10
        = .error .die
    ∧ process_all_in_directory false uninit
          [ctx_entry "m" two_records, ctx_entry "b" good_ctx] [] 10
        = .ok { sample_data := [1, 2, 3, 4, 5, 6, 7, 8, 11, 12, 13, 14, 15, 16, 17, 18]
                existing := ["b"]
                report := [("m", false), ("b", true)] }
    ∧ process_all_in_directory false uninit
          [ctx_entry "t" (good_ctx.take 40), ctx_entry "b" good_ctx] [] 10
        = .ok { sample_data := [1, 2, 3, 4, 5, 6, 7, 8, 11, 12, 13, 14, 15, 16, 17, 18]
                existing := ["b"]
                report := [("t", false), ("b", true)] }
    ∧ process_all_in_directory true uninit
          [ctx_entry "a" bad_version_ctx, ctx_entry "b" good_ctx] [] 10
        = .ok { sample_data := [1, 2, 3, 4, 5, 6, 7, 8, 11, 12, 13, 14, 15, 16, 17, 18]
                existing := ["b"]
                report := [("a", false), ("b", true)] } := by
  have hbad : ∀ data, process_file uninit bad_version_ctx data 10
      = { sample_data := data, written := none, ending := .error .die } := fun data =>
    process_file_header_error uninit bad_version_ctx data 10 .die (by decide)
      (skip_header_version uninit bad_version_ctx 0 (by decide) (by decide) (by decide))
  have hmagic : ∀ data, process_file uninit two_records data 10
      = { sample_data := data, written := none,
          ending := .error (.invalid_argument "magic number does not match") } := fun data =>
    process_file_header_error uninit two_records data 10 _ (by decide)
      (skip_header_magic uninit two_records 0 (by decide))
  have hshort : ∀ data, process_file uninit (good_ctx.take 40) data 10
      = { sample_data := data, written := none,
          ending := .error (.invalid_argument "magic number does not match") } := fun data =>
    process_file_header_error uninit (good_ctx.take 40) data 10 _ (by decide)
      (skip_header_truncated uninit (good_ctx.take 40) 0 (by decide) (by decide) (by decide)
        (by decide) (by decide) (fun nl gl _ _ h => by
          have hl : (good_ctx.take 40).length = 40 := by decide
          omega))
  have hs : skip_header uninit { rest := good_ctx, pos := 0, good := true }
      = .ok ({ version := 6, kmer_size := 31, num_words_per_kmer := 1, num_colors := 1,
               name := [115] },
             { rest := two_records, pos := 77, good := true }) :=
    (skip_header_accepts uninit good_ctx 0 1 0 (by decide) (by decide) (by decide)
      (by decide) (by decide) (by decide) (by decide) (by decide)).trans (by decide)
  have hgood : process_file uninit good_ctx [] 10
      = { sample_data := [1, 2, 3, 4, 5, 6, 7, 8, 11, 12, 13, 14, 15, 16, 17, 18]
          written := some { name := [115]
                            data := [1, 2, 3, 4, 5, 6, 7, 8, 11, 12, 13, 14, 15, 16, 17, 18] }
          ending := .ok () } := by
    unfold process_file
    rw [if_neg (by decide), hs]
    decide
  have hb : ∀ (die_throws : Bool) (st : directory_state), "b" ∉ st.existing →
      st.sample_data = [] →
      process_all_in_directory.loop die_throws uninit 10 [ctx_entry "b" good_ctx] st
        = .ok { sample_data := [1, 2, 3, 4, 5, 6, 7, 8, 11, 12, 13, 14, 15, 16, 17, 18]
                existing := st.existing ++ ["b"]
                report := st.report ++ [("b", true)] } := by
    intro die_throws st hex hdata
    rw [process_all_loop_ok die_throws uninit 10 (ctx_entry "b" good_ctx) [] st
      [1, 2, 3, 4, 5, 6, 7, 8, 11, 12, 13, 14, 15, 16, 17, 18]
      (some { name := [115]
              data := [1, 2, 3, 4, 5, 6, 7, 8, 11, 12, 13, 14, 15, 16, 17, 18] })
      ⟨rfl, rfl, rfl, hex⟩ (by rw [hdata]; exact hgood)]
    rfl
  refine ⟨by rw [hbad], by rw [hgood], ?_, ?_, ?_, ?_⟩
  · unfold process_all_in_directory
    rw [process_all_loop_die false uninit 10 (ctx_entry "a" bad_version_ctx)
      [ctx_entry "b" good_ctx] { sample_data := [], existing := [], report := [] } [] none
      ⟨rfl, rfl, rfl, List.not_mem_nil _⟩ (hbad [])]
    rfl
  · unfold process_all_in_directory
    rw [process_all_loop_invalid false uninit 10 (ctx_entry "m" two_records)
      [ctx_entry "b" good_ctx] { sample_data := [], existing := [], report := [] } [] none _
      ⟨rfl, rfl, rfl, List.not_mem_nil _⟩ (hmagic []),
      hb false _ (List.not_mem_nil _) rfl]
    rfl
  · unfold process_all_in_directory
    rw [process_all_loop_invalid false uninit 10 (ctx_entry "t" (good_ctx.take 40))
      [ctx_entry "b" good_ctx] { sample_data := [], existing := [], report := [] } [] none _
      ⟨rfl, rfl, rfl, List.not_mem_nil _⟩ (hshort []),
      hb false _ (List.not_mem_nil _) rfl]
    rfl
  · unfold process_all_in_directory
    rw [process_all_loop_die true uninit 10 (ctx_entry "a" bad_version_ctx)
      [ctx_entry "b" good_ctx] { sample_data := [], existing := [], report := [] } [] none
      ⟨rfl, rfl, rfl, List.not_mem_nil _⟩ (hbad []), if_pos rfl,
      hb true _ (List.not_mem_nil _) rfl]
    rfl
